import Mathlib

/-!
A verification development for the treemap-tree module (tm_trees.py).

The Python module implements a mutable tree of nodes (class TMTree and its
subclasses FileTree, DirectoryTree, ChessTree) with expand/collapse visibility
flags, structural mutation (move, change_size) and a rectangle-partition
layout (update_rectangles), plus the prefix-trie ingestion function
moves_to_nested_dict.

Embedding conventions:
* A whole tree is one pure inductive value `TMTree`; a node is addressed by
  its path from the root (`List Nat` of child indices).  The Python
  `_parent_tree` back-pointer and the membership of a node in its parent's
  `_subtrees` are represented by the tree structure itself, so the
  bidirectional parent/child representation invariants hold by construction.
* Python's class tag (TMTree / FileTree / DirectoryTree / ChessTree) becomes
  the `kind` field; method dispatch becomes a `match` on `kind`.
* Machine integers are `Int`; the float arithmetic in `update_rectangles`
  (`math.floor((a * b) / total)`) and `change_size` (`math.floor/ceil` of
  `factor * size`) is modelled exactly over `Int` / `ℚ`, with `Int.fdiv` for
  the floored quotient.
* A raised `OperationNotSupportedError` becomes the `OpOutcome.unsupported`
  constructor (carrying the unmodified tree); a crash on a violated
  precondition (`AttributeError` on a `None` parent, `TypeError` on a `None`
  rect) becomes `none` / `OpOutcome.invalid`.
* The ambient `randint` colour at construction becomes an explicit colour
  argument.
-/

/-- A pygame-style rectangle `(x, y, width, height)` with `(x, y)` the upper
left corner, as used by `update_rectangles`. -/
structure Rect where
  x : Int
  y : Int
  w : Int
  h : Int
deriving DecidableEq, Repr

/-- The class of a node: base `TMTree`, `FileTree`, `DirectoryTree` or
`ChessTree`. -/
inductive Kind where
  | generic
  | file
  | directory
  | chessMove
deriving DecidableEq, Repr

/-- A whole (sub)tree: the fields of one Python node plus its subtrees.
Field order: name, data_size, colour, expanded, rect, kind, subtrees. -/
inductive TMTree where
  | mk (name : String) (data_size : Int) (colour : Nat × Nat × Nat)
       (expanded : Bool) (rect : Option Rect) (kind : Kind)
       (subtrees : List TMTree) : TMTree

/-- Accessor for the `_name` attribute. -/
def TMTree.name : TMTree → String
  | .mk n _ _ _ _ _ _ => n

/-- Accessor for the `data_size` attribute. -/
def TMTree.data_size : TMTree → Int
  | .mk _ s _ _ _ _ _ => s

/-- Accessor for the `_colour` attribute. -/
def TMTree.colour : TMTree → Nat × Nat × Nat
  | .mk _ _ c _ _ _ _ => c

/-- Accessor for the `_expanded` attribute. -/
def TMTree.expanded : TMTree → Bool
  | .mk _ _ _ e _ _ _ => e

/-- Accessor for the `rect` attribute (`none` until a layout is computed). -/
def TMTree.rect : TMTree → Option Rect
  | .mk _ _ _ _ r _ _ => r

/-- Accessor for the variant tag. -/
def TMTree.kind : TMTree → Kind
  | .mk _ _ _ _ _ k _ => k

/-- Accessor for the `_subtrees` attribute. -/
def TMTree.subtrees : TMTree → List TMTree
  | .mk _ _ _ _ _ _ ts => ts

/-- Sum of the `data_size` of the trees in a list (the loops
`for subtree in self._subtrees: total += subtree.data_size`). -/
def sumSizes (ts : List TMTree) : Int :=
  (ts.map TMTree.data_size).sum

/-- `TMTree.__init__(name, subtrees, data_size)`: the node's `data_size` is
`data_size` plus the sizes of the subtrees, `rect` is `None`, and the node is
expanded iff `subtrees` is non-empty.  The random colour is an explicit
argument, and `kind` records the class of the constructed object. -/
def TMTree.init (name : String) (subtrees : List TMTree) (data_size : Int)
    (colour : Nat × Nat × Nat) (kind : Kind) : TMTree :=
  TMTree.mk name (data_size + sumSizes subtrees) colour (!subtrees.isEmpty)
    none kind subtrees

/-- `FileTree.__init__(name, data_size)`: a leaf node of kind `file`. -/
def FileTree.init (name : String) (data_size : Int)
    (colour : Nat × Nat × Nat) : TMTree :=
  TMTree.init name [] data_size colour Kind.file

/-- `DirectoryTree.__init__(name, subtrees)`: own contribution fixed at 1,
kind `directory`. -/
def DirectoryTree.init (name : String) (subtrees : List TMTree)
    (colour : Nat × Nat × Nat) : TMTree :=
  TMTree.init name subtrees 1 colour Kind.directory

/-!
The nested dictionary produced by `moves_to_nested_dict`: keys are
`(move, games_ended_here)` pairs, values are nested dictionaries.  A Python
`dict` preserves insertion order, so it is embedded as an association list.
-/

/-- The nested-dictionary shape `dict[tuple[str, int], dict]`. -/
inductive NDict where
  | mk (entries : List ((String × Nat) × NDict)) : NDict

/-- Accessor for the entries of an `NDict`. -/
def NDict.entries : NDict → List ((String × Nat) × NDict)
  | .mk es => es

/-- The keys of the Python dict `d` built by the first loop of
`moves_to_nested_dict`: the first tokens of the non-empty sequences, in
first-occurrence order (re-assigning `d[lst[0]] = []` keeps the original
insertion position). -/
def firstMoves : List (List String) → List String
  | [] => []
  | [] :: rest => firstMoves rest
  | (tok :: _) :: rest => tok :: (firstMoves rest).filter (fun x => x ≠ tok)

/-- The value `d[tok]` built by the second loop of `moves_to_nested_dict`:
the tails (`lst[1:]`) of the non-empty sequences whose first token is `tok`,
in input order. -/
def groupOf (moves : List (List String)) (tok : String) : List (List String) :=
  ((moves.filter (fun l => !l.isEmpty)).filter
    (fun l => l.headI = tok)).map List.tail

/-- The length of the longest sequence in `moves`; used only as a structural
recursion bound for `moves_to_nested_dict` (the Python recursion always
strips one token from every sequence it recurses on, so the longest
sequence bounds the recursion depth). -/
def maxSeqLen (moves : List (List String)) : Nat :=
  (moves.map List.length).foldr max 0

/-- Body of `moves_to_nested_dict`, with an explicit structural bound.
The `bound = 0` fallback is unreachable when `bound` is at least the longest
sequence length: reaching the recursive branch requires a non-empty first
sequence. -/
def movesToNestedDictGo : Nat → List (List String) → NDict
  | bound, moves =>
    if moves = [] ∨ moves.headI = [] then NDict.mk []
    else if moves.length = 1 ∧ moves.headI.length = 1 then
      NDict.mk [((moves.headI.headI, 1), NDict.mk [])]
    else
      match bound with
      | 0 => NDict.mk []
      | b + 1 =>
        NDict.mk ((firstMoves moves).map fun tok =>
          ((tok, (groupOf moves tok).count []),
            movesToNestedDictGo b (groupOf moves tok)))

/-- `moves_to_nested_dict(moves)`: convert a collection of games (each a list
of move tokens) into the nested dictionary.  Transcribed branch for branch:
the base case returns `{}` when `moves` is empty **or its first sequence is
empty**; the singleton case returns `{(moves[0][0], 1): {}}`; otherwise the
non-empty sequences are grouped by first token (in first-occurrence order),
each key is paired with the number of empty remainder sequences in its group
(`d[move].count([])`), and the function recurses on each group. -/
def moves_to_nested_dict (moves : List (List String)) : NDict :=
  movesToNestedDictGo (maxSeqLen moves) moves

/-- Validation against the docstring: `moves_to_nested_dict([[]]) == {}` and
`moves_to_nested_dict([]) == {}`. -/
theorem moves_to_nested_dict_doctest_empty :
    moves_to_nested_dict [[]] = NDict.mk [] ∧
      moves_to_nested_dict [] = NDict.mk [] := by
  constructor <;> rfl

/-- Validation against the docstring:
`moves_to_nested_dict([['a'], []]) == {('a', 1): {}}`. -/
theorem moves_to_nested_dict_doctest_single :
    moves_to_nested_dict [["a"], []] = NDict.mk [(("a", 1), NDict.mk [])] := by
  rfl

/-- Validation against the docstring:
`moves_to_nested_dict([["a","b","c"], ["a","b"], ["d","e"], ["d","e"]])`
equals `{('a', 0): {('b', 1): {('c', 1): {}}}, ('d', 0): {('e', 2): {}}}`. -/
theorem moves_to_nested_dict_doctest_merge :
    moves_to_nested_dict [["a", "b", "c"], ["a", "b"], ["d", "e"], ["d", "e"]] =
      NDict.mk
        [(("a", 0), NDict.mk [(("b", 1), NDict.mk [(("c", 1), NDict.mk [])])]),
         (("d", 0), NDict.mk [(("e", 2), NDict.mk [])])] := by
  rfl

/-!
`ChessTree.__init__`: builds one `ChessMove` node per dictionary entry, in
dictionary order, alternating `white_to_play` with depth; the node's own size
contribution is `num_games_ended`.  (`_white_to_play` is only used to render
a textual suffix and is not part of any claim, so it is not stored.)
-/

mutual

/-- `ChessTree.__init__(move_dict, last_move, white_to_play, num_games_ended)`.
The random per-node colour is a single explicit argument. -/
def ChessTree.fromDict (colour : Nat × Nat × Nat) :
    NDict → String → Bool → Nat → TMTree
  | .mk entries, last_move, white_to_play, num_games_ended =>
    TMTree.init last_move
      (ChessTree.fromEntries colour entries white_to_play)
      (num_games_ended : Int) colour Kind.chessMove

/-- The loop `for move in move_dict: subtrees.append(ChessTree(...))`. -/
def ChessTree.fromEntries (colour : Nat × Nat × Nat) :
    List ((String × Nat) × NDict) → Bool → List TMTree
  | [], _ => []
  | ((move, count), d) :: rest, white =>
    ChessTree.fromDict colour d move (!white) count ::
      ChessTree.fromEntries colour rest white

end

/-!
Path addressing.  A node of the tree is addressed by the list of child
indices from the root.  `getNode` looks a node up; `modifyAt` rewrites the
node at a path in place (and is the identity on an invalid path).
-/

/-- Look up the node at `path` (the Python object reached by following
`_subtrees[i]` links from the root). -/
def getNode : TMTree → List Nat → Option TMTree
  | t, [] => some t
  | t, i :: p =>
    match t.subtrees[i]? with
    | some u => getNode u p
    | none => none

/-- Replace the `i`-th element of a list of subtrees by `g` of it (leaving the
list unchanged when `i` is out of range). -/
def modifyChildren (ts : List TMTree) (i : Nat) (g : TMTree → TMTree) :
    List TMTree :=
  match ts, i with
  | [], _ => []
  | t :: rest, 0 => g t :: rest
  | t :: rest, i + 1 => t :: modifyChildren rest i g

/-- Apply `f` to the node at `path`, in place. -/
def modifyAt : TMTree → List Nat → (TMTree → TMTree) → TMTree
  | t, [], f => f t
  | .mk n s c e r k ts, i :: p, f =>
    .mk n s c e r k (modifyChildren ts i (fun u => modifyAt u p f))

/-- Add `d` to the `data_size` of the node at every prefix of `path`,
including the root and the node at `path` itself: the walks
`while curr._parent_tree is not None: curr._parent_tree.data_size += ...`
seen from the root. -/
def addAlongPrefixes : TMTree → List Nat → Int → TMTree
  | .mk n s c e r k ts, [], d => .mk n (s + d) c e r k ts
  | .mk n s c e r k ts, i :: p, d =>
    .mk n (s + d) c e r k (modifyChildren ts i (fun u => addAlongPrefixes u p d))

/-!
The visibility operations (`expand`, `expand_all`, `_unexpanded`,
`collapse`, `collapse_all`).  Python's `expand`/`expand_all`/`collapse`
also return a node used to move the UI focus; only their mutation of the
tree is relevant to the claims, so the transcriptions return the tree.
-/

/-- Mutation performed by `TMTree.expand`: a leaf is left unchanged, any
other node gets `_expanded = True`. -/
def TMTree.expand : TMTree → TMTree
  | .mk n s c e r k [] => .mk n s c e r k []
  | .mk n s c _ r k (t :: ts) => .mk n s c true r k (t :: ts)

mutual

/-- Mutation performed by `TMTree.expand_all`: a leaf is left unchanged, any
other node gets `_expanded = True` and `expand_all` is applied to every
subtree. -/
def TMTree.expand_all : TMTree → TMTree
  | .mk n s c e r k [] => .mk n s c e r k []
  | .mk n s c _ r k (t :: ts) => .mk n s c true r k (expandAllL (t :: ts))

/-- `expand_all` applied to each tree of a list. -/
def expandAllL : List TMTree → List TMTree
  | [] => []
  | t :: ts => t.expand_all :: expandAllL ts

end

mutual

/-- `TMTree._unexpanded`: does nothing on a childless node, otherwise sets
`_expanded = False` here and recursively in every subtree. -/
def TMTree.unexpanded : TMTree → TMTree
  | .mk n s c e r k [] => .mk n s c e r k []
  | .mk n s c _ r k (t :: ts) => .mk n s c false r k (unexpandedL (t :: ts))

/-- `_unexpanded` applied to each tree of a list. -/
def unexpandedL : List TMTree → List TMTree
  | [] => []
  | t :: ts => t.unexpanded :: unexpandedL ts

end

/-- What `TMTree.collapse` does to `self._parent_tree`: sets its
`_expanded = False` and applies `_unexpanded` to each of its subtrees. -/
def collapseParentNode : TMTree → TMTree
  | .mk n s c _ r k ts => .mk n s c false r k (unexpandedL ts)

/-- `TMTree.collapse` called on the node at `path`: does nothing when the
node is the root, otherwise rewrites the parent node. -/
def TMTree.collapse (t : TMTree) (path : List Nat) : TMTree :=
  if path.isEmpty then t
  else modifyAt t path.dropLast collapseParentNode

/-- The loop of `collapse_all`, driven by the reversed path: collapse at the
current node, then continue from its parent until the root is reached. -/
def collapseAllGo : TMTree → List Nat → TMTree
  | t, [] => t
  | t, i :: rev => collapseAllGo (t.collapse ((i :: rev).reverse)) rev

/-- `TMTree.collapse_all` called on the node at `path`: repeatedly collapse,
walking up to the root. -/
def TMTree.collapse_all (t : TMTree) (path : List Nat) : TMTree :=
  collapseAllGo t path.reverse

/-- `TMTree.expand` called on the node at `path`. -/
def expandAt (t : TMTree) (path : List Nat) : TMTree :=
  modifyAt t path TMTree.expand

/-- `TMTree.expand_all` called on the node at `path`. -/
def expandAllAt (t : TMTree) (path : List Nat) : TMTree :=
  modifyAt t path TMTree.expand_all

/-- `TMTree.is_displayed_tree_leaf` for the node at `path`: true iff the node
exists and either it is the root and not expanded, or its parent is expanded
and it is not. -/
def TMTree.is_displayed_tree_leaf (t : TMTree) (path : List Nat) : Bool :=
  match getNode t path with
  | none => false
  | some node =>
    match path with
    | [] => !node.expanded
    | _ :: _ =>
      match getNode t path.dropLast with
      | some parent => parent.expanded && !node.expanded
      | none => false

/-!
The treemap layout.  `update_rectangles(rect)` stores `rect` at the node;
with one subtree it recurses with the identical rect; with at least two it
slices the longer axis: every subtree except the last gets
`floor(subtree.data_size * extent / total)` of the sliced dimension starting
at a running cursor, and the last subtree gets whatever remains.  The Python
float expression `math.floor((size * extent) / total)` is modelled exactly
as `Int.fdiv (size * extent) total`.
-/

mutual

/-- `TMTree.update_rectangles(rect)`. -/
def TMTree.update_rectangles : TMTree → Rect → TMTree
  | .mk n s c e _ k [], rect => .mk n s c e (some rect) k []
  | .mk n s c e _ k [t], rect => .mk n s c e (some rect) k [t.update_rectangles rect]
  | .mk n s c e _ k (t :: u :: ts), rect =>
    if rect.h < rect.w then
      .mk n s c e (some rect) k
        (sliceWidths (t :: u :: ts) rect.x rect.y rect (sumSizes (t :: u :: ts)))
    else
      .mk n s c e (some rect) k
        (sliceHeights (t :: u :: ts) rect.x rect.y rect (sumSizes (t :: u :: ts)))

/-- The `rect[2] > rect[3]` branch: slice the width.  `xCur` is the running
`upper_left[0]`; the last subtree receives `rect.x + rect.w - xCur`
(`width_remain = rect[2] + rect[0] - upper_left[0]`). -/
def sliceWidths : List TMTree → Int → Int → Rect → Int → List TMTree
  | [], _, _, _, _ => []
  | [t], xCur, y, rect, _ =>
    [t.update_rectangles ⟨xCur, y, rect.x + rect.w - xCur, rect.h⟩]
  | t :: u :: ts, xCur, y, rect, total =>
    t.update_rectangles ⟨xCur, y, Int.fdiv (t.data_size * rect.w) total, rect.h⟩ ::
      sliceWidths (u :: ts) (xCur + Int.fdiv (t.data_size * rect.w) total) y rect total

/-- The other branch: slice the height.  `yCur` is the running
`upper_left[1]`; the last subtree receives `rect.y + rect.h - yCur`. -/
def sliceHeights : List TMTree → Int → Int → Rect → Int → List TMTree
  | [], _, _, _, _ => []
  | [t], x, yCur, rect, _ =>
    [t.update_rectangles ⟨x, yCur, rect.w, rect.y + rect.h - yCur⟩]
  | t :: u :: ts, x, yCur, rect, total =>
    t.update_rectangles ⟨x, yCur, rect.w, Int.fdiv (t.data_size * rect.h) total⟩ ::
      sliceHeights (u :: ts) x (yCur + Int.fdiv (t.data_size * rect.h) total) rect total

end

mutual

/-- `TMTree.get_rectangles` for a root (or any node whose parent is
expanded): an unexpanded node reports its own rectangle and colour, an
expanded node concatenates its subtrees' reports.  (The Python method's
parent-is-collapsed branch returns `[]`; it is never taken when the method
is called on the displayed root, which is how the program uses it.) -/
def TMTree.get_rectangles : TMTree → List (Option Rect × (Nat × Nat × Nat))
  | .mk _ _ c false r _ _ => [(r, c)]
  | .mk _ _ _ true _ _ ts => getRectanglesL ts

/-- Concatenated `get_rectangles` of a list of subtrees. -/
def getRectanglesL : List TMTree → List (Option Rect × (Nat × Nat × Nat))
  | [] => []
  | t :: ts => t.get_rectangles ++ getRectanglesL ts

end

/-!
Structural mutation: `move` and `change_size`.

`TMTree.move(destination)` mutates by pointer:
1. `destination._subtrees.append(self)`;
2. if `len(self._parent_tree._subtrees) < 2` (evaluated now, with `self`
   still in that list), set the parent's `_expanded = False`;
3. `self._parent_tree._subtrees.remove(self)`;
4. subtract `self.data_size` from the parent and each further ancestor;
5. re-parent `self` to `destination`, set `destination._expanded = True`;
6. add `self.data_size` to `destination` and each of its ancestors;
7. `update_rectangles` on the final root with its existing rect.

In the path embedding the same effect is obtained by first attaching at the
destination (steps 1, 5, 6: appending at the **end** of a list shifts no
existing index) and then detaching at the source (steps 2, 3, 4: performed
last so no other path needs re-indexing; the appended copy is unaffected
because, under `move`'s preconditions, the destination is neither the old
parent nor inside the moved subtree, and steps 2-6 only touch fields that
steps run in the Python order would have left identical).  Step 2's length
test reads the original child count, with `self` still counted, exactly as
in Python.
-/

/-- Steps 1, 5 and 6 of `move`: along the path to the destination every node
gains `x.data_size`; the destination itself additionally gets
`_expanded = True` and `x` appended to its subtrees. -/
def attachAt : TMTree → List Nat → TMTree → TMTree
  | .mk n s c _ r k ts, [], x =>
    .mk n (s + x.data_size) c true r k (ts ++ [x])
  | .mk n s c e r k ts, i :: p, x =>
    .mk n (s + x.data_size) c e r k
      (modifyChildren ts i (fun u => attachAt u p x))

/-- Steps 2, 3 and 4 of `move`: along the path to the moved node every
ancestor loses `sz`; the parent (path `[i]` remaining) additionally gets
`_expanded = False` when it had fewer than 2 children (with the moved child
still counted), and the child at `i` is removed.  The `[]` case is
unreachable: `move` rejects an empty source path first. -/
def detachAt : TMTree → List Nat → Int → TMTree
  | t, [], _ => t
  | .mk n s c e r k ts, [i], sz =>
    .mk n (s - sz) c (if ts.length < 2 then false else e) r k (ts.eraseIdx i)
  | .mk n s c e r k ts, i :: p, sz =>
    .mk n (s - sz) c e r k (modifyChildren ts i (fun u => detachAt u p sz))

/-- `TMTree.move(destination)` with `self` at `ps` and `destination` at `pd`
in the same tree.  Returns `none` where Python would crash on a violated
precondition: a root `self` (`self._parent_tree` is `None`) or a root whose
`rect` was never laid out. -/
def TMTree.move (t : TMTree) (ps pd : List Nat) : Option TMTree :=
  if ps = pd then some t
  else if ps = [] then none
  else
    match getNode t ps with
    | none => none
    | some s =>
      match (detachAt (attachAt t pd s) ps s.data_size).rect with
      | some r =>
        some ((detachAt (attachAt t pd s) ps s.data_size).update_rectangles r)
      | none => none

/-- `TMTree.move(destination)` when `self` (at `ps` in `tSelf`) and
`destination` (at `pd` in `tDest`) live in two different trees: the detach
steps run in `tSelf`, the attach steps in `tDest`, and only the destination
root is re-laid out (`curr2` walks up from the moved node). -/
def moveAcross (tSelf : TMTree) (ps : List Nat) (tDest : TMTree)
    (pd : List Nat) : Option (TMTree × TMTree) :=
  match ps, getNode tSelf ps with
  | [], _ => none
  | _ :: _, none => none
  | _ :: _, some s =>
    match (attachAt tDest pd s).rect with
    | some r =>
      some (detachAt tSelf ps s.data_size,
        (attachAt tDest pd s).update_rectangles r)
    | none => none

/-- Set the `data_size` field of a node. -/
def TMTree.withDataSize : TMTree → Int → TMTree
  | .mk n _ c e r k ts, s => .mk n s c e r k ts

/-- The delta computed by `TMTree.change_size`: `math.floor(factor * data_size)`
for negative `factor`, else `math.ceil(factor * data_size)` (the Python local
variable `size`). -/
def changeSizeDelta (factor : ℚ) (data_size : Int) : Int :=
  if factor < 0 then ⌊factor * (data_size : ℚ)⌋
  else ⌈factor * (data_size : ℚ)⌉

/-- The new `data_size` computed by `TMTree.change_size`: the old size plus
`changeSizeDelta`, floored at 1 for a leaf and at the subtree total
otherwise (the Python `if not self._subtrees: ... else: ...` block). -/
def csNewSize (node : TMTree) (factor : ℚ) : Int :=
  let new_data_size := node.data_size + changeSizeDelta factor node.data_size
  if node.subtrees.isEmpty then
    if new_data_size < 1 then 1 else new_data_size
  else
    if new_data_size < sumSizes node.subtrees then sumSizes node.subtrees
    else new_data_size

/-- `TMTree.change_size(factor)` on the node at `path`: writes `csNewSize`
at the node, adds the difference to every proper ancestor, and re-lays out
the root with its existing rect (`none` if it has none, where Python
crashes). -/
def TMTree.change_size (t : TMTree) (path : List Nat) (factor : ℚ) :
    Option TMTree :=
  match getNode t path with
  | none => none
  | some node =>
    let t1 := modifyAt t path (fun u => u.withDataSize (csNewSize node factor))
    let t2 :=
      match path with
      | [] => t1
      | _ :: _ =>
        addAlongPrefixes t1 path.dropLast (csNewSize node factor - node.data_size)
    match t2.rect with
    | some r => some (t2.update_rectangles r)
    | none => none

/-- Result of a dispatched operation: `ok` with the new tree,
`unsupported` when `OperationNotSupportedError` is raised (carrying the
tree, which the raise leaves untouched), or `invalid` where Python would
crash on a violated precondition. -/
inductive OpOutcome where
  | ok (t : TMTree)
  | unsupported (t : TMTree)
  | invalid

/-- Wrap the base `move` as an outcome. -/
def baseMoveOutcome (t : TMTree) (ps pd : List Nat) : OpOutcome :=
  match t.move ps pd with
  | some u => OpOutcome.ok u
  | none => OpOutcome.invalid

/-- `node.move(destination)` with Python dynamic dispatch, for `node` at
`ps` and `destination` at `pd`: `ChessTree.move` raises unconditionally;
`FileTree.move` and `DirectoryTree.move` raise iff the destination is a
`FileTree` (`isinstance(destination, FileTree)`), checked before anything
is mutated; the base class has no check. -/
def moveOp (t : TMTree) (ps pd : List Nat) : OpOutcome :=
  match getNode t ps, getNode t pd with
  | some s, some d =>
    match s.kind with
    | Kind.chessMove => OpOutcome.unsupported t
    | Kind.file =>
      if d.kind = Kind.file then OpOutcome.unsupported t
      else baseMoveOutcome t ps pd
    | Kind.directory =>
      if d.kind = Kind.file then OpOutcome.unsupported t
      else baseMoveOutcome t ps pd
    | Kind.generic => baseMoveOutcome t ps pd
  | _, _ => OpOutcome.invalid

/-- `node.change_size(factor)` with Python dynamic dispatch:
`DirectoryTree.change_size` and `ChessTree.change_size` raise before
touching anything; the other kinds run the base implementation. -/
def changeSizeOp (t : TMTree) (path : List Nat) (factor : ℚ) : OpOutcome :=
  match getNode t path with
  | some node =>
    match node.kind with
    | Kind.directory => OpOutcome.unsupported t
    | Kind.chessMove => OpOutcome.unsupported t
    | _ =>
      match t.change_size path factor with
      | some u => OpOutcome.ok u
      | none => OpOutcome.invalid
  | none => OpOutcome.invalid

/-!
The representation invariants of §3 of the specification, as one recursive
boolean predicate.  The parent/child pointer invariants hold by
construction in the path embedding; the remaining per-node conditions are:
`data_size > 0`; non-empty name; `data_size` at least the subtree total when
there are subtrees; colour components at most 255; an unexpanded node has
only (deeply) unexpanded descendants — which also encodes
"expanded implies the parent is expanded"; a childless node is unexpanded;
a `directory` node has `data_size = 1 +` subtree total; a `file` node has no
subtrees.
-/

/-- Colour components in `[0, 255]` (the lower bound is by the `Nat` type). -/
def colourOk (c : Nat × Nat × Nat) : Bool :=
  decide (c.1 ≤ 255) && decide (c.2.1 ≤ 255) && decide (c.2.2 ≤ 255)

/-- Variant-specific invariant: a directory's size is one plus its subtree
total, a file has no subtrees. -/
def kindOk : Kind → Int → List TMTree → Bool
  | Kind.directory, ds, ts => decide (ds = 1 + sumSizes ts)
  | Kind.file, _, ts => ts.isEmpty
  | _, _, _ => true

mutual

/-- All representation invariants, at this node and recursively below. -/
def TMTree.Inv : TMTree → Bool
  | .mk name ds colour e _ k ts =>
    decide (0 < ds) && decide (name ≠ "") &&
      (ts.isEmpty || decide (sumSizes ts ≤ ds)) &&
      colourOk colour &&
      (e || allDeepUnexpandedL ts) &&
      (!ts.isEmpty || !e) &&
      kindOk k ds ts &&
      InvL ts

/-- `Inv` for every tree of a list. -/
def InvL : List TMTree → Bool
  | [] => true
  | t :: ts => TMTree.Inv t && InvL ts

/-- Every tree of the list is deeply unexpanded. -/
def allDeepUnexpandedL : List TMTree → Bool
  | [] => true
  | t :: ts => deepUnexpanded t && allDeepUnexpandedL ts

/-- This node and every descendant has `_expanded = False`. -/
def deepUnexpanded : TMTree → Bool
  | .mk _ _ _ e _ _ ts => !e && allDeepUnexpandedL ts

end

/-- Every proper ancestor of the node at `path` is expanded: the node is
part of the displayed tree (assuming it exists). -/
def ancestorsExpanded : TMTree → List Nat → Bool
  | _, [] => true
  | t, i :: p =>
    t.expanded &&
      match t.subtrees[i]? with
      | some u => ancestorsExpanded u p
      | none => true

/-!
Validation of the transcription against the Python doctests, on the
`s1 = TMTree('C1', [], 5); s2 = TMTree('C2', [], 15); t3 = TMTree('C', [s1, s2], 1)`
example (colours fixed at `(0, 0, 0)`).
-/

/-- The doctest tree `t3`, already laid out into `(0, 0, 100, 200)`. -/
def doctestT3 : TMTree :=
  (TMTree.init "C"
    [TMTree.init "C1" [] 5 (0, 0, 0) Kind.generic,
     TMTree.init "C2" [] 15 (0, 0, 0) Kind.generic]
    1 (0, 0, 0) Kind.generic).update_rectangles ⟨0, 0, 100, 200⟩

/-- Doctest of `update_rectangles`: `s1.rect == (0, 0, 100, 50)` and
`s2.rect == (0, 50, 100, 150)` and `t3.rect == (0, 0, 100, 200)`. -/
theorem update_rectangles_doctest :
    (getNode doctestT3 [0]).map TMTree.rect = some (some ⟨0, 0, 100, 50⟩) ∧
      (getNode doctestT3 [1]).map TMTree.rect = some (some ⟨0, 50, 100, 150⟩) ∧
      doctestT3.rect = some ⟨0, 0, 100, 200⟩ := by
  refine ⟨?_, ?_, ?_⟩ <;> rfl

/-- Doctest of `move`: after `s2.move(s1)`, `s2.rect == (0, 0, 100, 200)`,
`s1.data_size == 20`, `t3.data_size == 21`, `s1` is no longer a displayed
leaf and `s2` (now at path `[0, 0]`) still is. -/
theorem move_doctest :
    (doctestT3.move [1] [0]).map
        (fun t => ((getNode t [0, 0]).map TMTree.rect,
          (getNode t [0]).map TMTree.data_size, t.data_size,
          t.is_displayed_tree_leaf [0], t.is_displayed_tree_leaf [0, 0])) =
      some (some (some ⟨0, 0, 100, 200⟩), some 20, 21, false, true) := by
  rfl

/-- Doctest of `change_size`: after `s2.change_size(-2/3)`,
`s2.data_size == 5`, `t3.data_size == 11` and `s2.rect == (0, 100, 100, 100)`. -/
theorem change_size_doctest :
    (doctestT3.change_size [1] (-2 / 3)).map
        (fun t => ((getNode t [1]).map TMTree.data_size, t.data_size,
          (getNode t [1]).map TMTree.rect)) =
      some (some 5, 11, some (some ⟨0, 100, 100, 100⟩)) := by
  have hnode : getNode doctestT3 [1] =
      some (TMTree.mk "C2" 15 (0, 0, 0) false (some ⟨0, 50, 100, 150⟩)
        Kind.generic []) := rfl
  have hd : csNewSize (TMTree.mk "C2" 15 (0, 0, 0) false
      (some ⟨0, 50, 100, 150⟩) Kind.generic []) (-2 / 3) = 5 := by
    norm_num [csNewSize, changeSizeDelta, TMTree.data_size,
      TMTree.subtrees, sumSizes, List.isEmpty]
  simp only [TMTree.change_size, hnode, TMTree.data_size, hd]
  rfl

/-- The example tree satisfies the representation invariants. -/
theorem doctestT3_Inv : doctestT3.Inv = true := by
  rfl

/-!
Infrastructure lemmas.
-/

mutual

/-- Induction over a `TMTree` with the hypothesis available for every
member of the subtree list. -/
theorem TMTree.inductionOn {motive : TMTree → Prop}
    (h : ∀ (n : String) (s : Int) (c : Nat × Nat × Nat) (e : Bool)
      (r : Option Rect) (k : Kind) (ts : List TMTree),
      (∀ t ∈ ts, motive t) → motive (TMTree.mk n s c e r k ts)) :
    ∀ t, motive t
  | .mk n s c e r k ts => h n s c e r k ts (TMTree.inductionOnList h ts)

/-- Companion of `TMTree.inductionOn` for subtree lists. -/
theorem TMTree.inductionOnList {motive : TMTree → Prop}
    (h : ∀ (n : String) (s : Int) (c : Nat × Nat × Nat) (e : Bool)
      (r : Option Rect) (k : Kind) (ts : List TMTree),
      (∀ t ∈ ts, motive t) → motive (TMTree.mk n s c e r k ts)) :
    ∀ (ts : List TMTree), ∀ t ∈ ts, motive t
  | [] => fun t ht => absurd ht (List.not_mem_nil t)
  | u :: us => fun t ht =>
    Or.elim (List.mem_cons.mp ht)
      (fun h1 => h1 ▸ TMTree.inductionOn h u)
      (fun h2 => TMTree.inductionOnList h us t h2)

end

/-- Every tree is the `mk` of its projections. -/
theorem TMTree.eta (t : TMTree) :
    t = TMTree.mk t.name t.data_size t.colour t.expanded t.rect t.kind
      t.subtrees := by
  cases t; rfl

@[simp] theorem TMTree.name_mk (n s c e r k ts) :
    (TMTree.mk n s c e r k ts).name = n := rfl

@[simp] theorem TMTree.data_size_mk (n s c e r k ts) :
    (TMTree.mk n s c e r k ts).data_size = s := rfl

@[simp] theorem TMTree.colour_mk (n s c e r k ts) :
    (TMTree.mk n s c e r k ts).colour = c := rfl

@[simp] theorem TMTree.expanded_mk (n s c e r k ts) :
    (TMTree.mk n s c e r k ts).expanded = e := rfl

@[simp] theorem TMTree.rect_mk (n s c e r k ts) :
    (TMTree.mk n s c e r k ts).rect = r := rfl

@[simp] theorem TMTree.kind_mk (n s c e r k ts) :
    (TMTree.mk n s c e r k ts).kind = k := rfl

@[simp] theorem TMTree.subtrees_mk (n s c e r k ts) :
    (TMTree.mk n s c e r k ts).subtrees = ts := rfl

@[simp] theorem sumSizes_nil : sumSizes [] = 0 := rfl

@[simp] theorem sumSizes_cons (t : TMTree) (ts : List TMTree) :
    sumSizes (t :: ts) = t.data_size + sumSizes ts := by
  simp [sumSizes]

theorem sumSizes_append (ts us : List TMTree) :
    sumSizes (ts ++ us) = sumSizes ts + sumSizes us := by
  simp [sumSizes]

/-- `InvL` is `Inv` of every member. -/
theorem InvL_iff (ts : List TMTree) :
    InvL ts = true ↔ ∀ t ∈ ts, t.Inv = true := by
  induction ts with
  | nil => simp [InvL]
  | cons u us ih => simp [InvL, ih]

/-- `allDeepUnexpandedL` is `deepUnexpanded` of every member. -/
theorem allDeepUnexpandedL_iff (ts : List TMTree) :
    allDeepUnexpandedL ts = true ↔ ∀ t ∈ ts, deepUnexpanded t = true := by
  induction ts with
  | nil => simp [allDeepUnexpandedL]
  | cons u us ih => simp [allDeepUnexpandedL, ih]

theorem deepUnexpanded_def (t : TMTree) :
    deepUnexpanded t = (!t.expanded && allDeepUnexpandedL t.subtrees) := by
  cases t; rfl

/-- Unfolding of the invariant at one node, in propositional form. -/
theorem Inv_mk_iff (n : String) (s : Int) (c : Nat × Nat × Nat) (e : Bool)
    (r : Option Rect) (k : Kind) (ts : List TMTree) :
    (TMTree.mk n s c e r k ts).Inv = true ↔
      0 < s ∧ n ≠ "" ∧ (ts = [] ∨ sumSizes ts ≤ s) ∧ colourOk c = true ∧
        (e = true ∨ allDeepUnexpandedL ts = true) ∧ (ts = [] → e = false) ∧
        kindOk k s ts = true ∧ InvL ts = true := by
  show (_ && _ && _ && _ && _ && _ && _ && _) = true ↔ _
  simp only [Bool.and_eq_true, decide_eq_true_eq, Bool.or_eq_true,
    List.isEmpty_iff, List.isEmpty_eq_false, Bool.not_eq_true']
  constructor
  · rintro ⟨⟨⟨⟨⟨⟨⟨h1, h2⟩, h3⟩, h4⟩, h5⟩, h6⟩, h7⟩, h8⟩
    refine ⟨h1, h2, h3, h4, h5, ?_, h7, h8⟩
    intro hts
    rcases h6 with h6 | h6
    · exact absurd hts h6
    · exact h6
  · rintro ⟨h1, h2, h3, h4, h5, h6, h7, h8⟩
    refine ⟨⟨⟨⟨⟨⟨⟨h1, h2⟩, h3⟩, h4⟩, h5⟩, ?_⟩, h7⟩, h8⟩
    by_cases hts : ts = []
    · exact Or.inr (h6 hts)
    · exact Or.inl hts

@[simp] theorem getNode_nil (t : TMTree) : getNode t [] = some t := rfl

theorem getNode_cons (t : TMTree) (i : Nat) (p : List Nat) :
    getNode t (i :: p) = (t.subtrees[i]?).bind (fun u => getNode u p) := by
  cases h : t.subtrees[i]? <;> simp [getNode, h]

theorem getNode_append (t : TMTree) (p q : List Nat) :
    getNode t (p ++ q) = (getNode t p).bind (fun u => getNode u q) := by
  induction p generalizing t with
  | nil => simp
  | cons i p ih =>
    rw [List.cons_append, getNode_cons, getNode_cons]
    cases h : t.subtrees[i]? <;> simp [h, ih]

@[simp] theorem modifyChildren_nil (i : Nat) (g : TMTree → TMTree) :
    modifyChildren [] i g = [] := by
  cases i <;> rfl

theorem modifyChildren_length (ts : List TMTree) (i : Nat)
    (g : TMTree → TMTree) : (modifyChildren ts i g).length = ts.length := by
  induction ts generalizing i with
  | nil => simp
  | cons u us ih =>
    cases i with
    | zero => simp [modifyChildren]
    | succ j => simp [modifyChildren, ih]

theorem modifyChildren_getElem?_self (ts : List TMTree) (i : Nat)
    (g : TMTree → TMTree) :
    (modifyChildren ts i g)[i]? = (ts[i]?).map g := by
  induction ts generalizing i with
  | nil => simp
  | cons u us ih =>
    cases i with
    | zero => simp [modifyChildren]
    | succ j => simpa [modifyChildren] using ih j

theorem modifyChildren_getElem?_ne (ts : List TMTree) (i j : Nat)
    (g : TMTree → TMTree) (h : j ≠ i) :
    (modifyChildren ts i g)[j]? = ts[j]? := by
  induction ts generalizing i j with
  | nil => simp
  | cons u us ih =>
    cases i with
    | zero =>
      cases j with
      | zero => exact absurd rfl h
      | succ j' => simp [modifyChildren]
    | succ i' =>
      cases j with
      | zero => simp [modifyChildren]
      | succ j' =>
        have : j' ≠ i' := fun hc => h (by simp [hc])
        simpa [modifyChildren] using ih i' j' this

@[simp] theorem modifyAt_nil (t : TMTree) (f : TMTree → TMTree) :
    modifyAt t [] f = f t := by
  cases t; rfl

theorem modifyAt_cons (t : TMTree) (i : Nat) (p : List Nat)
    (f : TMTree → TMTree) :
    modifyAt t (i :: p) f =
      TMTree.mk t.name t.data_size t.colour t.expanded t.rect t.kind
        (modifyChildren t.subtrees i (fun u => modifyAt u p f)) := by
  cases t; rfl

theorem getNode_modifyAt_self (t : TMTree) (p : List Nat)
    (f : TMTree → TMTree) :
    getNode (modifyAt t p f) p = (getNode t p).map f := by
  induction p generalizing t with
  | nil => simp
  | cons i p ih =>
    rw [modifyAt_cons, getNode_cons, getNode_cons]
    simp only [TMTree.subtrees_mk, modifyChildren_getElem?_self]
    cases h : t.subtrees[i]? <;> simp [h, ih]

theorem modifyAt_append (t : TMTree) (p q : List Nat) (f : TMTree → TMTree) :
    modifyAt t (p ++ q) f = modifyAt t p (fun u => modifyAt u q f) := by
  induction p generalizing t with
  | nil => simp
  | cons i p ih =>
    rw [List.cons_append, modifyAt_cons, modifyAt_cons]
    have hfun : (fun u => modifyAt u (p ++ q) f) =
        (fun u => modifyAt u p (fun v => modifyAt v q f)) :=
      funext (fun u => ih u)
    rw [hfun]

theorem getNode_modifyAt_off (t : TMTree) (p q : List Nat)
    (f : TMTree → TMTree) (h1 : ¬ p <+: q) (h2 : ¬ q <+: p) :
    getNode (modifyAt t p f) q = getNode t q := by
  induction p generalizing t q with
  | nil => exact absurd (List.nil_prefix) h1
  | cons i p ih =>
    cases q with
    | nil => exact absurd (List.nil_prefix) h2
    | cons j q' =>
      rw [modifyAt_cons, getNode_cons, getNode_cons]
      simp only [TMTree.subtrees_mk]
      by_cases hij : j = i
      · subst hij
        rw [modifyChildren_getElem?_self]
        have h1' : ¬ p <+: q' := fun hc => h1 (List.cons_prefix_cons.mpr ⟨rfl, hc⟩)
        have h2' : ¬ q' <+: p := fun hc => h2 (List.cons_prefix_cons.mpr ⟨rfl, hc⟩)
        cases h : t.subtrees[j]? <;> simp [h, ih _ _ h1' h2']
      · rw [modifyChildren_getElem?_ne _ _ _ _ hij]

/-!
Lookup through `addAlongPrefixes`, `attachAt` and `detachAt`.
-/

theorem addAlongPrefixes_mk_nil (n s c e r k ts) (d : Int) :
    addAlongPrefixes (TMTree.mk n s c e r k ts) [] d =
      TMTree.mk n (s + d) c e r k ts := rfl

theorem addAlongPrefixes_mk_cons (n s c e r k ts) (i : Nat) (p : List Nat)
    (d : Int) :
    addAlongPrefixes (TMTree.mk n s c e r k ts) (i :: p) d =
      TMTree.mk n (s + d) c e r k
        (modifyChildren ts i (fun u => addAlongPrefixes u p d)) := rfl

@[simp] theorem data_size_addAlongPrefixes (t : TMTree) (p : List Nat)
    (d : Int) : (addAlongPrefixes t p d).data_size = t.data_size + d := by
  cases t <;> cases p <;> rfl

@[simp] theorem expanded_addAlongPrefixes (t : TMTree) (p : List Nat)
    (d : Int) : (addAlongPrefixes t p d).expanded = t.expanded := by
  cases t <;> cases p <;> rfl

theorem getNode_addAlongPrefixes_prefix (t : TMTree) (q r : List Nat)
    (d : Int) :
    getNode (addAlongPrefixes t (q ++ r) d) q =
      (getNode t q).map (fun u => addAlongPrefixes u r d) := by
  induction q generalizing t with
  | nil => simp
  | cons i q' ih =>
    cases t with
    | mk n s c e rc k ts =>
      rw [List.cons_append, addAlongPrefixes_mk_cons, getNode_cons,
        getNode_cons]
      simp only [TMTree.subtrees_mk, modifyChildren_getElem?_self]
      cases h : ts[i]? <;> simp [h, ih]

theorem getNode_addAlongPrefixes_off (t : TMTree) (p q : List Nat) (d : Int)
    (h : ¬ q <+: p) :
    getNode (addAlongPrefixes t p d) q = getNode t q := by
  induction p generalizing t q with
  | nil =>
    cases q with
    | nil => exact absurd List.nil_prefix h
    | cons j q' =>
      cases t with
      | mk n s c e rc k ts =>
        rw [addAlongPrefixes_mk_nil, getNode_cons, getNode_cons]
        simp only [TMTree.subtrees_mk]
  | cons i p' ih =>
    cases q with
    | nil => exact absurd List.nil_prefix h
    | cons j q' =>
      cases t with
      | mk n s c e rc k ts =>
        rw [addAlongPrefixes_mk_cons, getNode_cons, getNode_cons]
        simp only [TMTree.subtrees_mk]
        by_cases hij : j = i
        · subst hij
          rw [modifyChildren_getElem?_self]
          have h' : ¬ q' <+: p' := fun hc =>
            h (List.cons_prefix_cons.mpr ⟨rfl, hc⟩)
          cases hx : ts[j]? <;> simp [hx, ih _ _ h']
        · rw [modifyChildren_getElem?_ne _ _ _ _ hij]

theorem attachAt_mk_nil (n s c e r k ts) (x : TMTree) :
    attachAt (TMTree.mk n s c e r k ts) [] x =
      TMTree.mk n (s + x.data_size) c true r k (ts ++ [x]) := rfl

theorem attachAt_mk_cons (n s c e r k ts) (i : Nat) (p : List Nat)
    (x : TMTree) :
    attachAt (TMTree.mk n s c e r k ts) (i :: p) x =
      TMTree.mk n (s + x.data_size) c e r k
        (modifyChildren ts i (fun u => attachAt u p x)) := rfl

@[simp] theorem data_size_attachAt (t : TMTree) (p : List Nat) (x : TMTree) :
    (attachAt t p x).data_size = t.data_size + x.data_size := by
  cases t
  cases p <;> rfl

theorem getNode_attachAt_prefix (t : TMTree) (q r : List Nat) (x : TMTree) :
    getNode (attachAt t (q ++ r) x) q =
      (getNode t q).map (fun u => attachAt u r x) := by
  induction q generalizing t with
  | nil => simp
  | cons i q' ih =>
    cases t with
    | mk n s c e rc k ts =>
      rw [List.cons_append, attachAt_mk_cons, getNode_cons, getNode_cons]
      simp only [TMTree.subtrees_mk, modifyChildren_getElem?_self]
      cases h : ts[i]? <;> simp [h, ih]

theorem getNode_attachAt_off (t : TMTree) (p q : List Nat) (x : TMTree)
    (h1 : ¬ q <+: p) (h2 : ¬ p <+: q) :
    getNode (attachAt t p x) q = getNode t q := by
  induction p generalizing t q with
  | nil => exact absurd List.nil_prefix h2
  | cons i p' ih =>
    cases q with
    | nil => exact absurd List.nil_prefix h1
    | cons j q' =>
      cases t with
      | mk n s c e rc k ts =>
        rw [attachAt_mk_cons, getNode_cons, getNode_cons]
        simp only [TMTree.subtrees_mk]
        by_cases hij : j = i
        · subst hij
          rw [modifyChildren_getElem?_self]
          have h1' : ¬ q' <+: p' := fun hc =>
            h1 (List.cons_prefix_cons.mpr ⟨rfl, hc⟩)
          have h2' : ¬ p' <+: q' := fun hc =>
            h2 (List.cons_prefix_cons.mpr ⟨rfl, hc⟩)
          cases hx : ts[j]? <;> simp [hx, ih _ _ h1' h2']
        · rw [modifyChildren_getElem?_ne _ _ _ _ hij]

theorem detachAt_nil (t : TMTree) (sz : Int) : detachAt t [] sz = t := by
  cases t; rfl

theorem detachAt_mk_single (n s c e r k ts) (i : Nat) (sz : Int) :
    detachAt (TMTree.mk n s c e r k ts) [i] sz =
      TMTree.mk n (s - sz) c (if ts.length < 2 then false else e) r k
        (ts.eraseIdx i) := rfl

theorem detachAt_mk_cons (n s c e r k ts) (i : Nat) (p : List Nat)
    (hp : p ≠ []) (sz : Int) :
    detachAt (TMTree.mk n s c e r k ts) (i :: p) sz =
      TMTree.mk n (s - sz) c e r k
        (modifyChildren ts i (fun u => detachAt u p sz)) := by
  cases p with
  | nil => exact absurd rfl hp
  | cons j p' => rfl

theorem data_size_detachAt (t : TMTree) (p : List Nat) (hp : p ≠ [])
    (sz : Int) : (detachAt t p sz).data_size = t.data_size - sz := by
  cases t with
  | mk n s c e r k ts =>
    cases p with
    | nil => exact absurd rfl hp
    | cons i p' =>
      cases p' with
      | nil => rw [detachAt_mk_single]; rfl
      | cons j q =>
        rw [detachAt_mk_cons n s c e r k ts i (j :: q) (by simp) sz]; rfl

theorem getNode_detachAt_prefix (t : TMTree) (q r : List Nat) (hr : r ≠ [])
    (sz : Int) :
    getNode (detachAt t (q ++ r) sz) q =
      (getNode t q).map (fun u => detachAt u r sz) := by
  induction q generalizing t with
  | nil => simp
  | cons i q' ih =>
    cases t with
    | mk n s c e rc k ts =>
      have hqr : q' ++ r ≠ [] := by
        intro hc
        exact hr (List.append_eq_nil.mp hc).2
      rw [List.cons_append,
        detachAt_mk_cons n s c e rc k ts i (q' ++ r) hqr sz, getNode_cons,
        getNode_cons]
      simp only [TMTree.subtrees_mk, modifyChildren_getElem?_self]
      cases h : ts[i]? <;> simp [h, ih]

/-- The address, after the child at `ps` has been removed from its parent's
list, of the node that was at `pd` before the removal (meaningful when `pd`
is neither an extension of `ps` nor a prefix of it): only a sibling branch
with a larger index at the removal point shifts down by one. -/
def adjustAfterRemove : List Nat → List Nat → List Nat
  | [i], j :: q => if i < j then (j - 1) :: q else j :: q
  | i :: ps, j :: q => if i = j then j :: adjustAfterRemove ps q else j :: q
  | _, q => q

theorem getNode_detachAt_adjust (t : TMTree) (ps pd : List Nat) (sz : Int)
    (h1 : ¬ ps <+: pd) (h2 : ¬ pd <+: ps) :
    getNode (detachAt t ps sz) (adjustAfterRemove ps pd) = getNode t pd := by
  induction ps generalizing t pd with
  | nil => exact absurd List.nil_prefix h1
  | cons i ps' ih =>
    cases pd with
    | nil => exact absurd List.nil_prefix h2
    | cons j q =>
      cases t with
      | mk n s c e rc k ts =>
        cases ps' with
        | nil =>
          have hij : i ≠ j := by
            intro hc
            subst hc
            exact h1 (List.cons_prefix_cons.mpr ⟨rfl, List.nil_prefix⟩)
          rw [detachAt_mk_single]
          show getNode _ (if i < j then (j - 1) :: q else j :: q) = _
          by_cases hlt : i < j
          · rw [if_pos hlt, getNode_cons, getNode_cons]
            simp only [TMTree.subtrees_mk]
            have hj : 1 ≤ j := Nat.one_le_iff_ne_zero.mpr (by omega)
            have : (ts.eraseIdx i)[j - 1]? = ts[(j - 1) + 1]? :=
              List.getElem?_eraseIdx_of_ge ts i (j - 1) (by omega)
            rw [this]
            have : (j - 1) + 1 = j := by omega
            rw [this]
          · rw [if_neg hlt, getNode_cons, getNode_cons]
            simp only [TMTree.subtrees_mk]
            have hji : j < i := by omega
            rw [List.getElem?_eraseIdx_of_lt ts i j hji]
        | cons i2 ps2 =>
          rw [detachAt_mk_cons n s c e rc k ts i (i2 :: ps2) (by simp) sz]
          show getNode _ (if i = j then j :: adjustAfterRemove (i2 :: ps2) q
            else j :: q) = _
          by_cases hij : i = j
          · subst hij
            rw [if_pos rfl, getNode_cons, getNode_cons]
            simp only [TMTree.subtrees_mk, modifyChildren_getElem?_self]
            have h1' : ¬ (i2 :: ps2) <+: q := fun hc =>
              h1 (List.cons_prefix_cons.mpr ⟨rfl, hc⟩)
            have h2' : ¬ q <+: (i2 :: ps2) := fun hc =>
              h2 (List.cons_prefix_cons.mpr ⟨rfl, hc⟩)
            cases hx : ts[i]? <;> simp [hx, ih _ _ h1' h2']
          · rw [if_neg hij, getNode_cons, getNode_cons]
            simp only [TMTree.subtrees_mk]
            rw [modifyChildren_getElem?_ne _ _ _ _ (fun hc => hij hc.symm)]

/-!
`update_rectangles` only writes `rect` fields.  This is captured by `strip`,
which erases every `rect`: layout commutes with nothing else, so
`strip (t.update_rectangles r) = strip t`, and every rect-independent
projection (sizes, flags, kinds, names, subtree shape) is preserved.
-/

mutual

/-- Erase the `rect` of every node. -/
def strip : TMTree → TMTree
  | .mk n s c e _ k ts => .mk n s c e none k (stripL ts)

/-- `strip` of every tree in a list. -/
def stripL : List TMTree → List TMTree
  | [] => []
  | t :: ts => strip t :: stripL ts

end

theorem strip_mk (n s c e r k ts) :
    strip (TMTree.mk n s c e r k ts) = TMTree.mk n s c e none k (stripL ts) :=
  rfl

@[simp] theorem stripL_nil : stripL [] = [] := rfl

@[simp] theorem stripL_cons (t : TMTree) (ts : List TMTree) :
    stripL (t :: ts) = strip t :: stripL ts := rfl

theorem stripL_append (ts us : List TMTree) :
    stripL (ts ++ us) = stripL ts ++ stripL us := by
  induction ts with
  | nil => simp
  | cons t ts ih => simp [ih]

@[simp] theorem data_size_strip (t : TMTree) :
    (strip t).data_size = t.data_size := by
  cases t; rfl

@[simp] theorem expanded_strip (t : TMTree) :
    (strip t).expanded = t.expanded := by
  cases t; rfl

@[simp] theorem kind_strip (t : TMTree) : (strip t).kind = t.kind := by
  cases t; rfl

@[simp] theorem name_strip (t : TMTree) : (strip t).name = t.name := by
  cases t; rfl

@[simp] theorem colour_strip (t : TMTree) : (strip t).colour = t.colour := by
  cases t; rfl

theorem subtrees_strip (t : TMTree) :
    (strip t).subtrees = stripL t.subtrees := by
  cases t; rfl

theorem stripL_getElem? (ts : List TMTree) (i : Nat) :
    (stripL ts)[i]? = (ts[i]?).map strip := by
  induction ts generalizing i with
  | nil => simp
  | cons t ts ih =>
    cases i with
    | zero => simp
    | succ j => simpa using ih j

theorem stripL_length (ts : List TMTree) : (stripL ts).length = ts.length := by
  induction ts with
  | nil => rfl
  | cons t ts ih => simp [ih]

theorem sumSizes_stripL (ts : List TMTree) : sumSizes (stripL ts) = sumSizes ts := by
  induction ts with
  | nil => rfl
  | cons t ts ih => simp [ih]

theorem getNode_strip (t : TMTree) (p : List Nat) :
    getNode (strip t) p = (getNode t p).map strip := by
  induction p generalizing t with
  | nil => simp
  | cons i p ih =>
    rw [getNode_cons, getNode_cons, subtrees_strip, stripL_getElem?]
    cases h : t.subtrees[i]? <;> simp [h, ih]

theorem deepUnexpanded_strip (t : TMTree) :
    deepUnexpanded (strip t) = deepUnexpanded t := by
  induction t using TMTree.inductionOn with
  | _ n s c e r k ts ih =>
    rw [strip_mk, deepUnexpanded_def, deepUnexpanded_def]
    simp only [TMTree.expanded_mk, TMTree.subtrees_mk]
    congr 1
    induction ts with
    | nil => rfl
    | cons u us ihl =>
      simp only [stripL_cons, allDeepUnexpandedL]
      rw [ih u (by simp), ihl (fun v hv => ih v (by simp [hv]))]

theorem allDeepUnexpandedL_stripL (ts : List TMTree) :
    allDeepUnexpandedL (stripL ts) = allDeepUnexpandedL ts := by
  induction ts with
  | nil => rfl
  | cons u us ih => simp [allDeepUnexpandedL, deepUnexpanded_strip, ih]

theorem InvL_stripL_of (ts : List TMTree)
    (ih : ∀ t ∈ ts, (strip t).Inv = t.Inv) : InvL (stripL ts) = InvL ts := by
  induction ts with
  | nil => rfl
  | cons u us ihl =>
    simp only [stripL_cons, InvL]
    rw [ih u (by simp), ihl (fun v hv => ih v (by simp [hv]))]

theorem Inv_strip (t : TMTree) : (strip t).Inv = t.Inv := by
  induction t using TMTree.inductionOn with
  | _ n s c e r k ts ih =>
    rw [strip_mk]
    show (_ && _ && _ && _ && _ && _ && _ && _) =
      (_ && _ && _ && _ && _ && _ && _ && _)
    have hemp : (stripL ts).isEmpty = ts.isEmpty := by
      cases ts <;> rfl
    have hkind : kindOk k s (stripL ts) = kindOk k s ts := by
      cases k <;> simp [kindOk, sumSizes_stripL, hemp]
    rw [sumSizes_stripL, allDeepUnexpandedL_stripL, hemp, hkind,
      InvL_stripL_of ts ih]

/-- Helper for the mutual induction below: `sliceWidths` and `sliceHeights`
only relayout their members. -/
theorem stripL_slice (ts : List TMTree)
    (ih : ∀ t ∈ ts, ∀ r, strip (t.update_rectangles r) = strip t) :
    (∀ xCur y rect total,
      stripL (sliceWidths ts xCur y rect total) = stripL ts) ∧
    (∀ x yCur rect total,
      stripL (sliceHeights ts x yCur rect total) = stripL ts) := by
  induction ts with
  | nil => exact ⟨fun _ _ _ _ => rfl, fun _ _ _ _ => rfl⟩
  | cons t rest ihl =>
    have iht : ∀ r, strip (t.update_rectangles r) = strip t :=
      ih t (by simp)
    cases rest with
    | nil =>
      refine ⟨fun xCur y rect total => ?_, fun x yCur rect total => ?_⟩ <;>
        simp [sliceWidths, sliceHeights, iht]
    | cons u us =>
      have ihrest := ihl (fun v hv => ih v (by simp [List.mem_cons.mp hv]))
      refine ⟨fun xCur y rect total => ?_, fun x yCur rect total => ?_⟩
      · simp only [sliceWidths, stripL_cons, iht]
        rw [ihrest.1]
        rfl
      · simp only [sliceHeights, stripL_cons, iht]
        rw [ihrest.2]
        rfl

theorem strip_update_rectangles (t : TMTree) (r : Rect) :
    strip (t.update_rectangles r) = strip t := by
  induction t using TMTree.inductionOn generalizing r with
  | _ n s c e rc k ts ih =>
    cases ts with
    | nil => rfl
    | cons u us =>
      cases us with
      | nil =>
        show strip (TMTree.mk n s c e (some r) k [u.update_rectangles r]) = _
        rw [strip_mk, strip_mk]
        simp [ih u (by simp)]
      | cons v vs =>
        show strip (if r.h < r.w then _ else _) = _
        by_cases hr : r.h < r.w
        · rw [if_pos hr, strip_mk, strip_mk]
          rw [(stripL_slice (u :: v :: vs) ih).1]
        · rw [if_neg hr, strip_mk, strip_mk]
          rw [(stripL_slice (u :: v :: vs) ih).2]

theorem getNode_update_rectangles_strip (t : TMTree) (r : Rect)
    (p : List Nat) :
    (getNode (t.update_rectangles r) p).map strip =
      (getNode t p).map strip := by
  rw [← getNode_strip, ← getNode_strip, strip_update_rectangles]

theorem getNode_update_rectangles_data_size (t : TMTree) (r : Rect)
    (p : List Nat) :
    (getNode (t.update_rectangles r) p).map TMTree.data_size =
      (getNode t p).map TMTree.data_size := by
  have h := getNode_update_rectangles_strip t r p
  have h2 := congrArg (Option.map TMTree.data_size) h
  simpa [Option.map_map, Function.comp_def] using h2

theorem getNode_update_rectangles_expanded (t : TMTree) (r : Rect)
    (p : List Nat) :
    (getNode (t.update_rectangles r) p).map TMTree.expanded =
      (getNode t p).map TMTree.expanded := by
  have h := getNode_update_rectangles_strip t r p
  have h2 := congrArg (Option.map TMTree.expanded) h
  simpa [Option.map_map, Function.comp_def] using h2

theorem Inv_update_rectangles (t : TMTree) (r : Rect) :
    (t.update_rectangles r).Inv = t.Inv := by
  rw [← Inv_strip, strip_update_rectangles, Inv_strip]

theorem data_size_update_rectangles (t : TMTree) (r : Rect) :
    (t.update_rectangles r).data_size = t.data_size := by
  have h := congrArg TMTree.data_size (strip_update_rectangles t r)
  simpa using h

/-!
Consequences of the invariants used by the `move` proofs: invariants
restrict to every reachable node, an unexpanded node's subtree is deeply
unexpanded, and two distinct displayed leaves are never on one root path.
-/

theorem Inv_mem_subtrees (t : TMTree) (hInv : t.Inv = true) :
    ∀ u ∈ t.subtrees, u.Inv = true := by
  cases t with
  | mk n s c e r k ts =>
    have h := (Inv_mk_iff n s c e r k ts).mp hInv
    simpa using (InvL_iff ts).mp h.2.2.2.2.2.2.2

theorem Inv_getNode (t : TMTree) (p : List Nat) (u : TMTree)
    (hInv : t.Inv = true) (h : getNode t p = some u) : u.Inv = true := by
  induction p generalizing t with
  | nil => cases h; exact hInv
  | cons i p ih =>
    rw [getNode_cons] at h
    cases hx : t.subtrees[i]? with
    | none => rw [hx] at h; cases h
    | some v =>
      rw [hx] at h
      exact ih v (Inv_mem_subtrees t hInv v (List.getElem?_mem hx)) h

theorem deepUnexpanded_mem (u : TMTree) (hd : deepUnexpanded u = true) :
    ∀ v ∈ u.subtrees, deepUnexpanded v = true := by
  cases u with
  | mk n s c e r k ts =>
    rw [deepUnexpanded_def] at hd
    simp only [TMTree.subtrees_mk, TMTree.expanded_mk] at hd ⊢
    exact fun v hv =>
      (allDeepUnexpandedL_iff ts).mp (Bool.and_elim_right hd) v hv

theorem deepUnexpanded_getNode (u : TMTree) (r : List Nat) (v : TMTree)
    (hd : deepUnexpanded u = true) (h : getNode u r = some v) :
    v.expanded = false ∧ deepUnexpanded v = true := by
  induction r generalizing u with
  | nil =>
    cases h
    refine ⟨?_, hd⟩
    rw [deepUnexpanded_def] at hd
    simpa using Bool.and_elim_left hd
  | cons i r ih =>
    rw [getNode_cons] at h
    cases hx : u.subtrees[i]? with
    | none => rw [hx] at h; cases h
    | some w =>
      rw [hx] at h
      exact ih w (deepUnexpanded_mem u hd w (List.getElem?_mem hx)) h

theorem deepUnexpanded_of_Inv_not_expanded (u : TMTree) (hInv : u.Inv = true)
    (he : u.expanded = false) : deepUnexpanded u = true := by
  cases u with
  | mk n s c e r k ts =>
    have h := (Inv_mk_iff n s c e r k ts).mp hInv
    rw [deepUnexpanded_def]
    simp only [TMTree.expanded_mk] at he
    subst he
    simp only [TMTree.expanded_mk, TMTree.subtrees_mk, Bool.not_false,
      Bool.true_and]
    rcases h.2.2.2.2.1 with h5 | h5
    · cases h5
    · exact h5

/-- Everything strictly below an unexpanded node is unexpanded. -/
theorem expanded_false_below (t : TMTree) (q r : List Nat) (u v : TMTree)
    (hInv : t.Inv = true) (hq : getNode t q = some u)
    (he : u.expanded = false) (hv : getNode t (q ++ r) = some v) :
    v.expanded = false := by
  rw [getNode_append, hq] at hv
  exact (deepUnexpanded_getNode u r v
    (deepUnexpanded_of_Inv_not_expanded u (Inv_getNode t q u hInv hq) he)
    hv).1

/-- Two distinct displayed leaves, with the first not the root, are never
related by the prefix (ancestor) order. -/
theorem displayed_leaves_not_prefix (t : TMTree) (ps pd : List Nat)
    (hInv : t.Inv = true) (hps : ps ≠ []) (hne : ps ≠ pd)
    (hdl_s : t.is_displayed_tree_leaf ps = true)
    (hdl_d : t.is_displayed_tree_leaf pd = true) :
    ¬ pd <+: ps ∧ ¬ ps <+: pd := by
  -- unpack the two displayed-leaf facts
  have hself : ∀ q, q ≠ [] → t.is_displayed_tree_leaf q = true →
      ∃ node parent, getNode t q = some node ∧
        getNode t q.dropLast = some parent ∧ node.expanded = false ∧
        parent.expanded = true := by
    intro q hq hdl
    unfold TMTree.is_displayed_tree_leaf at hdl
    cases hn : getNode t q with
    | none => rw [hn] at hdl; cases hdl
    | some node =>
      rw [hn] at hdl
      cases q with
      | nil => exact absurd rfl hq
      | cons j q' =>
        cases hp : getNode t ((j :: q').dropLast) with
        | none => rw [hp] at hdl; cases hdl
        | some parent =>
          rw [hp] at hdl
          simp only [Bool.and_eq_true, Bool.not_eq_true'] at hdl
          exact ⟨node, parent, rfl, rfl, hdl.2, hdl.1⟩
  obtain ⟨sNode, sPar, hsN, hsP, hsE, hsPE⟩ := hself ps hps hdl_s
  constructor
  · -- pd a prefix of ps would put the expanded parent of ps at or below
    -- the unexpanded destination
    intro hpre
    obtain ⟨r, hr⟩ := hpre
    have hrne : r ≠ [] := by
      intro hc
      rw [hc, List.append_nil] at hr
      exact hne hr.symm
    -- the destination node is unexpanded
    have hdN : ∃ dNode, getNode t pd = some dNode ∧ dNode.expanded = false := by
      unfold TMTree.is_displayed_tree_leaf at hdl_d
      cases hn : getNode t pd with
      | none => rw [hn] at hdl_d; cases hdl_d
      | some dNode =>
        rw [hn] at hdl_d
        cases pd with
        | nil =>
          simp only [Bool.not_eq_true'] at hdl_d
          exact ⟨dNode, rfl, hdl_d⟩
        | cons j q' =>
          cases hp : getNode t ((j :: q').dropLast) with
          | none => rw [hp] at hdl_d; cases hdl_d
          | some parent =>
            rw [hp] at hdl_d
            simp only [Bool.and_eq_true, Bool.not_eq_true'] at hdl_d
            exact ⟨dNode, rfl, hdl_d.2⟩
    obtain ⟨dNode, hdNode, hdE⟩ := hdN
    -- the parent of ps lies strictly inside the destination subtree or is it
    have hpar_path : ps.dropLast = pd ++ r.dropLast := by
      have : ps.dropLast = (pd ++ r).dropLast := by rw [hr]
      rw [this, List.dropLast_append_of_ne_nil _ hrne]
    have : sPar.expanded = false := by
      rcases List.eq_nil_or_concat r.dropLast with hnil | _
      · -- parent is the destination itself
        rw [hpar_path] at hsP
        rw [hnil, List.append_nil] at hsP
        rw [hdNode] at hsP
        cases hsP
        exact hdE
      · rw [hpar_path] at hsP
        exact expanded_false_below t pd r.dropLast dNode sPar hInv hdNode hdE hsP
    rw [this] at hsPE
    cases hsPE
  · -- ps a prefix of pd would put the displayed leaf pd strictly inside the
    -- unexpanded subtree of ps
    intro hpre
    obtain ⟨r, hr⟩ := hpre
    have hrne : r ≠ [] := by
      intro hc
      rw [hc, List.append_nil] at hr
      exact hne hr
    have hpd_ne : pd ≠ [] := by
      intro hc
      rw [hc] at hr
      exact hps (List.append_eq_nil.mp hr).1
    obtain ⟨dNode, dPar, hdN, hdP, hdE, hdPE⟩ := hself pd hpd_ne hdl_d
    have hpar_path : pd.dropLast = ps ++ r.dropLast := by
      have : pd.dropLast = (ps ++ r).dropLast := by rw [hr]
      rw [this, List.dropLast_append_of_ne_nil _ hrne]
    have : dPar.expanded = false := by
      rw [hpar_path] at hdP
      exact expanded_false_below t ps r.dropLast sNode dPar hInv hsN hsE hdP
    rw [this] at hdPE
    cases hdPE

/-- A displayed leaf's parent is never the destination leaf. -/
theorem displayed_parent_ne (t : TMTree) (ps pd : List Nat)
    (hps : ps ≠ [])
    (hdl_s : t.is_displayed_tree_leaf ps = true)
    (hdl_d : t.is_displayed_tree_leaf pd = true) :
    ps.dropLast ≠ pd := by
  intro hc
  unfold TMTree.is_displayed_tree_leaf at hdl_s hdl_d
  cases hn : getNode t ps with
  | none => rw [hn] at hdl_s; cases hdl_s
  | some node =>
    rw [hn] at hdl_s
    cases hq : ps with
    | nil => exact hps hq
    | cons j q' =>
      rw [hq] at hdl_s
      cases hp : getNode t ((j :: q').dropLast) with
      | none => rw [hp] at hdl_s; cases hdl_s
      | some parent =>
        rw [hp] at hdl_s
        simp only [Bool.and_eq_true, Bool.not_eq_true'] at hdl_s
        -- parent is expanded, but as the destination it is unexpanded
        cases hm : getNode t pd with
        | none => rw [hm] at hdl_d; cases hdl_d
        | some dNode =>
          rw [hm] at hdl_d
          have hsame : dNode = parent := by
            rw [← hc, hq] at hm
            rw [hm] at hp
            cases hp
            rfl
          cases hpd : pd with
          | nil =>
            rw [hpd] at hdl_d
            simp only [Bool.not_eq_true'] at hdl_d
            rw [hsame] at hdl_d
            rw [hdl_d] at hdl_s
            cases hdl_s.1
          | cons j2 q2 =>
            rw [hpd] at hdl_d
            cases hp2 : getNode t ((j2 :: q2).dropLast) with
            | none => rw [hp2] at hdl_d; cases hdl_d
            | some par2 =>
              rw [hp2] at hdl_d
              simp only [Bool.and_eq_true, Bool.not_eq_true'] at hdl_d
              rw [hsame] at hdl_d
              rw [hdl_d.2] at hdl_s
              cases hdl_s.1

/-!
Claim C4 — `moves_to_nested_dict` and its base case.

The base case `len(moves) == 0 or len(moves[0]) == 0` returns `{}` whenever
the **first** sequence is empty, regardless of the rest of the collection,
and the recursion feeds each group's remainder list (which can start with an
empty remainder) back into the function.  Games are therefore silently
dropped: `[[], ['a']]` yields `{}` although the docstring says empty lists
are ignored, and `[['a'], ['a', 'b']]` yields `{('a', 1): {}}`, losing the
`'b'` move of the second game (while the permuted input
`[['a', 'b'], ['a']]` keeps it), contradicting the documented key semantics
"how many games ended immediately after this move".
-/

/-- C4: the grouping claim fails on the code.  At the failing inputs the
code returns `{}` for `[[], ["a"]]` (the game `["a"]` vanishes) and
`{("a", 1): {}}` for `[["a"], ["a", "b"]]` (the second game's `"b"` move
vanishes), while ingesting the same games in the other order keeps the full
path — the spec's described algorithm would give `{("a", 1): {}}` and
`{("a", 1): {("b", 1): {}}}` respectively. -/
theorem C4_moves_to_nested_dict_drops_games :
    moves_to_nested_dict [[], ["a"]] = NDict.mk [] ∧
      moves_to_nested_dict [["a"], ["a", "b"]] =
        NDict.mk [(("a", 1), NDict.mk [])] ∧
      moves_to_nested_dict [["a", "b"], ["a"]] =
        NDict.mk [(("a", 1), NDict.mk [(("b", 1), NDict.mk [])])] := by
  refine ⟨rfl, rfl, rfl⟩

/-!
Claim C10 — `n.move(n)`.

Python dispatch runs the subclass capability check **before** the base
method's `if self is not destination` guard, so `n.move(n)` raises
`OperationNotSupportedError` for a `FileTree` (its destination — itself —
is a `FileTree`) and for a `ChessTree`; only the base and `DirectoryTree`
kinds reach the guard and silently do nothing.
-/

/-- A lone file node. -/
def loneFile : TMTree := FileTree.init "f" 1 (0, 0, 0)

/-- C10 counterexample: for a File-kind node `n`, `n.move(n)` raises
`OperationNotSupportedError` instead of being a silent no-op (the claim
asserts no error is raised for every node). -/
theorem C10_counterexample_file_self_move :
    moveOp loneFile [] [] = OpOutcome.unsupported loneFile := rfl

/-- C10 (amended): for a Generic- or Directory-kind node `n`, `n.move(n)` is
a silent no-op — no error, and the returned tree is the argument itself, so
every node's parent, children, data_size, expanded flag and rectangle are
unchanged.  (File- and ChessMove-kind nodes instead raise
`OperationNotSupportedError`, also without mutating anything.) -/
theorem C10_move_to_self_noop (t : TMTree) (p : List Nat) (node : TMTree)
    (hnode : getNode t p = some node)
    (hkind : node.kind = Kind.generic ∨ node.kind = Kind.directory) :
    moveOp t p p = OpOutcome.ok t := by
  have hbase : baseMoveOutcome t p p = OpOutcome.ok t := by
    unfold baseMoveOutcome TMTree.move
    rw [if_pos rfl]
  rcases hkind with h | h
  · simp only [moveOp, hnode, h]
    exact hbase
  · simp only [moveOp, hnode, h]
    rw [if_neg (by simp)]
    exact hbase

/-- Witness for C10: on the laid-out doctest tree, moving the generic node
`C1` onto itself returns the tree unchanged with no error. -/
theorem C10_move_to_self_noop_witness :
    moveOp doctestT3 [0] [0] = OpOutcome.ok doctestT3 :=
  C10_move_to_self_noop doctestT3 [0]
    (TMTree.mk "C1" 5 (0, 0, 0) false (some ⟨0, 0, 100, 50⟩) Kind.generic [])
    rfl (Or.inl rfl)

/-!
Claim C7 — which operations raise `OperationNotSupportedError`.

True parts: `change_size` on a Directory- or ChessMove-kind node raises;
`move` on a ChessMove-kind node raises; a File- or Directory-kind node
raises when moved into a File-kind destination; each such raise happens
before any mutation, so the tree is untouched.  False part: "move into a
File-kind destination raises" is not checked for a Generic-kind source —
the base `TMTree.move` has no kind check at all, so a generic node moves
into a file without any error.
-/

/-- A generic node and a file leaf under a generic root, laid out. -/
def genericIntoFileTree : TMTree :=
  (TMTree.init "r"
    [TMTree.init "n" [] 5 (0, 0, 0) Kind.generic,
     FileTree.init "d" 5 (0, 0, 0)]
    1 (0, 0, 0) Kind.generic).update_rectangles ⟨0, 0, 100, 200⟩

/-- C7 counterexample: a Generic-kind node moved into a File-kind displayed
leaf raises nothing — the call succeeds, contradicting the claim that every
move into a File-kind destination is an explicit UnsupportedOperation
failure. -/
theorem C7_counterexample_generic_into_file :
    ∃ u, moveOp genericIntoFileTree [0] [1] = OpOutcome.ok u :=
  ⟨_, rfl⟩

/-- C7 (amended): `change_size` on a Directory- or ChessMove-kind node
raises `OperationNotSupportedError`; `move` on a ChessMove-kind node raises
it unconditionally; `move` by a **File- or Directory-kind** node into a
File-kind destination raises it (the base Generic kind performs no such
check); and every such failing call returns `OpOutcome.unsupported` carrying
the untouched input tree — the check precedes any mutation. -/
theorem C7_unsupported_operations :
    (∀ (t : TMTree) (p : List Nat) (factor : ℚ) (node : TMTree),
      getNode t p = some node →
      node.kind = Kind.directory ∨ node.kind = Kind.chessMove →
      changeSizeOp t p factor = OpOutcome.unsupported t) ∧
    (∀ (t : TMTree) (ps pd : List Nat) (s d : TMTree),
      getNode t ps = some s → getNode t pd = some d →
      s.kind = Kind.chessMove →
      moveOp t ps pd = OpOutcome.unsupported t) ∧
    (∀ (t : TMTree) (ps pd : List Nat) (s d : TMTree),
      getNode t ps = some s → getNode t pd = some d →
      (s.kind = Kind.file ∨ s.kind = Kind.directory) → d.kind = Kind.file →
      moveOp t ps pd = OpOutcome.unsupported t) := by
  refine ⟨?_, ?_, ?_⟩
  · intro t p factor node hnode hk
    rcases hk with h | h <;> simp only [changeSizeOp, hnode, h]
  · intro t ps pd s d hs hd hk
    simp only [moveOp, hs, hd, hk]
  · intro t ps pd s d hs hd hks hkd
    rcases hks with h | h <;> simp only [moveOp, hs, hd, h, hkd, if_pos]

/-- An empty chess tree root (kind ChessMove). -/
def loneChess : TMTree := ChessTree.fromDict (0, 0, 0) (NDict.mk []) "-" true 1

/-- A lone directory node. -/
def loneDir : TMTree := DirectoryTree.init "d" [] (0, 0, 0)

/-- Witness for C7: concrete raises of each listed kind, each returning the
tree unmodified. -/
theorem C7_unsupported_operations_witness :
    changeSizeOp loneDir [] 1 = OpOutcome.unsupported loneDir ∧
      moveOp loneChess [] [] = OpOutcome.unsupported loneChess ∧
      moveOp loneFile [] [] = OpOutcome.unsupported loneFile :=
  ⟨C7_unsupported_operations.1 loneDir [] 1 loneDir rfl (Or.inl rfl),
   C7_unsupported_operations.2.1 loneChess [] [] loneChess loneChess rfl rfl
     rfl,
   C7_unsupported_operations.2.2 loneFile [] [] loneFile loneFile rfl rfl
     (Or.inl rfl) rfl⟩

/-- Appending keeps existing lookups. -/
theorem getElem?_append_of_some {α : Type} (l l2 : List α) (i : Nat) (a : α)
    (h : l[i]? = some a) : (l ++ l2)[i]? = some a := by
  have hlt : i < l.length := by
    by_contra hge
    rw [List.getElem?_eq_none (by omega)] at h
    cases h
  rw [List.getElem?_append, if_pos hlt]
  exact h

/-- `attachAt` leaves the expanded flag, the child count and the kind of any
existing node other than the destination unchanged. -/
theorem attachAt_shape_at (t : TMTree) (pd q : List Nat) (x w : TMTree)
    (hq : q ≠ pd) (hw : getNode t q = some w) :
    ∃ w', getNode (attachAt t pd x) q = some w' ∧
      w'.expanded = w.expanded ∧ w'.subtrees.length = w.subtrees.length ∧
      w'.kind = w.kind ∧ w'.name = w.name := by
  by_cases h1 : q <+: pd
  · obtain ⟨r, hr⟩ := h1
    have hrne : r ≠ [] := by
      intro hc
      rw [hc, List.append_nil] at hr
      exact hq hr
    rw [← hr, getNode_attachAt_prefix, hw]
    cases r with
    | nil => exact absurd rfl hrne
    | cons j r' =>
      cases w with
      | mk n s c e rc k ts =>
        rw [Option.map_some']
        exact ⟨_, rfl, by rw [attachAt_mk_cons]; simp [modifyChildren_length],
          by rw [attachAt_mk_cons]; simp [modifyChildren_length],
          by rw [attachAt_mk_cons]; simp, by rw [attachAt_mk_cons]; simp⟩
  · by_cases h2 : pd <+: q
    · obtain ⟨r, hr⟩ := h2
      have hrne : r ≠ [] := by
        intro hc
        rw [hc, List.append_nil] at hr
        exact hq hr.symm
      rw [← hr, getNode_append] at hw
      cases hd : getNode t pd with
      | none => rw [hd] at hw; cases hw
      | some d =>
        rw [hd, Option.some_bind] at hw
        rw [← hr, getNode_append]
        have hpfx := getNode_attachAt_prefix t pd [] x
        rw [List.append_nil, hd, Option.map_some'] at hpfx
        rw [hpfx, Option.some_bind]
        cases d with
        | mk n s c e rc k ts =>
          rw [attachAt_mk_nil]
          cases r with
          | nil => exact absurd rfl hrne
          | cons j r' =>
            rw [getNode_cons] at hw
            rw [getNode_cons]
            simp only [TMTree.subtrees_mk] at hw ⊢
            cases hu : ts[j]? with
            | none => rw [hu] at hw; cases hw
            | some u =>
              rw [hu, Option.some_bind] at hw
              rw [getElem?_append_of_some ts [x] j u hu, Option.some_bind]
              exact ⟨w, hw, rfl, rfl, rfl, rfl⟩
    · rw [getNode_attachAt_off t pd q x h1 h2, hw]
      exact ⟨w, rfl, rfl, rfl, rfl, rfl⟩

/-!
Claim C3 — when does `move` un-expand the old parent?

The source evaluates `len(self._parent_tree._subtrees) < 2` **before**
removing `self` from that list (and after an append that never touches this
list, since the destination is a different node).  With `self` still
counted, the test is true exactly when `self` was the parent's only child —
not, as claimed, when the parent had one or two children including `self`.
-/

/-- C3 counterexample: in the doctest tree the root has exactly two
children, both displayed leaves; moving one of them away under all of
`move`'s preconditions leaves the old parent's expanded flag `true`, where
the claim requires `false`. -/
theorem C3_counterexample_two_children :
    doctestT3.Inv = true ∧
      doctestT3.is_displayed_tree_leaf [0] = true ∧
      doctestT3.is_displayed_tree_leaf [1] = true ∧
      (getNode doctestT3 []).map (fun u => u.subtrees.length) = some 2 ∧
      (doctestT3.move [0] [1]).map TMTree.expanded = some true := by
  exact ⟨rfl, rfl, rfl, rfl, rfl⟩

/-- Unpacks a successful `move`: the result is the attach-then-detach tree
re-laid-out with its own pre-existing root rect. -/
theorem move_destructure (t : TMTree) (ps pd : List Nat) (s t' : TMTree)
    (hne : ps ≠ pd) (hs : getNode t ps = some s)
    (hmv : t.move ps pd = some t') :
    ∃ r, (detachAt (attachAt t pd s) ps s.data_size).rect = some r ∧
      t' = (detachAt (attachAt t pd s) ps s.data_size).update_rectangles r := by
  unfold TMTree.move at hmv
  rw [if_neg hne] at hmv
  by_cases hps : ps = []
  · rw [if_pos hps] at hmv
    cases hmv
  · rw [if_neg hps, hs] at hmv
    dsimp only [] at hmv
    split at hmv
    · rename_i r hr
      cases hmv
      exact ⟨r, hr, rfl⟩
    · cases hmv

/-- C3 (amended): under `move`'s preconditions the old parent's expanded
flag after `move(node, destination)` is `false` exactly when the parent's
child count **with `node` still counted** is below 2 — i.e. when `node` was
an only child — and is otherwise left at its previous value (`true`, the
parent of a displayed leaf being expanded).  In particular, after moving
away one of a parent's exactly two children the flag stays `true`. -/
theorem C3_move_parent_expanded_flag (t : TMTree) (ps pd : List Nat)
    (t' s par : TMTree) (hInv : t.Inv = true) (hps : ps ≠ [])
    (hne : ps ≠ pd)
    (hdl_s : t.is_displayed_tree_leaf ps = true)
    (hdl_d : t.is_displayed_tree_leaf pd = true)
    (hs : getNode t ps = some s)
    (hpar : getNode t ps.dropLast = some par)
    (hmv : t.move ps pd = some t') :
    (getNode t' ps.dropLast).map TMTree.expanded =
      some (if par.subtrees.length < 2 then false else par.expanded) := by
  obtain ⟨r, hr, ht'⟩ := move_destructure t ps pd s t' hne hs hmv
  subst ht'
  -- the old parent is not the destination
  have hne_par : ps.dropLast ≠ pd :=
    displayed_parent_ne t ps pd hps hdl_s hdl_d
  -- its expanded flag and child count survive the attach
  obtain ⟨w1, hw1, he1, hl1, _, _⟩ :=
    attachAt_shape_at t pd ps.dropLast s par hne_par hpar
  -- the detach applies the `< 2` test at the parent
  have hsplit : ps.dropLast ++ [ps.getLast hps] = ps :=
    List.dropLast_append_getLast hps
  have hdet := getNode_detachAt_prefix (attachAt t pd s) ps.dropLast
    [ps.getLast hps] (by simp) s.data_size
  rw [hsplit, hw1, Option.map_some'] at hdet
  -- relayout does not change flags
  rw [getNode_update_rectangles_expanded, hdet]
  cases w1 with
  | mk n2 s2 c2 e2 r2 k2 ts2 =>
    rw [detachAt_mk_single, Option.map_some']
    simp only [TMTree.expanded_mk, TMTree.subtrees_mk] at he1 hl1 ⊢
    rw [hl1, he1]

/-- Witness for C3 (amended): in the doctest tree the root keeps
`expanded = true` after one of its two children is moved away. -/
theorem C3_move_parent_expanded_flag_witness :
    ∃ t' par, getNode doctestT3 ([0] : List Nat).dropLast = some par ∧
      doctestT3.move [0] [1] = some t' ∧
      (getNode t' ([0] : List Nat).dropLast).map TMTree.expanded =
        some (if par.subtrees.length < 2 then false else par.expanded) := by
  refine ⟨_, _, rfl, rfl, ?_⟩
  exact C3_move_parent_expanded_flag doctestT3 [0] [1] _ _ _ rfl (by decide)
    (by decide) rfl rfl rfl rfl rfl

/-!
Claim C8 — collapse/expand round trip.
-/

/-- `_unexpanded` maps over a subtree list. -/
theorem unexpandedL_getElem? (ts : List TMTree) (i : Nat) :
    (unexpandedL ts)[i]? = (ts[i]?).map TMTree.unexpanded := by
  induction ts generalizing i with
  | nil => simp [unexpandedL]
  | cons u us ih =>
    cases i with
    | zero => simp [unexpandedL]
    | succ j => simpa [unexpandedL] using ih j

/-- `_unexpanded` never turns an unexpanded node expanded. -/
theorem unexpanded_expanded_of_false (u : TMTree) (h : u.expanded = false) :
    (TMTree.unexpanded u).expanded = false := by
  cases u with
  | mk n s c e r k ts =>
    cases ts with
    | nil => simpa [TMTree.unexpanded] using h
    | cons v vs => simp [TMTree.unexpanded]

/-- Sufficient condition for `is_displayed_tree_leaf`: an existing node
with an unexpanded flag under an expanded parent. -/
theorem is_displayed_tree_leaf_of (x : TMTree) (p : List Nat)
    (node par : TMTree) (hp : p ≠ []) (hnode : getNode x p = some node)
    (hpar : getNode x p.dropLast = some par) (hparE : par.expanded = true)
    (hnodeE : node.expanded = false) :
    x.is_displayed_tree_leaf p = true := by
  unfold TMTree.is_displayed_tree_leaf
  cases p with
  | nil => exact absurd rfl hp
  | cons j q' => simp [hnode, hpar, hparE, hnodeE]

/-- C8: for a displayed leaf `n` with parent `p` in a tree satisfying the
invariants, `collapse(n)` followed by `expand(p)` makes `n` a displayed
leaf again: collapse sets `p._expanded = False` and unexpands `p`'s whole
subtree, expand restores `p._expanded = True`, and `n`'s own flag stays
`False`. -/
theorem C8_collapse_expand_roundtrip (t : TMTree) (p : List Nat)
    (node par : TMTree) (hInv : t.Inv = true) (hp : p ≠ [])
    (hnode : getNode t p = some node)
    (hpar : getNode t p.dropLast = some par)
    (hdl : t.is_displayed_tree_leaf p = true) :
    (expandAt (t.collapse p) p.dropLast).is_displayed_tree_leaf p = true := by
  -- the moved node is unexpanded (displayed leaf)
  have hnodeE : node.expanded = false := by
    unfold TMTree.is_displayed_tree_leaf at hdl
    rw [hnode] at hdl
    cases hq : p with
    | nil => exact absurd hq hp
    | cons j q' =>
      rw [hq] at hdl
      rw [← hq] at hdl
      cases hpp : getNode t p.dropLast with
      | none => rw [hq] at hdl hpp; rw [hpp] at hdl; cases hdl
      | some w =>
        rw [hq] at hdl hpp
        rw [hpp] at hdl
        simp only [Bool.and_eq_true, Bool.not_eq_true'] at hdl
        exact hdl.2
  -- split the path at the parent
  have hsplit : p.dropLast ++ [p.getLast hp] = p :=
    List.dropLast_append_getLast hp
  -- the parent's child list contains the node at the last index
  have hchild : par.subtrees[p.getLast hp]? = some node := by
    rw [← hsplit, getNode_append, hpar] at hnode
    rw [Option.some_bind, getNode_cons] at hnode
    cases hx : par.subtrees[p.getLast hp]? with
    | none => rw [hx] at hnode; cases hnode
    | some u =>
      rw [hx, Option.some_bind] at hnode
      cases hnode
      rfl
  -- after collapse, the node at the parent path
  have hcol : getNode (t.collapse p) p.dropLast =
      some (collapseParentNode par) := by
    unfold TMTree.collapse
    rw [if_neg (by simpa using hp)]
    rw [getNode_modifyAt_self, hpar, Option.map_some']
  -- after expand, the node at the parent path
  have hexp : getNode (expandAt (t.collapse p) p.dropLast) p.dropLast =
      some (TMTree.expand (collapseParentNode par)) := by
    unfold expandAt
    rw [getNode_modifyAt_self, hcol, Option.map_some']
  -- compute the two relevant nodes
  cases par with
  | mk n s c e r k ts =>
    cases ts with
    | nil =>
      rw [TMTree.subtrees_mk] at hchild
      simp at hchild
    | cons v vs =>
      have hcp : collapseParentNode (TMTree.mk n s c e r k (v :: vs)) =
          TMTree.mk n s c false r k (unexpandedL (v :: vs)) := rfl
      have hex : TMTree.expand (TMTree.mk n s c false r k
          (unexpandedL (v :: vs))) =
          TMTree.mk n s c true r k (unexpandedL (v :: vs)) := by
        show TMTree.expand (TMTree.mk n s c false r k
          (v.unexpanded :: unexpandedL vs)) = _
        rfl
      rw [hcp, hex] at hexp
      -- the node itself after the round trip
      set x := expandAt (t.collapse p) p.dropLast with hx
      have hnode' : getNode x p = some node.unexpanded := by
        conv_lhs => rw [← hsplit]
        rw [getNode_append, hexp, Option.some_bind, getNode_cons]
        rw [TMTree.subtrees_mk, unexpandedL_getElem?]
        rw [TMTree.subtrees_mk] at hchild
        rw [hchild]
        rfl
      exact is_displayed_tree_leaf_of x p node.unexpanded _ hp hnode' hexp
        rfl (unexpanded_expanded_of_false node hnodeE)

/-- Witness for C8: in the doctest tree, collapsing the displayed leaf `C1`
and re-expanding its parent makes `C1` a displayed leaf again. -/
theorem C8_collapse_expand_roundtrip_witness :
    (expandAt (doctestT3.collapse [0]) ([0] : List Nat).dropLast).is_displayed_tree_leaf
      [0] = true :=
  C8_collapse_expand_roundtrip doctestT3 [0] _ _ rfl (by decide) rfl rfl rfl

/-!
Claim C6 — `change_size`.
-/

theorem data_size_modifyAt_cons (u : TMTree) (p : List Nat) (hp : p ≠ [])
    (f : TMTree → TMTree) : (modifyAt u p f).data_size = u.data_size := by
  cases p with
  | nil => exact absurd rfl hp
  | cons i p' => rw [modifyAt_cons]; rfl

theorem prefix_dropLast_of_proper (q p : List Nat) (hq : q <+: p)
    (hne : q ≠ p) : ∃ rr, rr ≠ [] ∧ p = q ++ rr ∧
      p.dropLast = q ++ rr.dropLast := by
  obtain ⟨rr, hrr⟩ := hq
  refine ⟨rr, ?_, hrr.symm, ?_⟩
  · intro hc
    rw [hc, List.append_nil] at hrr
    exact hne hrr
  · have hrne : rr ≠ [] := by
      intro hc
      rw [hc, List.append_nil] at hrr
      exact hne hrr
    rw [← hrr, List.dropLast_append_of_ne_nil _ hrne]

/-- Unpacks a successful `change_size`: the result is the size rewrite plus
ancestor propagation, re-laid-out with the pre-existing root rect. -/
theorem change_size_destructure (t : TMTree) (p : List Nat) (factor : ℚ)
    (node t' : TMTree) (hnode : getNode t p = some node)
    (hcs : t.change_size p factor = some t') :
    ∃ r t2,
      ((p = [] ∧
          t2 = modifyAt t p (fun u => u.withDataSize (csNewSize node factor))) ∨
        (p ≠ [] ∧
          t2 = addAlongPrefixes
            (modifyAt t p (fun u => u.withDataSize (csNewSize node factor)))
            p.dropLast (csNewSize node factor - node.data_size))) ∧
      t2.rect = some r ∧ t' = t2.update_rectangles r := by
  unfold TMTree.change_size at hcs
  rw [hnode] at hcs
  simp only [] at hcs
  cases p with
  | nil =>
    split at hcs
    · rename_i r hr
      cases hcs
      exact ⟨r, _, Or.inl ⟨rfl, rfl⟩, hr, rfl⟩
    · cases hcs
  | cons i p0 =>
    split at hcs
    · rename_i r hr
      cases hcs
      exact ⟨r, _, Or.inr ⟨by simp, rfl⟩, hr, rfl⟩
    · cases hcs

@[simp] theorem data_size_withDataSize (u : TMTree) (v : Int) :
    (u.withDataSize v).data_size = v := by
  cases u; rfl

theorem not_prefix_dropLast (p : List Nat) (hp : p ≠ []) :
    ¬ p <+: p.dropLast := by
  intro hc
  have h1 := hc.length_le
  rw [List.length_dropLast] at h1
  have h2 : 0 < p.length := List.length_pos.mpr hp
  omega

/-- The result of the leaf/internal flooring, as the claim's `max` form. -/
theorem csNewSize_eq_max (node : TMTree) (factor : ℚ) :
    csNewSize node factor =
      max (node.data_size + changeSizeDelta factor node.data_size)
        (if node.subtrees.isEmpty then 1 else sumSizes node.subtrees) := by
  cases h : node.subtrees.isEmpty with
  | true =>
    simp only [csNewSize, h, if_true]
    split_ifs <;> omega
  | false =>
    simp only [csNewSize, h, Bool.false_eq_true, if_false]
    split_ifs <;> omega

/-- C6: for a displayed leaf at `p` and `factor ≠ 0`, `change_size` computes
the delta as `floor(factor * size)` for negative `factor` and
`ceil(factor * size)` otherwise, sets the node's new size to
`max(size + delta, 1)` for a childless node and to
`max(size + delta, sum of children's sizes)` otherwise — so the result is
never below 1 for a leaf nor below the children's total for an internal
node, whatever `factor` is — and adds the size difference to every proper
ancestor up to the root. -/
theorem C6_change_size_formula (t : TMTree) (p : List Nat) (factor : ℚ)
    (t' node : TMTree) (hInv : t.Inv = true) (hf : factor ≠ 0)
    (hdl : t.is_displayed_tree_leaf p = true)
    (hnode : getNode t p = some node)
    (hcs : t.change_size p factor = some t') :
    changeSizeDelta factor node.data_size =
      (if factor < 0 then ⌊factor * (node.data_size : ℚ)⌋
        else ⌈factor * (node.data_size : ℚ)⌉) ∧
    (getNode t' p).map TMTree.data_size =
      some (max (node.data_size + changeSizeDelta factor node.data_size)
        (if node.subtrees.isEmpty then 1 else sumSizes node.subtrees)) ∧
    (node.subtrees.isEmpty = true → 1 ≤ csNewSize node factor) ∧
    (node.subtrees.isEmpty = false →
      sumSizes node.subtrees ≤ csNewSize node factor) ∧
    (∀ q, q <+: p → q ≠ p →
      (getNode t' q).map TMTree.data_size =
        (getNode t q).map (fun u =>
          u.data_size + (csNewSize node factor - node.data_size))) := by
  obtain ⟨r, t2, hcase, hrect, ht'⟩ :=
    change_size_destructure t p factor node t' hnode hcs
  subst ht'
  refine ⟨rfl, ?_, ?_, ?_, ?_⟩
  · rw [getNode_update_rectangles_data_size, ← csNewSize_eq_max]
    rcases hcase with ⟨hp, ht2⟩ | ⟨hp, ht2⟩
    · subst hp
      subst ht2
      rw [modifyAt_nil]
      cases hnode
      simp
    · subst ht2
      rw [getNode_addAlongPrefixes_off _ _ _ _ (not_prefix_dropLast p hp)]
      rw [getNode_modifyAt_self, hnode]
      simp
  · intro hleaf
    rw [csNewSize_eq_max, if_pos hleaf]
    exact le_max_right _ _
  · intro hleaf
    rw [csNewSize_eq_max, if_neg (by simp [hleaf])]
    exact le_max_right _ _
  · intro q hq hqe
    have hp : p ≠ [] := by
      intro hc
      subst hc
      exact hqe (List.prefix_nil.mp hq)
    rcases hcase with ⟨hp', _⟩ | ⟨_, ht2⟩
    · exact absurd hp' hp
    · subst ht2
      rw [getNode_update_rectangles_data_size]
      obtain ⟨rr, hrne, hsplit, hdrop⟩ := prefix_dropLast_of_proper q p hq hqe
      rw [hdrop, getNode_addAlongPrefixes_prefix]
      have hmod : modifyAt t p (fun u =>
          u.withDataSize (csNewSize node factor)) =
          modifyAt t q (fun u => modifyAt u rr (fun v =>
            v.withDataSize (csNewSize node factor))) := by
        conv_lhs => rw [hsplit]
        exact modifyAt_append t q rr _
      rw [hmod, getNode_modifyAt_self]
      cases hx : getNode t q with
      | none => simp
      | some u =>
        simp only [Option.map_some', Option.map_map, Function.comp_def]
        rw [data_size_addAlongPrefixes, data_size_modifyAt_cons u rr hrne]

/-- Witness for C6: shrinking the doctest leaf `C2` by `-2/3` sets its size
to `max(15 + delta, 1) = 5`. -/
theorem C6_change_size_formula_witness :
    ∃ t', doctestT3.change_size [1] (-2 / 3) = some t' ∧
      (getNode t' [1]).map TMTree.data_size =
        some (max (15 + changeSizeDelta (-2 / 3) 15) 1) := by
  have hnode : getNode doctestT3 [1] =
      some (TMTree.mk "C2" 15 (0, 0, 0) false (some ⟨0, 50, 100, 150⟩)
        Kind.generic []) := rfl
  have hN : csNewSize (TMTree.mk "C2" 15 (0, 0, 0) false
      (some ⟨0, 50, 100, 150⟩) Kind.generic []) (-2 / 3) = 5 := by
    norm_num [csNewSize, changeSizeDelta, TMTree.data_size,
      TMTree.subtrees, sumSizes, List.isEmpty]
  have hex : ∃ t', doctestT3.change_size [1] (-2 / 3) = some t' := by
    simp only [TMTree.change_size, hnode, hN]
    exact ⟨_, rfl⟩
  obtain ⟨t', hcs⟩ := hex
  exact ⟨t', hcs,
    (C6_change_size_formula doctestT3 [1] (-2 / 3) t' _ rfl (by norm_num)
      rfl rfl hcs).2.1⟩

/-!
Claim C5 — size conservation under `move`.
-/

/-- Unpacks a successful cross-tree `move`. -/
theorem moveAcross_destructure (tSelf : TMTree) (ps : List Nat)
    (tDest : TMTree) (pd : List Nat) (s tS' tD' : TMTree)
    (hs : getNode tSelf ps = some s)
    (hmv : moveAcross tSelf ps tDest pd = some (tS', tD')) :
    ps ≠ [] ∧ tS' = detachAt tSelf ps s.data_size ∧
      ∃ r, (attachAt tDest pd s).rect = some r ∧
        tD' = (attachAt tDest pd s).update_rectangles r := by
  unfold moveAcross at hmv
  split at hmv
  · cases hmv
  · cases hmv
  · rename_i head tail s2 heq
    rw [hs] at heq
    cases heq
    split at hmv
    · rename_i r hr
      cases hmv
      exact ⟨by simp, rfl, r, hr, rfl⟩
    · cases hmv

/-- C5: size conservation under `move`.  When `node` (of size `sz`) moves
between two different trees, the destination root's `data_size` grows by
exactly `sz` and the old tree's root shrinks by exactly `sz`; when source
and destination are in the same tree, the `data_size` of every common
ancestor of the destination and the old parent — the shared root included —
is unchanged. -/
theorem C5_move_size_conservation :
    (∀ (tSelf : TMTree) (ps : List Nat) (tDest : TMTree) (pd : List Nat)
      (s tS' tD' : TMTree),
      getNode tSelf ps = some s →
      moveAcross tSelf ps tDest pd = some (tS', tD') →
      tD'.data_size = tDest.data_size + s.data_size ∧
        tS'.data_size = tSelf.data_size - s.data_size) ∧
    (∀ (t : TMTree) (ps pd : List Nat) (s t' : TMTree),
      getNode t ps = some s → ps ≠ pd → t.move ps pd = some t' →
      ∀ q, q <+: ps.dropLast → q <+: pd →
        (getNode t' q).map TMTree.data_size =
          (getNode t q).map TMTree.data_size) := by
  constructor
  · intro tSelf ps tDest pd s tS' tD' hs hmv
    obtain ⟨hps, hS, r, hr, hD⟩ :=
      moveAcross_destructure tSelf ps tDest pd s tS' tD' hs hmv
    subst hS
    subst hD
    constructor
    · rw [data_size_update_rectangles, data_size_attachAt]
    · rw [data_size_detachAt tSelf ps hps s.data_size]
  · intro t ps pd s t' hs hne hmv q hq1 hq2
    have hps : ps ≠ [] := by
      intro hc
      subst hc
      unfold TMTree.move at hmv
      rw [if_neg hne, if_pos rfl] at hmv
      cases hmv
    obtain ⟨r, hr, ht'⟩ := move_destructure t ps pd s t' hne hs hmv
    subst ht'
    rw [getNode_update_rectangles_data_size]
    obtain ⟨rr, hrr⟩ := hq1
    have hqps : q ++ (rr ++ [ps.getLast hps]) = ps := by
      rw [← List.append_assoc, hrr, List.dropLast_append_getLast]
    have hdet := getNode_detachAt_prefix (attachAt t pd s) q
      (rr ++ [ps.getLast hps]) (by simp) s.data_size
    rw [hqps] at hdet
    rw [hdet]
    obtain ⟨rr2, hrr2⟩ := hq2
    have hatt := getNode_attachAt_prefix t q rr2 s
    rw [hrr2] at hatt
    rw [hatt]
    cases hx : getNode t q with
    | none => simp
    | some u =>
      simp only [Option.map_some', Option.map_map, Function.comp_def]
      rw [data_size_detachAt _ _ (by simp) s.data_size, data_size_attachAt]
      simp [add_sub_cancel_right]

/-- Witness for C5: moving the doctest leaf `C1` across to a second copy of
the tree adds 5 to the destination root and removes 5 from the source root;
within one tree, the shared root's size is unchanged after `move`. -/
theorem C5_move_size_conservation_witness :
    (∃ tS' tD', moveAcross doctestT3 [0] doctestT3 [1] = some (tS', tD') ∧
      tD'.data_size = doctestT3.data_size + 5 ∧
      tS'.data_size = doctestT3.data_size - 5) ∧
    (∃ t', doctestT3.move [0] [1] = some t' ∧
      (getNode t' []).map TMTree.data_size =
        (getNode doctestT3 []).map TMTree.data_size) := by
  constructor
  · refine ⟨_, _, rfl, ?_⟩
    exact C5_move_size_conservation.1 doctestT3 [0] doctestT3 [1] _ _ _ rfl
      rfl
  · refine ⟨_, rfl, ?_⟩
    exact C5_move_size_conservation.2 doctestT3 [0] [1] _ _ rfl (by decide)
      rfl [] (by decide) (by decide)


/-!
Claim C9 — the base `move` has no destination-kind check.
-/

theorem rect_attachAt (t : TMTree) (p : List Nat) (x : TMTree) :
    (attachAt t p x).rect = t.rect := by
  cases t
  cases p <;> rfl

theorem rect_detachAt (t : TMTree) (p : List Nat) (sz : Int) :
    (detachAt t p sz).rect = t.rect := by
  cases t with
  | mk n s c e r k ts =>
    cases p with
    | nil => rfl
    | cons i p0 => cases p0 <;> rfl

/-- The success equation for the base `move`. -/
theorem move_succeeds (t : TMTree) (ps pd : List Nat) (s : TMTree) (r0 : Rect)
    (hne : ps ≠ pd) (hps : ps ≠ []) (hs : getNode t ps = some s)
    (hrect : (detachAt (attachAt t pd s) ps s.data_size).rect = some r0) :
    t.move ps pd =
      some ((detachAt (attachAt t pd s) ps
        s.data_size).update_rectangles r0) := by
  unfold TMTree.move
  rw [if_neg hne, if_neg hps, hs]
  dsimp only []
  rw [hrect]

/-- C9: a Generic-kind (base `TMTree`) node `n`, moved to a File-kind
displayed-leaf destination `d` under `move`'s remaining preconditions,
raises no error: the call returns `ok`, and in the result the destination —
re-addressed by `adjustAfterRemove` since removing `n` can shift sibling
indices — is expanded and carries exactly its old children plus `n`
appended last (compared through `strip`, the final relayout rewriting every
rectangle).  The File-destination rejection lives only in the
`FileTree`/`DirectoryTree` overrides of `move`, not in the base class. -/
theorem C9_generic_move_into_file (t : TMTree) (ps pd : List Nat)
    (s d : TMTree) (r0 : Rect) (hInv : t.Inv = true)
    (hs : getNode t ps = some s) (hd : getNode t pd = some d)
    (hskind : s.kind = Kind.generic) (hdkind : d.kind = Kind.file)
    (hps : ps ≠ []) (hne : ps ≠ pd)
    (hdl_s : t.is_displayed_tree_leaf ps = true)
    (hdl_d : t.is_displayed_tree_leaf pd = true)
    (hrect : t.rect = some r0) :
    ∃ t', moveOp t ps pd = OpOutcome.ok t' ∧
      ∃ d', getNode t' (adjustAfterRemove ps pd) = some d' ∧
        d'.expanded = true ∧
        stripL d'.subtrees = stripL (d.subtrees ++ [s]) := by
  obtain ⟨hnp1, hnp2⟩ :=
    displayed_leaves_not_prefix t ps pd hInv hps hne hdl_s hdl_d
  have hrect2 : (detachAt (attachAt t pd s) ps s.data_size).rect = some r0 := by
    rw [rect_detachAt, rect_attachAt, hrect]
  have hmv := move_succeeds t ps pd s r0 hne hps hs hrect2
  refine ⟨(detachAt (attachAt t pd s) ps s.data_size).update_rectangles r0,
    ?_, ?_⟩
  · simp only [moveOp, hs, hd, hskind, baseMoveOutcome, hmv]
  · -- locate the destination in the result
    have h1 : getNode (detachAt (attachAt t pd s) ps s.data_size)
        (adjustAfterRemove ps pd) = getNode (attachAt t pd s) pd :=
      getNode_detachAt_adjust (attachAt t pd s) ps pd s.data_size hnp2 hnp1
    have h2 : getNode (attachAt t pd s) pd =
        some (attachAt d [] s) := by
      have := getNode_attachAt_prefix t pd [] s
      rw [List.append_nil, hd, Option.map_some'] at this
      exact this
    have h3 : (getNode ((detachAt (attachAt t pd s) ps
        s.data_size).update_rectangles r0) (adjustAfterRemove ps pd)).map
          strip = some (strip (attachAt d [] s)) := by
      rw [getNode_update_rectangles_strip, h1, h2, Option.map_some']
    cases hx : getNode ((detachAt (attachAt t pd s) ps
        s.data_size).update_rectangles r0) (adjustAfterRemove ps pd) with
    | none => rw [hx] at h3; cases h3
    | some d' =>
      rw [hx, Option.map_some'] at h3
      have hstrip : strip d' = strip (attachAt d [] s) := by
        exact Option.some.inj h3
      refine ⟨d', rfl, ?_, ?_⟩
      · have he := congrArg TMTree.expanded hstrip
        rw [expanded_strip, expanded_strip] at he
        rw [he]
        cases d with
        | mk n2 s2 c2 e2 r2 k2 ts2 => rw [attachAt_mk_nil]; rfl
      · have hsub := congrArg TMTree.subtrees hstrip
        rw [subtrees_strip, subtrees_strip] at hsub
        rw [hsub]
        cases d with
        | mk n2 s2 c2 e2 r2 k2 ts2 => rw [attachAt_mk_nil]; rfl

/-- Witness for C9: in a laid-out tree with a generic leaf `n` and a file
leaf `d` under a generic root, `n.move(d)` succeeds and `n` becomes `d`'s
only child. -/
theorem C9_generic_move_into_file_witness :
    ∃ t', moveOp genericIntoFileTree [0] [1] = OpOutcome.ok t' ∧
      ∃ d', getNode t' (adjustAfterRemove [0] [1]) = some d' ∧
        d'.expanded = true ∧
        stripL d'.subtrees =
          stripL ((TMTree.mk "d" 5 (0, 0, 0) false (some ⟨0, 100, 100, 100⟩)
              Kind.file []).subtrees ++
            [TMTree.mk "n" 5 (0, 0, 0) false (some ⟨0, 0, 100, 100⟩)
              Kind.generic []]) :=
  C9_generic_move_into_file genericIntoFileTree [0] [1] _ _ ⟨0, 0, 100, 200⟩
    rfl rfl rfl rfl rfl (by decide) (by decide) rfl rfl rfl

/-!
Claim C2 — layout tiling.

A point-counting formulation: rectangles are read as half-open integer
boxes `[x, x+w) × [y, y+h)`.  "No gap and no overlap" is then exactly: for
every integer point, the number of displayed-leaf rectangles containing it
is 1 inside `R` and 0 outside.
-/

/-- Membership of an integer point in the half-open box of a rectangle. -/
def containsPt (r : Rect) (pt : Int × Int) : Bool :=
  decide (r.x ≤ pt.1) && decide (pt.1 < r.x + r.w) &&
    decide (r.y ≤ pt.2) && decide (pt.2 < r.y + r.h)

/-- Number of entries of a `get_rectangles` report whose rectangle contains
the point. -/
def countRect (l : List (Option Rect × (Nat × Nat × Nat)))
    (pt : Int × Int) : Nat :=
  l.countP (fun pr =>
    match pr.1 with
    | some rr => containsPt rr pt
    | none => false)

theorem countRect_nil (pt : Int × Int) : countRect [] pt = 0 := rfl

theorem countRect_append (l1 l2 : List (Option Rect × (Nat × Nat × Nat)))
    (pt : Int × Int) :
    countRect (l1 ++ l2) pt = countRect l1 pt + countRect l2 pt := by
  simp [countRect, List.countP_append]

theorem countRect_single (r : Rect) (c : Nat × Nat × Nat) (pt : Int × Int) :
    countRect [(some r, c)] pt = if containsPt r pt then 1 else 0 := by
  simp only [countRect, List.countP_cons, List.countP_nil]
  rw [Nat.zero_add]

/-- Splitting a horizontal interval: two adjacent boxes of equal height
count like their union. -/
theorem indicator_split_w (a b cr y h : Int) (pt : Int × Int) (hab : a ≤ b)
    (hbc : b ≤ cr) :
    ((if containsPt ⟨a, y, b - a, h⟩ pt then 1 else 0) : Nat) +
      (if containsPt ⟨b, y, cr - b, h⟩ pt then 1 else 0) =
      if containsPt ⟨a, y, cr - a, h⟩ pt then 1 else 0 := by
  simp only [containsPt, Bool.and_eq_true, decide_eq_true_eq]
  split_ifs <;> omega

/-- Splitting a vertical interval. -/
theorem indicator_split_h (x w a b cr : Int) (pt : Int × Int) (hab : a ≤ b)
    (hbc : b ≤ cr) :
    ((if containsPt ⟨x, a, w, b - a⟩ pt then 1 else 0) : Nat) +
      (if containsPt ⟨x, b, w, cr - b⟩ pt then 1 else 0) =
      if containsPt ⟨x, a, w, cr - a⟩ pt then 1 else 0 := by
  simp only [containsPt, Bool.and_eq_true, decide_eq_true_eq]
  split_ifs <;> omega

theorem data_size_pos_of_Inv (u : TMTree) (h : u.Inv = true) :
    0 < u.data_size := by
  cases u with
  | mk n s c e r k ts => exact ((Inv_mk_iff n s c e r k ts).mp h).1

theorem sumSizes_nonneg (ts : List TMTree)
    (h : ∀ u ∈ ts, 0 < u.data_size) : 0 ≤ sumSizes ts := by
  induction ts with
  | nil => simp
  | cons u us ih =>
    rw [sumSizes_cons]
    have h1 := h u (by simp)
    have h2 := ih (fun w hw => h w (by simp [hw]))
    omega

theorem sumSizes_pos (ts : List TMTree) (hne : ts ≠ [])
    (h : ∀ u ∈ ts, 0 < u.data_size) : 0 < sumSizes ts := by
  cases ts with
  | nil => exact absurd rfl hne
  | cons u us =>
    rw [sumSizes_cons]
    have h1 := h u (by simp)
    have h2 := sumSizes_nonneg us (fun w hw => h w (by simp [hw]))
    omega

theorem fdiv_mul_le_self (a b : Int) (hb : 0 < b) : (Int.fdiv a b) * b ≤ a := by
  rw [Int.fdiv_eq_ediv]
  · exact Int.ediv_mul_le a (by omega)
  · omega

theorem getRectanglesL_nil : getRectanglesL [] = [] := rfl

theorem getRectanglesL_cons (t : TMTree) (ts : List TMTree) :
    getRectanglesL (t :: ts) = t.get_rectangles ++ getRectanglesL ts := rfl

theorem get_rectangles_unexpanded (n s c r k ts) :
    (TMTree.mk n s c false r k ts).get_rectangles = [(r, c)] := rfl

theorem get_rectangles_expanded (n s c r k ts) :
    (TMTree.mk n s c true r k ts).get_rectangles = getRectanglesL ts := rfl

theorem update_rectangles_nil_eq (n s c e r k) (R : Rect) :
    (TMTree.mk n s c e r k []).update_rectangles R =
      TMTree.mk n s c e (some R) k [] := rfl

theorem update_rectangles_one_eq (n s c e r k) (u : TMTree) (R : Rect) :
    (TMTree.mk n s c e r k [u]).update_rectangles R =
      TMTree.mk n s c e (some R) k [u.update_rectangles R] := rfl

theorem update_rectangles_many_eq (n s c e r k) (u v : TMTree)
    (ws : List TMTree) (R : Rect) :
    (TMTree.mk n s c e r k (u :: v :: ws)).update_rectangles R =
      (if R.h < R.w then
        TMTree.mk n s c e (some R) k
          (sliceWidths (u :: v :: ws) R.x R.y R (sumSizes (u :: v :: ws)))
      else
        TMTree.mk n s c e (some R) k
          (sliceHeights (u :: v :: ws) R.x R.y R
            (sumSizes (u :: v :: ws)))) := rfl

theorem sliceWidths_single (t : TMTree) (xCur y : Int) (R : Rect)
    (total : Int) :
    sliceWidths [t] xCur y R total =
      [t.update_rectangles ⟨xCur, y, R.x + R.w - xCur, R.h⟩] := rfl

theorem sliceWidths_cons2 (t0 t1 : TMTree) (rest : List TMTree)
    (xCur y : Int) (R : Rect) (total : Int) :
    sliceWidths (t0 :: t1 :: rest) xCur y R total =
      t0.update_rectangles
          ⟨xCur, y, Int.fdiv (t0.data_size * R.w) total, R.h⟩ ::
        sliceWidths (t1 :: rest)
          (xCur + Int.fdiv (t0.data_size * R.w) total) y R total := rfl

theorem sliceHeights_single (t : TMTree) (x yCur : Int) (R : Rect)
    (total : Int) :
    sliceHeights [t] x yCur R total =
      [t.update_rectangles ⟨x, yCur, R.w, R.y + R.h - yCur⟩] := rfl

theorem sliceHeights_cons2 (t0 t1 : TMTree) (rest : List TMTree)
    (x yCur : Int) (R : Rect) (total : Int) :
    sliceHeights (t0 :: t1 :: rest) x yCur R total =
      t0.update_rectangles
          ⟨x, yCur, R.w, Int.fdiv (t0.data_size * R.h) total⟩ ::
        sliceHeights (t1 :: rest) x
          (yCur + Int.fdiv (t0.data_size * R.h) total) R total := rfl

/-- Generalised union step for adjacent horizontal slices. -/
theorem indicator_union_w (a1 w1 a2 w2 a3 w3 y h : Int) (pt : Int × Int)
    (h1 : 0 ≤ w1) (h2 : 0 ≤ w2) (ha2 : a2 = a1 + w1) (ha3 : a3 = a1)
    (hw3 : w3 = w1 + w2) :
    ((if containsPt ⟨a1, y, w1, h⟩ pt then 1 else 0) : Nat) +
      (if containsPt ⟨a2, y, w2, h⟩ pt then 1 else 0) =
      if containsPt ⟨a3, y, w3, h⟩ pt then 1 else 0 := by
  subst ha2 ha3 hw3
  simp only [containsPt, Bool.and_eq_true, decide_eq_true_eq]
  split_ifs <;> omega

/-- Generalised union step for adjacent vertical slices. -/
theorem indicator_union_h (x w a1 h1 a2 h2 a3 h3 : Int) (pt : Int × Int)
    (hh1 : 0 ≤ h1) (hh2 : 0 ≤ h2) (ha2 : a2 = a1 + h1) (ha3 : a3 = a1)
    (hh3 : h3 = h1 + h2) :
    ((if containsPt ⟨x, a1, w, h1⟩ pt then 1 else 0) : Nat) +
      (if containsPt ⟨x, a2, w, h2⟩ pt then 1 else 0) =
      if containsPt ⟨x, a3, w, h3⟩ pt then 1 else 0 := by
  subst ha2 ha3 hh3
  simp only [containsPt, Bool.and_eq_true, decide_eq_true_eq]
  split_ifs <;> omega

/-- The width-slicing loop tiles the strip from the cursor to the right
edge, provided the remaining sizes fit the remaining extent. -/
theorem sliceWidths_count (R : Rect) (total : Int) (htot : 0 < total)
    (hh : 0 ≤ R.h) (hw : 0 ≤ R.w) :
    ∀ (ts : List TMTree) (xCur : Int), ts ≠ [] →
    (∀ u ∈ ts, u.Inv = true) →
    (∀ u ∈ ts, ∀ R' : Rect, 0 ≤ R'.w → 0 ≤ R'.h → ∀ pt : Int × Int,
      countRect ((u.update_rectangles R').get_rectangles) pt =
        if containsPt R' pt then 1 else 0) →
    sumSizes ts * R.w ≤ (R.x + R.w - xCur) * total →
    ∀ pt : Int × Int,
      countRect (getRectanglesL (sliceWidths ts xCur R.y R total)) pt =
        if containsPt ⟨xCur, R.y, R.x + R.w - xCur, R.h⟩ pt then 1 else 0 := by
  intro ts
  induction ts with
  | nil => intro xCur hne; exact absurd rfl hne
  | cons t0 rest ih =>
    intro xCur hne hInvs hih hfit pt
    have hpos0 : 0 < t0.data_size :=
      data_size_pos_of_Inv t0 (hInvs t0 (by simp))
    cases rest with
    | nil =>
      rw [sliceWidths_single, getRectanglesL_cons, getRectanglesL_nil,
        countRect_append, countRect_nil]
      have hrem : 0 ≤ R.x + R.w - xCur := by
        rw [sumSizes_cons, sumSizes_nil] at hfit
        nlinarith
      rw [hih t0 (by simp) ⟨xCur, R.y, R.x + R.w - xCur, R.h⟩ hrem hh pt]
      omega
    | cons t1 rest2 =>
      rw [sliceWidths_cons2, getRectanglesL_cons, countRect_append]
      have hw0 : 0 ≤ Int.fdiv (t0.data_size * R.w) total :=
        Int.fdiv_nonneg (by positivity) (le_of_lt htot)
      have hmul := fdiv_mul_le_self (t0.data_size * R.w) total htot
      have hsum' : 0 ≤ sumSizes (t1 :: rest2) :=
        sumSizes_nonneg (t1 :: rest2) (fun u hu =>
          data_size_pos_of_Inv u (hInvs u (by simp [hu])))
      have hfit' : sumSizes (t1 :: rest2) * R.w ≤
          (R.x + R.w - (xCur + Int.fdiv (t0.data_size * R.w) total)) *
            total := by
        rw [sumSizes_cons] at hfit
        nlinarith
      have hrem' : 0 ≤ R.x + R.w -
          (xCur + Int.fdiv (t0.data_size * R.w) total) := by
        nlinarith
      rw [ih (xCur + Int.fdiv (t0.data_size * R.w) total) (by simp)
        (fun u hu => hInvs u (by simp [hu]))
        (fun u hu => hih u (by simp [hu])) hfit' pt]
      rw [hih t0 (by simp)
        ⟨xCur, R.y, Int.fdiv (t0.data_size * R.w) total, R.h⟩ hw0 hh pt]
      exact indicator_union_w xCur (Int.fdiv (t0.data_size * R.w) total)
        (xCur + Int.fdiv (t0.data_size * R.w) total)
        (R.x + R.w - (xCur + Int.fdiv (t0.data_size * R.w) total))
        xCur (R.x + R.w - xCur) R.y R.h pt hw0 hrem' rfl rfl (by ring)

/-- The height-slicing loop tiles the strip from the cursor to the bottom
edge. -/
theorem sliceHeights_count (R : Rect) (total : Int) (htot : 0 < total)
    (hh : 0 ≤ R.h) (hw : 0 ≤ R.w) :
    ∀ (ts : List TMTree) (yCur : Int), ts ≠ [] →
    (∀ u ∈ ts, u.Inv = true) →
    (∀ u ∈ ts, ∀ R' : Rect, 0 ≤ R'.w → 0 ≤ R'.h → ∀ pt : Int × Int,
      countRect ((u.update_rectangles R').get_rectangles) pt =
        if containsPt R' pt then 1 else 0) →
    sumSizes ts * R.h ≤ (R.y + R.h - yCur) * total →
    ∀ pt : Int × Int,
      countRect (getRectanglesL (sliceHeights ts R.x yCur R total)) pt =
        if containsPt ⟨R.x, yCur, R.w, R.y + R.h - yCur⟩ pt then 1 else 0 := by
  intro ts
  induction ts with
  | nil => intro yCur hne; exact absurd rfl hne
  | cons t0 rest ih =>
    intro yCur hne hInvs hih hfit pt
    have hpos0 : 0 < t0.data_size :=
      data_size_pos_of_Inv t0 (hInvs t0 (by simp))
    cases rest with
    | nil =>
      rw [sliceHeights_single, getRectanglesL_cons, getRectanglesL_nil,
        countRect_append, countRect_nil]
      have hrem : 0 ≤ R.y + R.h - yCur := by
        rw [sumSizes_cons, sumSizes_nil] at hfit
        nlinarith
      rw [hih t0 (by simp) ⟨R.x, yCur, R.w, R.y + R.h - yCur⟩ hw hrem pt]
      omega
    | cons t1 rest2 =>
      rw [sliceHeights_cons2, getRectanglesL_cons, countRect_append]
      have hw0 : 0 ≤ Int.fdiv (t0.data_size * R.h) total :=
        Int.fdiv_nonneg (by positivity) (le_of_lt htot)
      have hmul := fdiv_mul_le_self (t0.data_size * R.h) total htot
      have hsum' : 0 ≤ sumSizes (t1 :: rest2) :=
        sumSizes_nonneg (t1 :: rest2) (fun u hu =>
          data_size_pos_of_Inv u (hInvs u (by simp [hu])))
      have hfit' : sumSizes (t1 :: rest2) * R.h ≤
          (R.y + R.h - (yCur + Int.fdiv (t0.data_size * R.h) total)) *
            total := by
        rw [sumSizes_cons] at hfit
        nlinarith
      have hrem' : 0 ≤ R.y + R.h -
          (yCur + Int.fdiv (t0.data_size * R.h) total) := by
        nlinarith
      rw [ih (yCur + Int.fdiv (t0.data_size * R.h) total) (by simp)
        (fun u hu => hInvs u (by simp [hu]))
        (fun u hu => hih u (by simp [hu])) hfit' pt]
      rw [hih t0 (by simp)
        ⟨R.x, yCur, R.w, Int.fdiv (t0.data_size * R.h) total⟩ hw hw0 pt]
      exact indicator_union_h R.x R.w yCur
        (Int.fdiv (t0.data_size * R.h) total)
        (yCur + Int.fdiv (t0.data_size * R.h) total)
        (R.y + R.h - (yCur + Int.fdiv (t0.data_size * R.h) total))
        yCur (R.y + R.h - yCur) pt hw0 hrem' rfl rfl (by ring)

/-- Core of the tiling claim: under the invariants and a rectangle with
non-negative extent, the displayed-leaf rectangles after layout count every
point of `R` exactly once and no point outside. -/
theorem tiling_core (t : TMTree) (hInv : t.Inv = true) :
    ∀ R : Rect, 0 ≤ R.w → 0 ≤ R.h → ∀ pt : Int × Int,
      countRect ((t.update_rectangles R).get_rectangles) pt =
        if containsPt R pt then 1 else 0 := by
  induction t using TMTree.inductionOn with
  | _ n s c e r k ts ih =>
    intro R hw hh pt
    have hfacts := (Inv_mk_iff n s c e r k ts).mp hInv
    have hmemInv : ∀ u ∈ ts, u.Inv = true :=
      fun u hu => (InvL_iff ts).mp hfacts.2.2.2.2.2.2.2 u hu
    have hmemIH : ∀ u ∈ ts, ∀ R' : Rect, 0 ≤ R'.w → 0 ≤ R'.h →
        ∀ pt : Int × Int,
        countRect ((u.update_rectangles R').get_rectangles) pt =
          if containsPt R' pt then 1 else 0 :=
      fun u hu => ih u hu (hmemInv u hu)
    cases ts with
    | nil =>
      have he : e = false := hfacts.2.2.2.2.2.1 rfl
      subst he
      rw [update_rectangles_nil_eq, get_rectangles_unexpanded,
        countRect_single]
    | cons u rest =>
      cases rest with
      | nil =>
        rw [update_rectangles_one_eq]
        cases e with
        | false => rw [get_rectangles_unexpanded, countRect_single]
        | true =>
          rw [get_rectangles_expanded, getRectanglesL_cons,
            getRectanglesL_nil, countRect_append, countRect_nil]
          rw [hmemIH u (by simp) R hw hh pt]
          omega
      | cons v ws =>
        rw [update_rectangles_many_eq]
        have htot : 0 < sumSizes (u :: v :: ws) :=
          sumSizes_pos _ (by simp) (fun w hw2 =>
            data_size_pos_of_Inv w (hmemInv w hw2))
        by_cases hcmp : R.h < R.w
        · rw [if_pos hcmp]
          cases e with
          | false => rw [get_rectangles_unexpanded, countRect_single]
          | true =>
            rw [get_rectangles_expanded]
            have hfit : sumSizes (u :: v :: ws) * R.w ≤
                (R.x + R.w - R.x) * sumSizes (u :: v :: ws) := by
              have : R.x + R.w - R.x = R.w := by ring
              rw [this]
              nlinarith
            rw [sliceWidths_count R (sumSizes (u :: v :: ws)) htot hh hw
              (u :: v :: ws) R.x (by simp) hmemInv hmemIH hfit pt]
            have hsame : (⟨R.x, R.y, R.x + R.w - R.x, R.h⟩ : Rect) = R := by
              have h9 : R.x + R.w - R.x = R.w := by ring
              rw [h9]
            rw [hsame]
        · rw [if_neg hcmp]
          cases e with
          | false => rw [get_rectangles_unexpanded, countRect_single]
          | true =>
            rw [get_rectangles_expanded]
            have hfit : sumSizes (u :: v :: ws) * R.h ≤
                (R.y + R.h - R.y) * sumSizes (u :: v :: ws) := by
              have : R.y + R.h - R.y = R.h := by ring
              rw [this]
              nlinarith
            rw [sliceHeights_count R (sumSizes (u :: v :: ws)) htot hh hw
              (u :: v :: ws) R.y (by simp) hmemInv hmemIH hfit pt]
            have hsame : (⟨R.x, R.y, R.w, R.y + R.h - R.y⟩ : Rect) = R := by
              have h9 : R.y + R.h - R.y = R.h := by ring
              rw [h9]
            rw [hsame]

/-- C2: laying a tree satisfying the representation invariants out into a
rectangle `R` with non-negative components assigns `R` to the node itself,
and the rectangles reported for its displayed-leaf descendants tile `R`
exactly: every integer point inside `R` is covered by exactly one reported
rectangle (no gap, no overlap) and no point outside `R` is covered — for
every distribution of (positive) integer child sizes. -/
theorem C2_layout_tiling (t : TMTree) (R : Rect) (hInv : t.Inv = true)
    (hx : 0 ≤ R.x) (hy : 0 ≤ R.y) (hw : 0 ≤ R.w) (hh : 0 ≤ R.h) :
    (t.update_rectangles R).rect = some R ∧
      ∀ pt : Int × Int,
        countRect ((t.update_rectangles R).get_rectangles) pt =
          if containsPt R pt then 1 else 0 := by
  constructor
  · cases t with
    | mk n s c e r k ts =>
      cases ts with
      | nil => rfl
      | cons u rest =>
        cases rest with
        | nil => rfl
        | cons v ws =>
          rw [update_rectangles_many_eq]
          by_cases hcmp : R.h < R.w
          · rw [if_pos hcmp]; rfl
          · rw [if_neg hcmp]; rfl
  · exact tiling_core t hInv R hw hh

/-- The worksheet `example_tree` (sizes as in the source; colours fixed,
layout applied by the witness below rather than here). -/
def example_tree : TMTree :=
  TMTree.init "a"
    [TMTree.init "b"
      [TMTree.init "e"
        [TMTree.init "j" [] 10 (0, 0, 0) Kind.generic,
         TMTree.init "k" [] 5 (0, 0, 0) Kind.generic] 5 (0, 0, 0) Kind.generic,
       TMTree.init "f" [] 5 (0, 0, 0) Kind.generic] 5 (0, 0, 0) Kind.generic,
     TMTree.init "c"
      [TMTree.init "g" [] 4 (0, 0, 0) Kind.generic,
       TMTree.init "h" [] 4 (0, 0, 0) Kind.generic,
       TMTree.init "i" [] 2 (0, 0, 0) Kind.generic] 5 (0, 0, 0) Kind.generic,
     TMTree.init "d" [] 10 (0, 0, 0) Kind.generic] 5 (0, 0, 0) Kind.generic

/-- Witness for C2 on the worksheet example tree (three levels, skewed
sizes): spot checks follow from the theorem at concrete points. -/
theorem C2_layout_tiling_witness :
    (example_tree.update_rectangles ⟨0, 0, 55, 30⟩).rect =
        some ⟨0, 0, 55, 30⟩ ∧
      countRect ((example_tree.update_rectangles
        ⟨0, 0, 55, 30⟩).get_rectangles) (10, 10) = 1 ∧
      countRect ((example_tree.update_rectangles
        ⟨0, 0, 55, 30⟩).get_rectangles) (60, 10) = 0 := by
  obtain ⟨h1, h2⟩ := C2_layout_tiling example_tree ⟨0, 0, 55, 30⟩ rfl
    (by decide) (by decide) (by decide) (by decide)
  refine ⟨h1, ?_, ?_⟩
  · rw [h2 (10, 10)]
    decide
  · rw [h2 (60, 10)]
    decide

/-!
Claim C1 — invariant preservation.  Supporting lemmas about subtree lists.
-/

theorem InvL_append (ts us : List TMTree) :
    InvL (ts ++ us) = (InvL ts && InvL us) := by
  induction ts with
  | nil => simp [InvL]
  | cons t ts ih => simp [InvL, ih, Bool.and_assoc]

theorem allDeepUnexpandedL_sublist (ts us : List TMTree)
    (hsub : us.Sublist ts) (h : allDeepUnexpandedL ts = true) :
    allDeepUnexpandedL us = true := by
  rw [allDeepUnexpandedL_iff] at h ⊢
  exact fun u hu => h u (hsub.mem hu)

theorem InvL_sublist (ts us : List TMTree) (hsub : us.Sublist ts)
    (h : InvL ts = true) : InvL us = true := by
  rw [InvL_iff] at h ⊢
  exact fun u hu => h u (hsub.mem hu)

theorem sumSizes_modifyChildren (ts : List TMTree) (i : Nat)
    (g : TMTree → TMTree) (u : TMTree) (hu : ts[i]? = some u) :
    sumSizes (modifyChildren ts i g) =
      sumSizes ts + ((g u).data_size - u.data_size) := by
  induction ts generalizing i with
  | nil => simp at hu
  | cons v vs ih =>
    cases i with
    | zero =>
      simp only [List.getElem?_cons_zero] at hu
      cases hu
      show sumSizes (g u :: vs) = _
      rw [sumSizes_cons, sumSizes_cons]
      ring
    | succ j =>
      simp only [List.getElem?_cons_succ] at hu
      show sumSizes (v :: modifyChildren vs j g) = _
      rw [sumSizes_cons, sumSizes_cons, ih j hu]
      ring

theorem sumSizes_eraseIdx (ts : List TMTree) (i : Nat) (u : TMTree)
    (hu : ts[i]? = some u) :
    sumSizes (ts.eraseIdx i) = sumSizes ts - u.data_size := by
  induction ts generalizing i with
  | nil => simp at hu
  | cons v vs ih =>
    cases i with
    | zero =>
      simp only [List.getElem?_cons_zero] at hu
      cases hu
      show sumSizes vs = _
      rw [sumSizes_cons]
      ring
    | succ j =>
      simp only [List.getElem?_cons_succ] at hu
      show sumSizes (v :: vs.eraseIdx j) = _
      rw [sumSizes_cons, sumSizes_cons, ih j hu]
      ring

theorem InvL_modifyChildren (ts : List TMTree) (i : Nat)
    (g : TMTree → TMTree) (u : TMTree) (hu : ts[i]? = some u)
    (hts : InvL ts = true) (hg : (g u).Inv = true) :
    InvL (modifyChildren ts i g) = true := by
  induction ts generalizing i with
  | nil => simp at hu
  | cons v vs ih =>
    cases i with
    | zero =>
      simp only [List.getElem?_cons_zero] at hu
      cases hu
      show InvL (g u :: vs) = true
      simp only [InvL, Bool.and_eq_true] at hts ⊢
      exact ⟨hg, hts.2⟩
    | succ j =>
      simp only [List.getElem?_cons_succ] at hu
      show InvL (v :: modifyChildren vs j g) = true
      simp only [InvL, Bool.and_eq_true] at hts ⊢
      exact ⟨hts.1, ih j hu hts.2⟩

theorem allDeep_modifyChildren (ts : List TMTree) (i : Nat)
    (g : TMTree → TMTree) (u : TMTree) (hu : ts[i]? = some u)
    (hts : allDeepUnexpandedL ts = true) (hg : deepUnexpanded (g u) = true) :
    allDeepUnexpandedL (modifyChildren ts i g) = true := by
  induction ts generalizing i with
  | nil => simp at hu
  | cons v vs ih =>
    cases i with
    | zero =>
      simp only [List.getElem?_cons_zero] at hu
      cases hu
      show allDeepUnexpandedL (g u :: vs) = true
      simp only [allDeepUnexpandedL, Bool.and_eq_true] at hts ⊢
      exact ⟨hg, hts.2⟩
    | succ j =>
      simp only [List.getElem?_cons_succ] at hu
      show allDeepUnexpandedL (v :: modifyChildren vs j g) = true
      simp only [allDeepUnexpandedL, Bool.and_eq_true] at hts ⊢
      exact ⟨hts.1, ih j hu hts.2⟩

theorem modifyChildren_isEmpty (ts : List TMTree) (i : Nat)
    (g : TMTree → TMTree) : (modifyChildren ts i g).isEmpty = ts.isEmpty := by
  cases ts with
  | nil => simp
  | cons v vs => cases i <;> rfl

theorem member_le_sumSizes (ts : List TMTree) (u : TMTree) (hu : u ∈ ts)
    (hpos : ∀ v ∈ ts, 0 < v.data_size) : u.data_size ≤ sumSizes ts := by
  induction ts with
  | nil => simp at hu
  | cons v vs ih =>
    rw [sumSizes_cons]
    rcases List.mem_cons.mp hu with h | h
    · subst h
      have := sumSizes_nonneg vs (fun w hw => hpos w (by simp [hw]))
      omega
    · have h1 := ih h (fun w hw => hpos w (by simp [hw]))
      have h2 := hpos v (by simp)
      omega

/-- The size of a reachable node never exceeds the size of the root. -/
theorem getNode_data_size_le (t : TMTree) (p : List Nat) (w : TMTree)
    (hInv : t.Inv = true) (hw : getNode t p = some w) :
    w.data_size ≤ t.data_size := by
  induction p generalizing t with
  | nil => cases hw; exact le_refl _
  | cons i p0 ih =>
    rw [getNode_cons] at hw
    cases hx : t.subtrees[i]? with
    | none => rw [hx] at hw; cases hw
    | some u =>
      rw [hx, Option.some_bind] at hw
      have hmem := List.getElem?_mem hx
      have hInvU := Inv_mem_subtrees t hInv u hmem
      have h1 := ih u hInvU hw
      have h2 : u.data_size ≤ sumSizes t.subtrees :=
        member_le_sumSizes t.subtrees u hmem
          (fun v hv => data_size_pos_of_Inv v (Inv_mem_subtrees t hInv v hv))
      have h3 : sumSizes t.subtrees ≤ t.data_size := by
        cases t with
        | mk n s c e r k ts =>
          have hfacts := (Inv_mk_iff n s c e r k ts).mp hInv
          rcases hfacts.2.2.1 with h4 | h4
          · rw [TMTree.subtrees_mk] at hmem ⊢
            rw [h4] at hmem
            simp at hmem
          · exact h4
      omega

/-- `kindOk` transports along a subtree-list replacement that shifts the
subtree total by `δ` (and the node size accordingly) and preserves
emptiness. -/
theorem kindOk_shift (k : Kind) (s s' δ : Int) (ts us : List TMTree)
    (hs : s' = s + δ) (hsum : sumSizes us = sumSizes ts + δ)
    (hemp : us.isEmpty = ts.isEmpty) (h : kindOk k s ts = true) :
    kindOk k s' us = true := by
  cases k with
  | directory =>
    simp only [kindOk, decide_eq_true_eq] at h ⊢
    rw [hs, hsum, h]; ring
  | file => show us.isEmpty = true; rw [hemp]; exact h
  | generic => rfl
  | chessMove => rfl

/-!
Invariant preservation of the local visibility rewrites.
-/

@[simp] theorem data_size_expand (t : TMTree) :
    (t.expand).data_size = t.data_size := by
  cases t with
  | mk n s c e r k ts => cases ts <;> rfl

theorem Inv_expand (t : TMTree) (h : t.Inv = true) :
    (t.expand).Inv = true := by
  cases t with
  | mk n s c e r k ts =>
    cases ts with
    | nil => exact h
    | cons v vs =>
      show (TMTree.mk n s c true r k (v :: vs)).Inv = true
      rw [Inv_mk_iff] at h ⊢
      obtain ⟨h1, h2, h3, h4, _, _, h7, h8⟩ := h
      exact ⟨h1, h2, h3, h4, Or.inl rfl,
        fun hc => absurd hc (List.cons_ne_nil v vs), h7, h8⟩

@[simp] theorem data_size_expand_all (t : TMTree) :
    (t.expand_all).data_size = t.data_size := by
  cases t with
  | mk n s c e r k ts => cases ts <;> rfl

theorem sumSizes_expandAllL (ts : List TMTree) :
    sumSizes (expandAllL ts) = sumSizes ts := by
  induction ts with
  | nil => rfl
  | cons v vs ih =>
    show sumSizes (v.expand_all :: expandAllL vs) = _
    rw [sumSizes_cons, sumSizes_cons, data_size_expand_all, ih]

theorem expandAllL_isEmpty (ts : List TMTree) :
    (expandAllL ts).isEmpty = ts.isEmpty := by
  cases ts <;> rfl

theorem InvL_expandAllL (ts : List TMTree)
    (h : ∀ t ∈ ts, t.Inv = true → (t.expand_all).Inv = true)
    (hts : InvL ts = true) : InvL (expandAllL ts) = true := by
  induction ts with
  | nil => rfl
  | cons v vs ih =>
    show InvL (v.expand_all :: expandAllL vs) = true
    simp only [InvL, Bool.and_eq_true] at hts ⊢
    exact ⟨h v (by simp) hts.1, ih (fun t ht => h t (by simp [ht])) hts.2⟩

theorem Inv_expand_all (t : TMTree) (h : t.Inv = true) :
    (t.expand_all).Inv = true := by
  induction t using TMTree.inductionOn with
  | h n s c e r k ts ih =>
    cases ts with
    | nil => exact h
    | cons v vs =>
      show (TMTree.mk n s c true r k (expandAllL (v :: vs))).Inv = true
      rw [Inv_mk_iff] at h ⊢
      obtain ⟨h1, h2, h3, h4, _, _, h7, h8⟩ := h
      refine ⟨h1, h2, ?_, h4, Or.inl rfl, ?_, ?_, ?_⟩
      · rcases h3 with h3 | h3
        · exact absurd h3 (List.cons_ne_nil v vs)
        · rw [sumSizes_expandAllL]; exact Or.inr h3
      · intro hc
        have := congrArg List.isEmpty hc
        rw [expandAllL_isEmpty] at this
        simp at this
      · exact kindOk_shift k s s 0 (v :: vs) _ (by ring)
          (by rw [sumSizes_expandAllL]; ring) (expandAllL_isEmpty _) h7
      · exact InvL_expandAllL (v :: vs) ih h8

@[simp] theorem data_size_unexpanded (t : TMTree) :
    (t.unexpanded).data_size = t.data_size := by
  cases t with
  | mk n s c e r k ts => cases ts <;> rfl

theorem sumSizes_unexpandedL (ts : List TMTree) :
    sumSizes (unexpandedL ts) = sumSizes ts := by
  induction ts with
  | nil => rfl
  | cons v vs ih =>
    show sumSizes (v.unexpanded :: unexpandedL vs) = _
    rw [sumSizes_cons, sumSizes_cons, data_size_unexpanded, ih]

theorem unexpandedL_isEmpty (ts : List TMTree) :
    (unexpandedL ts).isEmpty = ts.isEmpty := by
  cases ts <;> rfl

theorem unexpandedL_facts (ts : List TMTree)
    (h : ∀ t ∈ ts, t.Inv = true →
      (t.unexpanded).Inv = true ∧ deepUnexpanded t.unexpanded = true)
    (hts : InvL ts = true) :
    InvL (unexpandedL ts) = true ∧
      allDeepUnexpandedL (unexpandedL ts) = true := by
  induction ts with
  | nil => exact ⟨rfl, rfl⟩
  | cons v vs ih =>
    simp only [InvL, Bool.and_eq_true] at hts
    obtain ⟨hInvV, hdeepV⟩ := h v (by simp) hts.1
    obtain ⟨ih1, ih2⟩ := ih (fun t ht => h t (by simp [ht])) hts.2
    constructor
    · show InvL (v.unexpanded :: unexpandedL vs) = true
      simp only [InvL, Bool.and_eq_true]
      exact ⟨hInvV, ih1⟩
    · show allDeepUnexpandedL (v.unexpanded :: unexpandedL vs) = true
      simp only [allDeepUnexpandedL, Bool.and_eq_true]
      exact ⟨hdeepV, ih2⟩

theorem Inv_unexpanded (t : TMTree) (h : t.Inv = true) :
    (t.unexpanded).Inv = true ∧ deepUnexpanded t.unexpanded = true := by
  induction t using TMTree.inductionOn with
  | h n s c e r k ts ih =>
    cases ts with
    | nil =>
      refine ⟨h, ?_⟩
      rw [Inv_mk_iff] at h
      show (!e && allDeepUnexpandedL []) = true
      rw [h.2.2.2.2.2.1 rfl]
      rfl
    | cons v vs =>
      rw [Inv_mk_iff] at h
      obtain ⟨h1, h2, h3, h4, _, _, h7, h8⟩ := h
      obtain ⟨hl1, hl2⟩ := unexpandedL_facts (v :: vs) ih h8
      constructor
      · show (TMTree.mk n s c false r k (unexpandedL (v :: vs))).Inv = true
        rw [Inv_mk_iff]
        refine ⟨h1, h2, ?_, h4, Or.inr hl2, fun _ => rfl, ?_, hl1⟩
        · rcases h3 with h3 | h3
          · exact absurd h3 (List.cons_ne_nil v vs)
          · rw [sumSizes_unexpandedL]; exact Or.inr h3
        · exact kindOk_shift k s s 0 (v :: vs) _ (by ring)
            (by rw [sumSizes_unexpandedL]; ring) (unexpandedL_isEmpty _) h7
      · show (!false && allDeepUnexpandedL (unexpandedL (v :: vs))) = true
        rw [hl2]
        rfl

@[simp] theorem data_size_collapseParentNode (t : TMTree) :
    (collapseParentNode t).data_size = t.data_size := by
  cases t; rfl

theorem Inv_collapseParentNode (t : TMTree) (h : t.Inv = true) :
    (collapseParentNode t).Inv = true := by
  cases t with
  | mk n s c e r k ts =>
    show (TMTree.mk n s c false r k (unexpandedL ts)).Inv = true
    rw [Inv_mk_iff] at h ⊢
    obtain ⟨h1, h2, h3, h4, _, _, h7, h8⟩ := h
    obtain ⟨hl1, hl2⟩ := unexpandedL_facts ts
      (fun u hu hInvU => Inv_unexpanded u hInvU)
      h8
    refine ⟨h1, h2, ?_, h4, Or.inr hl2, fun _ => rfl, ?_, hl1⟩
    · rcases h3 with h3 | h3
      · rw [h3]; exact Or.inl rfl
      · rw [sumSizes_unexpandedL]; exact Or.inr h3
    · exact kindOk_shift k s s 0 ts _ (by ring)
        (by rw [sumSizes_unexpandedL]; ring) (unexpandedL_isEmpty _) h7

/-- Membership in `unexpandedL` comes from a member of the original list. -/
theorem mem_unexpandedL (ts : List TMTree) (u : TMTree)
    (hu : u ∈ unexpandedL ts) : ∃ w ∈ ts, w.unexpanded = u := by
  induction ts with
  | nil => simp [unexpandedL] at hu
  | cons a as ihl =>
    simp only [unexpandedL] at hu
    rcases List.mem_cons.mp hu with h1 | h1
    · exact ⟨a, by simp, h1.symm⟩
    · obtain ⟨w, hw1, hw2⟩ := ihl h1
      exact ⟨w, by simp [hw1], hw2⟩

/-- `_unexpanded` keeps a deeply-unexpanded subtree deeply unexpanded. -/
theorem deepUnexpanded_unexpanded_of (t : TMTree)
    (h : deepUnexpanded t = true) : deepUnexpanded t.unexpanded = true := by
  induction t using TMTree.inductionOn with
  | h n s c e r k ts ih =>
    rw [deepUnexpanded_def] at h
    simp only [TMTree.expanded_mk, TMTree.subtrees_mk, Bool.and_eq_true,
      Bool.not_eq_true'] at h
    replace h : e = false ∧ ∀ u ∈ ts, deepUnexpanded u = true :=
      ⟨h.1, (allDeepUnexpandedL_iff ts).mp h.2⟩
    cases ts with
    | nil =>
      show deepUnexpanded (TMTree.mk n s c e r k []) = true
      rw [deepUnexpanded_def]
      simp only [TMTree.expanded_mk, TMTree.subtrees_mk, h.1]
      rfl
    | cons v vs =>
      show deepUnexpanded (TMTree.mk n s c false r k (unexpandedL (v :: vs))) = true
      rw [deepUnexpanded_def]
      simp only [TMTree.expanded_mk, TMTree.subtrees_mk, Bool.not_false,
        Bool.true_and]
      rw [allDeepUnexpandedL_iff]
      intro u hu
      obtain ⟨w, hw1, hw2⟩ := mem_unexpandedL (v :: vs) u hu
      rw [← hw2]
      exact ih w hw1 (h.2 w hw1)

/-- `collapseParentNode` keeps a deeply-unexpanded subtree deeply
unexpanded. -/
theorem deepUnexpanded_collapseParentNode (t : TMTree)
    (h : deepUnexpanded t = true) :
    deepUnexpanded (collapseParentNode t) = true := by
  cases t with
  | mk n s c e r k ts =>
    rw [deepUnexpanded_def] at h
    simp only [TMTree.expanded_mk, TMTree.subtrees_mk, Bool.and_eq_true,
      Bool.not_eq_true'] at h
    replace h : e = false ∧ ∀ u ∈ ts, deepUnexpanded u = true :=
      ⟨h.1, (allDeepUnexpandedL_iff ts).mp h.2⟩
    show deepUnexpanded (TMTree.mk n s c false r k (unexpandedL ts)) = true
    rw [deepUnexpanded_def]
    simp only [TMTree.expanded_mk, TMTree.subtrees_mk, Bool.not_false,
      Bool.true_and]
    rw [allDeepUnexpandedL_iff]
    intro u hu
    obtain ⟨w, hw1, hw2⟩ := mem_unexpandedL ts u hu
    rw [← hw2]
    exact deepUnexpanded_unexpanded_of w (h.2 w hw1)

/-!
Invariant preservation through `modifyAt`.
-/

theorem modifyChildren_of_none (ts : List TMTree) (i : Nat)
    (g : TMTree → TMTree) (h : ts[i]? = none) :
    modifyChildren ts i g = ts := by
  induction ts generalizing i with
  | nil => rfl
  | cons v vs ih =>
    cases i with
    | zero => simp at h
    | succ j =>
      simp only [List.getElem?_cons_succ] at h
      show v :: modifyChildren vs j g = v :: vs
      rw [ih j h]

theorem data_size_modifyAt_of (t : TMTree) (p : List Nat)
    (f : TMTree → TMTree) (hds : ∀ u, (f u).data_size = u.data_size) :
    (modifyAt t p f).data_size = t.data_size := by
  cases p with
  | nil => rw [modifyAt_nil]; exact hds t
  | cons i p' =>
    cases t with
    | mk n s c e r k ts => rw [modifyAt_cons]; rfl

theorem ancestorsExpanded_cons (t : TMTree) (i : Nat) (p : List Nat) :
    ancestorsExpanded t (i :: p) =
      (t.expanded && match t.subtrees[i]? with
        | some u => ancestorsExpanded u p
        | none => true) := rfl

/-- A pointwise `Inv`- and size-preserving rewrite applied at the end of a
path whose proper ancestors are all expanded preserves the global
invariant (the case of `expand` and `expand_all`, which may turn the
`_expanded` flag on). -/
theorem Inv_modifyAt_of_anc (p : List Nat) (f : TMTree → TMTree)
    (hf : ∀ u, u.Inv = true → (f u).Inv = true)
    (hds : ∀ u, (f u).data_size = u.data_size) :
    ∀ t, t.Inv = true → ancestorsExpanded t p = true →
      (modifyAt t p f).Inv = true := by
  induction p with
  | nil =>
    intro t ht _
    rw [modifyAt_nil]
    exact hf t ht
  | cons i p' ih =>
    intro t ht hanc
    cases t with
    | mk n s c e r k ts =>
      rw [ancestorsExpanded_cons] at hanc
      simp only [TMTree.expanded_mk, TMTree.subtrees_mk,
        Bool.and_eq_true] at hanc
      obtain ⟨he, hanc2⟩ := hanc
      rw [modifyAt_cons]
      simp only [TMTree.name_mk, TMTree.data_size_mk, TMTree.colour_mk,
        TMTree.expanded_mk, TMTree.rect_mk, TMTree.kind_mk,
        TMTree.subtrees_mk]
      rw [Inv_mk_iff] at ht ⊢
      obtain ⟨h1, h2, h3, h4, _, h6, h7, h8⟩ := ht
      cases hx : ts[i]? with
      | none =>
        rw [hx] at hanc2
        rw [modifyChildren_of_none ts i (fun v => modifyAt v p' f) hx]
        exact ⟨h1, h2, h3, h4, Or.inl he, h6, h7, h8⟩
      | some u =>
        rw [hx] at hanc2
        have hmem := List.getElem?_mem hx
        have hInvU := (InvL_iff ts).mp h8 u hmem
        have hgds : ∀ v : TMTree,
            (modifyAt v p' f).data_size = v.data_size :=
          fun v => data_size_modifyAt_of v p' f hds
        have hsum :
            sumSizes (modifyChildren ts i (fun v => modifyAt v p' f)) =
              sumSizes ts := by
          rw [sumSizes_modifyChildren ts i _ u hx, hgds]; ring
        have hne : ts ≠ [] := by
          intro hc; rw [hc] at hx; simp at hx
        refine ⟨h1, h2, ?_, h4, Or.inl he, ?_, ?_, ?_⟩
        · rcases h3 with h3 | h3
          · exact absurd h3 hne
          · rw [hsum]; exact Or.inr h3
        · intro hc
          have h9 := congrArg List.isEmpty hc
          rw [modifyChildren_isEmpty] at h9
          exact absurd (by simpa using h9) hne
        · exact kindOk_shift k s s 0 ts _ (by ring) (by rw [hsum]; ring)
            (modifyChildren_isEmpty ts i _) h7
        · exact InvL_modifyChildren ts i _ u hx h8 (ih u hInvU hanc2)

/-- A pointwise rewrite that also keeps deeply-unexpanded subtrees deeply
unexpanded keeps them so when applied along any path. -/
theorem deepUnexpanded_modifyAt_of (p : List Nat) (f : TMTree → TMTree)
    (hdeep : ∀ u, deepUnexpanded u = true → deepUnexpanded (f u) = true) :
    ∀ t, deepUnexpanded t = true →
      deepUnexpanded (modifyAt t p f) = true := by
  induction p with
  | nil =>
    intro t ht
    rw [modifyAt_nil]
    exact hdeep t ht
  | cons i p' ih =>
    intro t ht
    cases t with
    | mk n s c e r k ts =>
      rw [modifyAt_cons]
      rw [deepUnexpanded_def] at ht ⊢
      simp only [TMTree.expanded_mk, TMTree.subtrees_mk, Bool.and_eq_true,
        Bool.not_eq_true'] at ht ⊢
      refine ⟨ht.1, ?_⟩
      cases hx : ts[i]? with
      | none =>
        rw [modifyChildren_of_none ts i (fun v => modifyAt v p' f) hx]
        exact ht.2
      | some u =>
        exact allDeep_modifyChildren ts i _ u hx ht.2
          (ih u ((allDeepUnexpandedL_iff ts).mp ht.2 u (List.getElem?_mem hx)))

/-- A pointwise `Inv`-, size- and deep-unexpandedness-preserving rewrite
preserves the global invariant when applied at the end of any path (the
case of `collapse`, which only turns `_expanded` flags off). -/
theorem Inv_modifyAt_of_deepSafe (p : List Nat) (f : TMTree → TMTree)
    (hf : ∀ u, u.Inv = true → (f u).Inv = true)
    (hds : ∀ u, (f u).data_size = u.data_size)
    (hdeep : ∀ u, deepUnexpanded u = true → deepUnexpanded (f u) = true) :
    ∀ t, t.Inv = true → (modifyAt t p f).Inv = true := by
  induction p with
  | nil =>
    intro t ht
    rw [modifyAt_nil]
    exact hf t ht
  | cons i p' ih =>
    intro t ht
    cases t with
    | mk n s c e r k ts =>
      rw [modifyAt_cons]
      simp only [TMTree.name_mk, TMTree.data_size_mk, TMTree.colour_mk,
        TMTree.expanded_mk, TMTree.rect_mk, TMTree.kind_mk,
        TMTree.subtrees_mk]
      rw [Inv_mk_iff] at ht ⊢
      obtain ⟨h1, h2, h3, h4, h5, h6, h7, h8⟩ := ht
      cases hx : ts[i]? with
      | none =>
        rw [modifyChildren_of_none ts i (fun v => modifyAt v p' f) hx]
        exact ⟨h1, h2, h3, h4, h5, h6, h7, h8⟩
      | some u =>
        have hmem := List.getElem?_mem hx
        have hInvU := (InvL_iff ts).mp h8 u hmem
        have hgds : ∀ v : TMTree,
            (modifyAt v p' f).data_size = v.data_size :=
          fun v => data_size_modifyAt_of v p' f hds
        have hsum :
            sumSizes (modifyChildren ts i (fun v => modifyAt v p' f)) =
              sumSizes ts := by
          rw [sumSizes_modifyChildren ts i _ u hx, hgds]; ring
        have hne : ts ≠ [] := by
          intro hc; rw [hc] at hx; simp at hx
        refine ⟨h1, h2, ?_, h4, ?_, ?_, ?_, ?_⟩
        · rcases h3 with h3 | h3
          · exact absurd h3 hne
          · rw [hsum]; exact Or.inr h3
        · rcases h5 with h5 | h5
          · exact Or.inl h5
          · exact Or.inr (allDeep_modifyChildren ts i _ u hx h5
              (deepUnexpanded_modifyAt_of p' f hdeep u
                ((allDeepUnexpandedL_iff ts).mp h5 u hmem)))
        · intro hc
          have h9 := congrArg List.isEmpty hc
          rw [modifyChildren_isEmpty] at h9
          exact absurd (by simpa using h9) hne
        · exact kindOk_shift k s s 0 ts _ (by ring) (by rw [hsum]; ring)
            (modifyChildren_isEmpty ts i _) h7
        · exact InvL_modifyChildren ts i _ u hx h8 (ih u hInvU)

/-!
The four visibility operations preserve the invariant.
-/

theorem Inv_expandAt (t : TMTree) (p : List Nat) (hInv : t.Inv = true)
    (hanc : ancestorsExpanded t p = true) : (expandAt t p).Inv = true :=
  Inv_modifyAt_of_anc p TMTree.expand Inv_expand
    (fun u => data_size_expand u) t hInv hanc

theorem Inv_expandAllAt (t : TMTree) (p : List Nat) (hInv : t.Inv = true)
    (hanc : ancestorsExpanded t p = true) : (expandAllAt t p).Inv = true :=
  Inv_modifyAt_of_anc p TMTree.expand_all Inv_expand_all
    (fun u => data_size_expand_all u) t hInv hanc

theorem Inv_collapse (t : TMTree) (p : List Nat) (hInv : t.Inv = true) :
    (t.collapse p).Inv = true := by
  rw [TMTree.collapse]
  split
  · exact hInv
  · exact Inv_modifyAt_of_deepSafe p.dropLast collapseParentNode
      Inv_collapseParentNode (fun u => data_size_collapseParentNode u)
      deepUnexpanded_collapseParentNode t hInv

theorem Inv_collapseAllGo (rev : List Nat) :
    ∀ t, t.Inv = true → (collapseAllGo t rev).Inv = true := by
  induction rev with
  | nil => intro t h; exact h
  | cons i rev' ih =>
    intro t h
    show (collapseAllGo (t.collapse ((i :: rev').reverse)) rev').Inv = true
    exact ih _ (Inv_collapse t _ h)

theorem Inv_collapse_all (t : TMTree) (p : List Nat) (hInv : t.Inv = true) :
    (t.collapse_all p).Inv = true :=
  Inv_collapseAllGo p.reverse t hInv

/-!
The constructors establish the invariant under their stated
preconditions.
-/

/-- `TMTree.__init__` under its stated preconditions (non-empty name,
`data_size >= 0`, positive when there are no subtrees, subtrees
well-formed, random colour in range) establishes the invariant; the
`kindOk` side condition is supplied per subclass. -/
theorem Inv_init (nm : String) (ts : List TMTree) (d : Int)
    (c : Nat × Nat × Nat) (k : Kind) (hn : nm ≠ "") (hd : 0 ≤ d)
    (hd2 : ts = [] → 0 < d) (hts : InvL ts = true) (hc : colourOk c = true)
    (hk : kindOk k (d + sumSizes ts) ts = true) :
    (TMTree.init nm ts d c k).Inv = true := by
  show (TMTree.mk nm (d + sumSizes ts) c (!ts.isEmpty) none k ts).Inv = true
  rw [Inv_mk_iff]
  have hpos : 0 < d + sumSizes ts := by
    rcases eq_or_ne ts [] with h | h
    · rw [h]
      simpa using hd2 h
    · have := sumSizes_pos ts h
        (fun v hv => data_size_pos_of_Inv v ((InvL_iff ts).mp hts v hv))
      omega
  refine ⟨hpos, hn, Or.inr (by
    have := sumSizes_nonneg ts
      (fun v hv => data_size_pos_of_Inv v ((InvL_iff ts).mp hts v hv))
    omega), hc, ?_, ?_, hk, hts⟩
  · rcases eq_or_ne ts [] with h | h
    · rw [h]
      exact Or.inr rfl
    · left
      cases ts with
      | nil => exact absurd rfl h
      | cons v vs => rfl
  · intro h
    rw [h]
    rfl

theorem Inv_FileTree_init (nm : String) (d : Int) (c : Nat × Nat × Nat)
    (hn : nm ≠ "") (hd : 0 < d) (hc : colourOk c = true) :
    (FileTree.init nm d c).Inv = true :=
  Inv_init nm [] d c Kind.file hn (le_of_lt hd) (fun _ => hd) rfl hc rfl

theorem Inv_DirectoryTree_init (nm : String) (ts : List TMTree)
    (c : Nat × Nat × Nat) (hn : nm ≠ "") (hts : InvL ts = true)
    (hc : colourOk c = true) : (DirectoryTree.init nm ts c).Inv = true :=
  Inv_init nm ts 1 c Kind.directory hn (by norm_num) (fun _ => one_pos) hts
    hc (by simp [kindOk])

mutual

/-- "`move_dict` contains a valid representation of a `ChessTree`": every
move string in the dictionary is non-empty and every leaf entry (one with
an empty sub-dictionary) ended at least one game. -/
def NDict.validB : NDict → Bool
  | .mk entries => NDict.validEntriesB entries

/-- `NDict.validB` over an entry list. -/
def NDict.validEntriesB : List ((String × Nat) × NDict) → Bool
  | [] => true
  | ((mv, cnt), d) :: rest =>
    decide (mv ≠ "") && (!(d.entries.isEmpty) || decide (0 < cnt)) &&
      NDict.validB d && NDict.validEntriesB rest

end

mutual

/-- Induction over an `NDict` with the hypothesis available for the
sub-dictionary of every entry. -/
theorem NDict.inductionOnDict {motive : NDict → Prop}
    (h : ∀ entries : List ((String × Nat) × NDict),
      (∀ e ∈ entries, motive e.2) → motive (NDict.mk entries)) :
    ∀ d, motive d
  | .mk entries => h entries (NDict.inductionOnEntries h entries)

/-- Companion of `NDict.inductionOnDict` for entry lists. -/
theorem NDict.inductionOnEntries {motive : NDict → Prop}
    (h : ∀ entries : List ((String × Nat) × NDict),
      (∀ e ∈ entries, motive e.2) → motive (NDict.mk entries)) :
    ∀ entries : List ((String × Nat) × NDict), ∀ e ∈ entries, motive e.2
  | [] => fun e he => absurd he (List.not_mem_nil e)
  | x :: xs => fun e he =>
    Or.elim (List.mem_cons.mp he)
      (fun h1 => h1 ▸ NDict.inductionOnDict h x.2)
      (fun h2 => NDict.inductionOnEntries h xs e h2)

end

theorem InvL_fromEntries (c : Nat × Nat × Nat)
    (es : List ((String × Nat) × NDict)) (white : Bool)
    (ih : ∀ e ∈ es, ∀ (lm : String) (w : Bool) (cnt : Nat), lm ≠ "" →
      (e.2.entries = [] → 0 < cnt) → NDict.validB e.2 = true →
      (ChessTree.fromDict c e.2 lm w cnt).Inv = true)
    (hv : NDict.validEntriesB es = true) :
    InvL (ChessTree.fromEntries c es white) = true := by
  induction es with
  | nil => rfl
  | cons x xs ihl =>
    obtain ⟨⟨mv, cnt⟩, d⟩ := x
    simp only [NDict.validEntriesB, Bool.and_eq_true, decide_eq_true_eq,
      Bool.or_eq_true, Bool.not_eq_true'] at hv
    obtain ⟨⟨⟨hmv, hcnt⟩, hvd⟩, hrest⟩ := hv
    show InvL (ChessTree.fromDict c d mv (!white) cnt ::
      ChessTree.fromEntries c xs white) = true
    simp only [InvL, Bool.and_eq_true]
    constructor
    · refine ih ⟨(mv, cnt), d⟩ (by simp) mv (!white) cnt hmv ?_ hvd
      intro hde
      rcases hcnt with hcnt | hcnt
      · rw [hde] at hcnt
        cases hcnt
      · exact hcnt
    · exact ihl (fun e he => ih e (by simp [he])) hrest

theorem fromEntries_eq_nil (c : Nat × Nat × Nat)
    (es : List ((String × Nat) × NDict)) (white : Bool)
    (h : ChessTree.fromEntries c es white = []) : es = [] := by
  cases es with
  | nil => rfl
  | cons x xs =>
    obtain ⟨⟨mv, cnt⟩, d⟩ := x
    exact absurd h (by
      show ChessTree.fromDict c d mv (!white) cnt ::
        ChessTree.fromEntries c xs white ≠ []
      simp)

/-- `ChessTree.__init__` under its stated preconditions establishes the
invariant. -/
theorem Inv_fromDict (c : Nat × Nat × Nat) :
    ∀ (d : NDict) (lm : String) (white : Bool) (cnt : Nat),
      colourOk c = true → lm ≠ "" → (d.entries = [] → 0 < cnt) →
      NDict.validB d = true →
      (ChessTree.fromDict c d lm white cnt).Inv = true := by
  intro d
  induction d using NDict.inductionOnDict with
  | h entries ih =>
    intro lm white cnt hc hlm hleaf hv
    replace hv : NDict.validEntriesB entries = true := hv
    replace hleaf : entries = [] → 0 < cnt := hleaf
    show (TMTree.init lm (ChessTree.fromEntries c entries white)
      (cnt : Int) c Kind.chessMove).Inv = true
    refine Inv_init lm _ (cnt : Int) c Kind.chessMove hlm
      (Int.natCast_nonneg cnt) ?_ ?_ hc rfl
    · intro h
      have hen : entries = [] := fromEntries_eq_nil c entries white h
      exact_mod_cast hleaf hen
    · exact InvL_fromEntries c entries white
        (fun e he lm' w' cnt' h1 h2 h3 => ih e he lm' w' cnt' hc h1 h2 h3) hv

/-!
Displayed-tree facts needed for `move` and `change_size` preservation.
-/

/-- Unpack `is_displayed_tree_leaf` at a non-root path. -/
theorem displayed_leaf_parts (t : TMTree) (q : List Nat) (hq : q ≠ [])
    (hdl : t.is_displayed_tree_leaf q = true) :
    ∃ node parent, getNode t q = some node ∧
      getNode t q.dropLast = some parent ∧ node.expanded = false ∧
      parent.expanded = true := by
  unfold TMTree.is_displayed_tree_leaf at hdl
  cases hn : getNode t q with
  | none => rw [hn] at hdl; cases hdl
  | some node =>
    rw [hn] at hdl
    cases q with
    | nil => exact absurd rfl hq
    | cons j q' =>
      cases hp : getNode t ((j :: q').dropLast) with
      | none => rw [hp] at hdl; cases hdl
      | some parent =>
        rw [hp] at hdl
        simp only [Bool.and_eq_true, Bool.not_eq_true'] at hdl
        exact ⟨node, parent, rfl, rfl, hdl.2, hdl.1⟩

/-- Unpack `is_displayed_tree_leaf` at any path: the node exists and is
unexpanded. -/
theorem displayed_leaf_node (t : TMTree) (q : List Nat)
    (hdl : t.is_displayed_tree_leaf q = true) :
    ∃ node, getNode t q = some node ∧ node.expanded = false := by
  unfold TMTree.is_displayed_tree_leaf at hdl
  cases hn : getNode t q with
  | none => rw [hn] at hdl; cases hdl
  | some node =>
    rw [hn] at hdl
    cases q with
    | nil =>
      simp only [Bool.not_eq_true'] at hdl
      exact ⟨node, rfl, hdl⟩
    | cons j q' =>
      cases hp : getNode t ((j :: q').dropLast) with
      | none => rw [hp] at hdl; cases hdl
      | some parent =>
        rw [hp] at hdl
        simp only [Bool.and_eq_true, Bool.not_eq_true'] at hdl
        exact ⟨node, rfl, hdl.2⟩


/-- In a well-formed tree, a node that is expanded has every proper
ancestor expanded (an unexpanded ancestor would force it unexpanded). -/
theorem ancestorsExpanded_of_expanded (t : TMTree) (q : List Nat)
    (w : TMTree) (hInv : t.Inv = true) (hw : getNode t q = some w)
    (hwe : w.expanded = true) : ancestorsExpanded t q = true := by
  induction q generalizing t with
  | nil => rfl
  | cons i q' ih =>
    rw [getNode_cons] at hw
    cases hu : t.subtrees[i]? with
    | none => rw [hu] at hw; cases hw
    | some u =>
      rw [hu, Option.some_bind] at hw
      have hInvU : u.Inv = true :=
        Inv_mem_subtrees t hInv u (List.getElem?_mem hu)
      have hte : t.expanded = true := by
        by_contra hte
        rw [Bool.not_eq_true] at hte
        have hdu : deepUnexpanded u = true :=
          deepUnexpanded_mem t
            (deepUnexpanded_of_Inv_not_expanded t hInv hte) u
            (List.getElem?_mem hu)
        have hwe' := (deepUnexpanded_getNode u q' w hdu hw).1
        rw [hwe'] at hwe
        cases hwe
      rw [ancestorsExpanded_cons, hu]
      simp only [Bool.and_eq_true]
      exact ⟨hte, ih u hInvU hw⟩

theorem ancestorsExpanded_append (t : TMTree) (q r : List Nat) (w : TMTree)
    (hw : getNode t q = some w) (h1 : ancestorsExpanded t q = true)
    (h2 : ancestorsExpanded w r = true) :
    ancestorsExpanded t (q ++ r) = true := by
  induction q generalizing t with
  | nil => cases hw; exact h2
  | cons i q' ih =>
    rw [getNode_cons] at hw
    rw [ancestorsExpanded_cons] at h1
    cases hu : t.subtrees[i]? with
    | none => rw [hu] at hw; cases hw
    | some u =>
      rw [hu] at hw h1
      rw [Option.some_bind] at hw
      simp only [Bool.and_eq_true] at h1
      rw [List.cons_append, ancestorsExpanded_cons, hu]
      simp only [Bool.and_eq_true]
      exact ⟨h1.1, ih u hw h1.2⟩

theorem ancestorsExpanded_single (w : TMTree) (i : Nat) :
    ancestorsExpanded w [i] = w.expanded := by
  rw [ancestorsExpanded_cons]
  cases hu : w.subtrees[i]? with
  | none => simp
  | some u => simp [ancestorsExpanded]

/-- The proper ancestors of a displayed leaf are all expanded. -/
theorem ancestorsExpanded_of_displayed_leaf (t : TMTree) (q : List Nat)
    (hInv : t.Inv = true) (hdl : t.is_displayed_tree_leaf q = true) :
    ancestorsExpanded t q = true := by
  rcases eq_or_ne q [] with h | h
  · rw [h]; rfl
  · obtain ⟨node, parent, hn, hp, hne0, hpe⟩ :=
      displayed_leaf_parts t q h hdl
    have h1 : ancestorsExpanded t q.dropLast = true :=
      ancestorsExpanded_of_expanded t q.dropLast parent hInv hp hpe
    have hsplit : q.dropLast ++ [q.getLast h] = q :=
      List.dropLast_append_getLast h
    rw [← hsplit]
    refine ancestorsExpanded_append t q.dropLast [q.getLast h] parent hp h1 ?_
    rw [ancestorsExpanded_single, hpe]

/-!
Steps 1-4 of `move` preserve the invariant.
-/

/-- Attaching a well-formed, deeply-unexpanded subtree at a non-File
destination whose ancestors are all expanded preserves the invariant. -/
theorem Inv_attachAt (x : TMTree) (hx : x.Inv = true)
    (hxd : deepUnexpanded x = true) :
    ∀ (pd : List Nat) t d, t.Inv = true → getNode t pd = some d →
      d.kind ≠ Kind.file → ancestorsExpanded t pd = true →
      (attachAt t pd x).Inv = true := by
  intro pd
  induction pd with
  | nil =>
    intro t d ht hd hk _
    cases hd
    cases t with
    | mk n s c e r k ts =>
      show (TMTree.mk n (s + x.data_size) c true r k (ts ++ [x])).Inv = true
      rw [Inv_mk_iff] at ht ⊢
      obtain ⟨h1, h2, h3, h4, _, _, h7, h8⟩ := ht
      have hxpos := data_size_pos_of_Inv x hx
      refine ⟨by omega, h2, ?_, h4, Or.inl rfl, ?_, ?_, ?_⟩
      · right
        rw [sumSizes_append, sumSizes_cons, sumSizes_nil]
        rcases h3 with h3 | h3
        · have h0 : sumSizes ts = 0 := by rw [h3]; rfl
          omega
        · omega
      · intro hc
        exact absurd hc (by simp)
      · cases k with
        | file => exact absurd rfl hk
        | directory =>
          simp only [kindOk, decide_eq_true_eq] at h7 ⊢
          rw [sumSizes_append, sumSizes_cons, sumSizes_nil]
          omega
        | generic => rfl
        | chessMove => rfl
      · rw [InvL_append]
        simp only [Bool.and_eq_true]
        refine ⟨h8, ?_⟩
        simp only [InvL, Bool.and_eq_true]
        exact ⟨hx, trivial⟩
  | cons i p' ih =>
    intro t d ht hd hk hanc
    cases t with
    | mk n s c e r k ts =>
      rw [getNode_cons] at hd
      rw [ancestorsExpanded_cons] at hanc
      simp only [TMTree.subtrees_mk, TMTree.expanded_mk] at hd hanc
      cases hu : ts[i]? with
      | none => rw [hu] at hd; cases hd
      | some u =>
        rw [hu, Option.some_bind] at hd
        rw [hu] at hanc
        simp only [Bool.and_eq_true] at hanc
        obtain ⟨he, hanc2⟩ := hanc
        rw [attachAt_mk_cons]
        rw [Inv_mk_iff] at ht ⊢
        obtain ⟨h1, h2, h3, h4, _, _, h7, h8⟩ := ht
        have hmem := List.getElem?_mem hu
        have hInvU := (InvL_iff ts).mp h8 u hmem
        have hxpos := data_size_pos_of_Inv x hx
        have hsum :
            sumSizes (modifyChildren ts i (fun v => attachAt v p' x)) =
              sumSizes ts + x.data_size := by
          rw [sumSizes_modifyChildren ts i _ u hu, data_size_attachAt]
          ring
        have hne : ts ≠ [] := by intro hc; rw [hc] at hu; simp at hu
        refine ⟨by omega, h2, ?_, h4, Or.inl he, ?_, ?_, ?_⟩
        · right
          rw [hsum]
          rcases h3 with h3 | h3
          · exact absurd h3 hne
          · omega
        · intro hc
          have h9 := congrArg List.isEmpty hc
          rw [modifyChildren_isEmpty] at h9
          exact absurd (by simpa using h9) hne
        · exact kindOk_shift k s _ x.data_size ts _ rfl hsum
            (modifyChildren_isEmpty ts i _) h7
        · exact InvL_modifyChildren ts i _ u hu h8 (ih u d hInvU hd hk hanc2)

/-- The size-subtraction walk of `move` never expands anything. -/
theorem deepUnexpanded_detachAt (sz : Int) :
    ∀ (q : List Nat) u, deepUnexpanded u = true →
      deepUnexpanded (detachAt u q sz) = true := by
  intro q
  induction q with
  | nil =>
    intro u hu
    rw [detachAt_nil]
    exact hu
  | cons i p' ih =>
    intro u hu
    cases u with
    | mk n s c e r k ts =>
      rw [deepUnexpanded_def] at hu
      simp only [TMTree.expanded_mk, TMTree.subtrees_mk, Bool.and_eq_true,
        Bool.not_eq_true'] at hu
      cases p' with
      | nil =>
        rw [detachAt_mk_single, deepUnexpanded_def]
        simp only [TMTree.expanded_mk, TMTree.subtrees_mk, hu.1,
          Bool.and_eq_true, Bool.not_eq_true']
        refine ⟨by split <;> rfl, ?_⟩
        exact allDeepUnexpandedL_sublist ts _ (List.eraseIdx_sublist ts i)
          hu.2
      | cons j p1 =>
        rw [detachAt_mk_cons n s c e r k ts i (j :: p1) (by simp) sz,
          deepUnexpanded_def]
        simp only [TMTree.expanded_mk, TMTree.subtrees_mk, hu.1,
          Bool.not_false, Bool.true_and]
        cases hv : ts[i]? with
        | none =>
          rw [modifyChildren_of_none ts i _ hv]
          exact hu.2
        | some v =>
          exact allDeep_modifyChildren ts i _ v hv hu.2
            (ih v ((allDeepUnexpandedL_iff ts).mp hu.2 v
              (List.getElem?_mem hv)))

/-- A non-empty list with at least two elements never erases to empty. -/
theorem eraseIdx_cons_cons_ne_nil (v w : TMTree) (ws : List TMTree)
    (i : Nat) : (v :: w :: ws).eraseIdx i ≠ [] := by
  cases i with
  | zero => simp [List.eraseIdx]
  | succ j => simp [List.eraseIdx]

/-- Steps 2-4 of `move` (subtract the moved size along the source path,
then unlink the moved child) preserve the invariant, provided the detached
node's size is strictly below its parent's. -/
theorem Inv_detachAt (sz : Int) :
    ∀ (ps : List Nat) t s par, ps ≠ [] → t.Inv = true →
      getNode t ps = some s → s.data_size = sz →
      getNode t ps.dropLast = some par → sz < par.data_size →
      (detachAt t ps sz).Inv = true := by
  intro ps
  induction ps with
  | nil => intro t s par hne; exact absurd rfl hne
  | cons i p' ih =>
    intro t s par _ ht hs hsz hpar hlt
    cases t with
    | mk n sR c e r k ts =>
      rw [getNode_cons] at hs
      simp only [TMTree.subtrees_mk] at hs
      cases hu : ts[i]? with
      | none => rw [hu] at hs; cases hs
      | some u =>
        rw [hu, Option.some_bind] at hs
        rw [Inv_mk_iff] at ht
        obtain ⟨h1, h2, h3, h4, h5, h6, h7, h8⟩ := ht
        have hmem := List.getElem?_mem hu
        have hInvU := (InvL_iff ts).mp h8 u hmem
        have hne : ts ≠ [] := by intro hc; rw [hc] at hu; simp at hu
        have hsum_le : sumSizes ts ≤ sR := by
          rcases h3 with h3 | h3
          · exact absurd h3 hne
          · exact h3
        have hpos : ∀ v ∈ ts, 0 < v.data_size :=
          fun v hv => data_size_pos_of_Inv v ((InvL_iff ts).mp h8 v hv)
        cases p' with
        | nil =>
          -- the parent of the moved node is this node
          cases hs
          replace hpar : par = TMTree.mk n sR c e r k ts := by
            rw [List.dropLast_single] at hpar
            cases hpar
            rfl
          rw [hpar] at hlt
          simp only [TMTree.data_size_mk] at hlt
          rw [detachAt_mk_single, Inv_mk_iff]
          have hserase : sumSizes (ts.eraseIdx i) = sumSizes ts - sz := by
            rw [sumSizes_eraseIdx ts i s hu, hsz]
          refine ⟨by omega, h2, ?_, h4, ?_, ?_, ?_, ?_⟩
          · rcases eq_or_ne (ts.eraseIdx i) [] with hnil | hnil
            · exact Or.inl hnil
            · right
              rw [hserase]
              omega
          · by_cases hlen : ts.length < 2
            · rw [if_pos hlen]
              right
              cases ts with
              | nil => exact absurd rfl hne
              | cons v vs =>
                cases vs with
                | nil =>
                  cases i with
                  | zero => rfl
                  | succ j => simp at hu
                | cons w ws =>
                  simp only [List.length_cons] at hlen
                  omega
            · rw [if_neg hlen]
              rcases h5 with h5 | h5
              · exact Or.inl h5
              · exact Or.inr (allDeepUnexpandedL_sublist ts _
                  (List.eraseIdx_sublist ts i) h5)
          · intro hc
            cases ts with
            | nil => exact absurd rfl hne
            | cons v vs =>
              cases vs with
              | nil => rw [if_pos (by simp)]
              | cons w ws => exact absurd hc (eraseIdx_cons_cons_ne_nil v w ws i)
          · cases k with
            | directory =>
              simp only [kindOk, decide_eq_true_eq] at h7 ⊢
              rw [hserase]
              omega
            | file =>
              exfalso
              replace h7 : ts.isEmpty = true := h7
              rw [List.isEmpty_iff] at h7
              exact hne h7
            | generic => rfl
            | chessMove => rfl
          · exact InvL_sublist ts _ (List.eraseIdx_sublist ts i) h8
        | cons j p1 =>
          have hp1 : (j :: p1) ≠ [] := by simp
          replace hpar : getNode u ((j :: p1).dropLast) = some par := by
            have hdl : (i :: j :: p1).dropLast = i :: (j :: p1).dropLast := by
              simp
            rw [hdl, getNode_cons] at hpar
            simp only [TMTree.subtrees_mk] at hpar
            rw [hu, Option.some_bind] at hpar
            exact hpar
          have hpar_le : par.data_size ≤ u.data_size :=
            getNode_data_size_le u ((j :: p1).dropLast) par hInvU hpar
          have hu_le : u.data_size ≤ sumSizes ts :=
            member_le_sumSizes ts u hmem hpos
          rw [detachAt_mk_cons n sR c e r k ts i (j :: p1) hp1 sz,
            Inv_mk_iff]
          have hsum :
              sumSizes (modifyChildren ts i (fun v => detachAt v (j :: p1) sz)) =
                sumSizes ts - sz := by
            rw [sumSizes_modifyChildren ts i _ u hu,
              data_size_detachAt u (j :: p1) hp1 sz]
            ring
          refine ⟨by omega, h2, ?_, h4, ?_, ?_, ?_, ?_⟩
          · right
            rw [hsum]
            omega
          · rcases h5 with h5 | h5
            · exact Or.inl h5
            · exact Or.inr (allDeep_modifyChildren ts i _ u hu h5
                (deepUnexpanded_detachAt sz (j :: p1) u
                  ((allDeepUnexpandedL_iff ts).mp h5 u hmem)))
          · intro hc
            have h9 := congrArg List.isEmpty hc
            rw [modifyChildren_isEmpty] at h9
            exact absurd (by simpa using h9) hne
          · exact kindOk_shift k sR (sR - sz) (-sz) ts _ (by ring)
              (by rw [hsum]; ring) (modifyChildren_isEmpty ts i _) h7
          · exact InvL_modifyChildren ts i _ u hu h8
              (ih u s par hp1 hInvU hs hsz hpar hlt)

/-- The size of a node is strictly below its parent's whenever the
difference is non-zero (the parent dominates the subtree total). -/
theorem child_size_lt (t : TMTree) (q : List Nat) (hq : q ≠ [])
    (s par : TMTree) (hInv : t.Inv = true) (hs : getNode t q = some s)
    (hpar : getNode t q.dropLast = some par)
    (hnz : par.data_size - s.data_size ≠ 0) :
    s.data_size < par.data_size := by
  have hInvP : par.Inv = true := Inv_getNode t q.dropLast par hInv hpar
  have hsplit : q.dropLast ++ [q.getLast hq] = q :=
    List.dropLast_append_getLast hq
  rw [← hsplit, getNode_append, hpar, Option.some_bind, getNode_cons] at hs
  cases hu : par.subtrees[q.getLast hq]? with
  | none => rw [hu] at hs; cases hs
  | some u =>
    rw [hu, Option.some_bind] at hs
    cases hs
    have hmem := List.getElem?_mem hu
    have hpos : ∀ v ∈ par.subtrees, 0 < v.data_size := fun v hv =>
      data_size_pos_of_Inv v (Inv_mem_subtrees par hInvP v hv)
    have hle : s.data_size ≤ sumSizes par.subtrees :=
      member_le_sumSizes par.subtrees s hmem hpos
    have hsum_le : sumSizes par.subtrees ≤ par.data_size := by
      cases par with
      | mk n sp c e r k ts =>
        have hfacts := (Inv_mk_iff n sp c e r k ts).mp hInvP
        rcases hfacts.2.2.1 with h | h
        · rw [TMTree.subtrees_mk] at hmem
          rw [h] at hmem
          simp at hmem
        · exact h
    omega

/-- `TMTree.move` under its stated preconditions — both paths displayed
leaves, distinct, the move not zeroing out the old parent — plus the
missing guard that the destination is not File-kind, preserves the
invariant. -/
theorem Inv_move (t : TMTree) (ps pd : List Nat) (t' : TMTree)
    (hInv : t.Inv = true)
    (hdls : t.is_displayed_tree_leaf ps = true)
    (hdld : t.is_displayed_tree_leaf pd = true)
    (hne : ps ≠ pd)
    (hkd : ∀ d, getNode t pd = some d → d.kind ≠ Kind.file)
    (hpz : ∀ s par, getNode t ps = some s →
      getNode t ps.dropLast = some par →
      par.data_size - s.data_size ≠ 0)
    (hmv : t.move ps pd = some t') : t'.Inv = true := by
  have hps : ps ≠ [] := by
    intro hc
    rw [TMTree.move, if_neg hne, if_pos hc] at hmv
    cases hmv
  obtain ⟨s, hs, hse⟩ := displayed_leaf_node t ps hdls
  obtain ⟨d, hd, _⟩ := displayed_leaf_node t pd hdld
  obtain ⟨sN, parN, hsN, hparN, _, _⟩ := displayed_leaf_parts t ps hps hdls
  rw [hs] at hsN
  cases hsN
  have hsd : deepUnexpanded s = true :=
    deepUnexpanded_of_Inv_not_expanded s (Inv_getNode t ps s hInv hs) hse
  have hsInv : s.Inv = true := Inv_getNode t ps s hInv hs
  have hanc : ancestorsExpanded t pd = true :=
    ancestorsExpanded_of_displayed_leaf t pd hInv hdld
  have hInv1 : (attachAt t pd s).Inv = true :=
    Inv_attachAt s hsInv hsd pd t d hInv hd (hkd d hd) hanc
  obtain ⟨hnp1, hnp2⟩ :=
    displayed_leaves_not_prefix t ps pd hInv hps hne hdls hdld
  have hs1 : getNode (attachAt t pd s) ps = some s := by
    rw [getNode_attachAt_off t pd ps s hnp2 hnp1]
    exact hs
  have hlt : s.data_size < parN.data_size :=
    child_size_lt t ps hps s parN hInv hs hparN (hpz s parN hs hparN)
  have hparNInv : parN.Inv = true :=
    Inv_getNode t ps.dropLast parN hInv hparN
  -- locate the old parent inside the attached tree
  have hpar1 : ∃ par1, getNode (attachAt t pd s) ps.dropLast = some par1 ∧
      s.data_size < par1.data_size := by
    by_cases hpre : ps.dropLast <+: pd
    · obtain ⟨rr, hrr⟩ := hpre
      refine ⟨attachAt parN rr s, ?_, ?_⟩
      · rw [← hrr, getNode_attachAt_prefix t ps.dropLast rr s, hparN]
        rfl
      · rw [data_size_attachAt]
        have := data_size_pos_of_Inv parN hparNInv
        omega
    · refine ⟨parN, ?_, hlt⟩
      rw [getNode_attachAt_off t pd ps.dropLast s hpre ?_]
      · exact hparN
      · intro hc
        exact hnp1 (hc.trans (List.dropLast_prefix ps))
  obtain ⟨par1, hpar1, hlt1⟩ := hpar1
  have hInv2 : (detachAt (attachAt t pd s) ps s.data_size).Inv = true :=
    Inv_detachAt s.data_size ps (attachAt t pd s) s par1 hps hInv1 hs1 rfl
      hpar1 hlt1
  obtain ⟨r, _, ht'⟩ := move_destructure t ps pd s t' hne hs hmv
  rw [ht', Inv_update_rectangles]
  exact hInv2

/-!
`change_size` preserves the invariant.
-/

@[simp] theorem deepUnexpanded_withDataSize (u : TMTree) (N : Int) :
    deepUnexpanded (u.withDataSize N) = deepUnexpanded u := by
  cases u; rfl

theorem modifyChildren_modifyChildren (ts : List TMTree) (i : Nat)
    (g1 g2 : TMTree → TMTree) :
    modifyChildren (modifyChildren ts i g1) i g2 =
      modifyChildren ts i (fun u => g2 (g1 u)) := by
  induction ts generalizing i with
  | nil => rfl
  | cons v vs ih =>
    cases i with
    | zero => rfl
    | succ j =>
      show v :: modifyChildren (modifyChildren vs j g1) j g2 = v :: _
      rw [ih]

theorem deepUnexpanded_addAlongPrefixes (δ : Int) :
    ∀ (q : List Nat) x, deepUnexpanded x = true →
      deepUnexpanded (addAlongPrefixes x q δ) = true := by
  intro q
  induction q with
  | nil =>
    intro x hx
    cases x with
    | mk n s c e r k ts =>
      rw [addAlongPrefixes_mk_nil]
      rw [deepUnexpanded_def] at hx ⊢
      exact hx
  | cons i p' ih =>
    intro x hx
    cases x with
    | mk n s c e r k ts =>
      rw [addAlongPrefixes_mk_cons]
      rw [deepUnexpanded_def] at hx ⊢
      simp only [TMTree.expanded_mk, TMTree.subtrees_mk, Bool.and_eq_true,
        Bool.not_eq_true'] at hx ⊢
      refine ⟨hx.1, ?_⟩
      cases hv : ts[i]? with
      | none =>
        rw [modifyChildren_of_none ts i _ hv]
        exact hx.2
      | some v =>
        exact allDeep_modifyChildren ts i _ v hv hx.2
          (ih v ((allDeepUnexpandedL_iff ts).mp hx.2 v (List.getElem?_mem hv)))

/-- Overwriting a node's size with a value at least 1 that still dominates
its subtree total keeps it well-formed (`directory` nodes excluded: their
size is forced). -/
theorem Inv_withDataSize (u : TMTree) (N : Int) (hu : u.Inv = true)
    (hk : u.kind ≠ Kind.directory) (hN1 : 1 ≤ N)
    (hNs : u.subtrees ≠ [] → sumSizes u.subtrees ≤ N) :
    (u.withDataSize N).Inv = true := by
  cases u with
  | mk n s c e r k ts =>
    show (TMTree.mk n N c e r k ts).Inv = true
    rw [Inv_mk_iff] at hu ⊢
    obtain ⟨h1, h2, h3, h4, h5, h6, h7, h8⟩ := hu
    refine ⟨by omega, h2, ?_, h4, h5, h6, ?_, h8⟩
    · rcases eq_or_ne ts [] with h | h
      · exact Or.inl h
      · exact Or.inr (hNs h)
    · cases k with
      | directory => exact absurd rfl hk
      | file => exact h7
      | generic => rfl
      | chessMove => rfl

/-- The write-then-propagate phase of `change_size` at a non-root path
preserves the invariant. -/
theorem Inv_resize_cons (N : Int) :
    ∀ (p : List Nat) t node, p ≠ [] → t.Inv = true →
      getNode t p = some node → node.kind ≠ Kind.directory → 1 ≤ N →
      (node.subtrees ≠ [] → sumSizes node.subtrees ≤ N) →
      (addAlongPrefixes (modifyAt t p (fun u => u.withDataSize N))
        p.dropLast (N - node.data_size)).Inv = true := by
  intro p
  induction p with
  | nil => intro t node hne; exact absurd rfl hne
  | cons i p0 ih =>
    intro t node _ ht hnode hkind hN1 hNsum
    cases t with
    | mk n s c e r k ts =>
      rw [getNode_cons] at hnode
      simp only [TMTree.subtrees_mk] at hnode
      cases hu : ts[i]? with
      | none => rw [hu] at hnode; cases hnode
      | some u =>
        rw [hu, Option.some_bind] at hnode
        rw [Inv_mk_iff] at ht
        obtain ⟨h1, h2, h3, h4, h5, h6, h7, h8⟩ := ht
        have hmem := List.getElem?_mem hu
        have hInvU := (InvL_iff ts).mp h8 u hmem
        have hne : ts ≠ [] := by intro hc; rw [hc] at hu; simp at hu
        have hpos : ∀ v ∈ ts, 0 < v.data_size :=
          fun v hv => data_size_pos_of_Inv v ((InvL_iff ts).mp h8 v hv)
        have hsum_le : sumSizes ts ≤ s := by
          rcases h3 with h3 | h3
          · exact absurd h3 hne
          · exact h3
        have hu_le : u.data_size ≤ sumSizes ts :=
          member_le_sumSizes ts u hmem hpos
        have hnode_le : node.data_size ≤ u.data_size :=
          getNode_data_size_le u p0 node hInvU hnode
        cases p0 with
        | nil =>
          cases hnode
          rw [modifyAt_cons]
          simp only [TMTree.name_mk, TMTree.data_size_mk, TMTree.colour_mk,
            TMTree.expanded_mk, TMTree.rect_mk, TMTree.kind_mk,
            TMTree.subtrees_mk, List.dropLast_single, modifyAt_nil]
          rw [addAlongPrefixes_mk_nil, Inv_mk_iff]
          have hsum :
              sumSizes (modifyChildren ts i
                  (fun v => v.withDataSize N)) =
                sumSizes ts + (N - node.data_size) := by
            rw [sumSizes_modifyChildren ts i _ node hu, data_size_withDataSize]
          refine ⟨by omega, h2, ?_, h4, ?_, ?_, ?_, ?_⟩
          · right
            rw [hsum]
            omega
          · rcases h5 with h5 | h5
            · exact Or.inl h5
            · refine Or.inr (allDeep_modifyChildren ts i _ node hu h5 ?_)
              rw [deepUnexpanded_withDataSize]
              exact (allDeepUnexpandedL_iff ts).mp h5 node hmem
          · intro hc
            have h9 := congrArg List.isEmpty hc
            rw [modifyChildren_isEmpty] at h9
            exact absurd (by simpa using h9) hne
          · exact kindOk_shift k s _ (N - node.data_size) ts _ rfl hsum
              (modifyChildren_isEmpty ts i _) h7
          · exact InvL_modifyChildren ts i _ node hu h8
              (Inv_withDataSize node N hInvU hkind hN1 hNsum)
        | cons j p1 =>
          have hp0 : (j :: p1) ≠ [] := by simp
          rw [modifyAt_cons]
          simp only [TMTree.name_mk, TMTree.data_size_mk, TMTree.colour_mk,
            TMTree.expanded_mk, TMTree.rect_mk, TMTree.kind_mk,
            TMTree.subtrees_mk]
          have hdl : (i :: j :: p1).dropLast = i :: (j :: p1).dropLast := by
            simp
          rw [hdl, addAlongPrefixes_mk_cons, modifyChildren_modifyChildren,
            Inv_mk_iff]
          have hds_child : ∀ v : TMTree,
              ((fun w => addAlongPrefixes
                  (modifyAt w (j :: p1) (fun z => z.withDataSize N))
                  ((j :: p1).dropLast) (N - node.data_size)) v).data_size =
                v.data_size + (N - node.data_size) := by
            intro v
            show (addAlongPrefixes _ _ _).data_size = _
            rw [data_size_addAlongPrefixes,
              data_size_modifyAt_cons v (j :: p1) hp0]
          have hsum :
              sumSizes (modifyChildren ts i
                  (fun w => addAlongPrefixes
                    (modifyAt w (j :: p1) (fun z => z.withDataSize N))
                    ((j :: p1).dropLast) (N - node.data_size))) =
                sumSizes ts + (N - node.data_size) := by
            rw [sumSizes_modifyChildren ts i _ u hu, hds_child]
            ring
          have hnode_pos : 0 < node.data_size :=
            data_size_pos_of_Inv node (Inv_getNode u (j :: p1) node hInvU hnode)
          refine ⟨by omega, h2, ?_, h4, ?_, ?_, ?_, ?_⟩
          · right
            rw [hsum]
            omega
          · rcases h5 with h5 | h5
            · exact Or.inl h5
            · refine Or.inr (allDeep_modifyChildren ts i _ u hu h5 ?_)
              refine deepUnexpanded_addAlongPrefixes _ _ _ ?_
              refine deepUnexpanded_modifyAt_of (j :: p1) _ ?_ u
                ((allDeepUnexpandedL_iff ts).mp h5 u hmem)
              intro w hw
              rw [deepUnexpanded_withDataSize]
              exact hw
          · intro hc
            have h9 := congrArg List.isEmpty hc
            rw [modifyChildren_isEmpty] at h9
            exact absurd (by simpa using h9) hne
          · exact kindOk_shift k s _ (N - node.data_size) ts _ rfl hsum
              (modifyChildren_isEmpty ts i _) h7
          · exact InvL_modifyChildren ts i _ u hu h8
              (ih u node hp0 hInvU hnode hkind hN1 hNsum)

/-- `TMTree.change_size` on a non-Directory node preserves the invariant. -/
theorem Inv_change_size (t : TMTree) (p : List Nat) (factor : ℚ)
    (node t' : TMTree) (hInv : t.Inv = true)
    (hnodeq : getNode t p = some node)
    (hkind : node.kind ≠ Kind.directory)
    (hcs : t.change_size p factor = some t') : t'.Inv = true := by
  obtain ⟨r, t2, hsplit, _, ht'⟩ :=
    change_size_destructure t p factor node t' hnodeq hcs
  have hInvNode : node.Inv = true := Inv_getNode t p node hInv hnodeq
  have hN1 : 1 ≤ csNewSize node factor := by
    rw [csNewSize_eq_max]
    by_cases hl : node.subtrees.isEmpty
    · rw [if_pos hl]
      exact le_trans (by norm_num) (le_max_right _ _)
    · rw [if_neg hl]
      refine le_trans ?_ (le_max_right _ _)
      have hln : node.subtrees ≠ [] := by
        intro hc
        rw [hc] at hl
        exact hl rfl
      have := sumSizes_pos node.subtrees hln
        (fun v hv => data_size_pos_of_Inv v (Inv_mem_subtrees node hInvNode v hv))
      omega
  have hNs : node.subtrees ≠ [] →
      sumSizes node.subtrees ≤ csNewSize node factor := by
    intro hln
    rw [csNewSize_eq_max, if_neg (by
      intro hc
      rw [List.isEmpty_iff] at hc
      exact hln hc)]
    exact le_max_right _ _
  rcases hsplit with ⟨hp, ht2⟩ | ⟨hp, ht2⟩
  · subst hp
    rw [getNode_nil] at hnodeq
    cases hnodeq
    rw [ht', Inv_update_rectangles, ht2, modifyAt_nil]
    exact Inv_withDataSize t _ hInv hkind hN1 hNs
  · rw [ht', Inv_update_rectangles, ht2]
    exact Inv_resize_cons (csNewSize node factor) p t node hp hInv hnodeq
      hkind hN1 hNs

/-- The dispatched `move` — either returning normally or raising
`OperationNotSupportedError` (which mutates nothing) — preserves the
invariant, given the destination-kind guard. -/
theorem Inv_moveOp (t : TMTree) (ps pd : List Nat) (t' : TMTree)
    (hInv : t.Inv = true)
    (hdls : t.is_displayed_tree_leaf ps = true)
    (hdld : t.is_displayed_tree_leaf pd = true)
    (hne : ps ≠ pd)
    (hkd : ∀ d, getNode t pd = some d → d.kind ≠ Kind.file)
    (hpz : ∀ s par, getNode t ps = some s →
      getNode t ps.dropLast = some par →
      par.data_size - s.data_size ≠ 0)
    (hout : moveOp t ps pd = OpOutcome.ok t' ∨
      moveOp t ps pd = OpOutcome.unsupported t') :
    t'.Inv = true := by
  obtain ⟨s, hs, _⟩ := displayed_leaf_node t ps hdls
  obtain ⟨d, hd, _⟩ := displayed_leaf_node t pd hdld
  have hbase : baseMoveOutcome t ps pd = OpOutcome.ok t' → t'.Inv = true := by
    intro hb
    cases hmv : t.move ps pd with
    | none =>
      simp only [baseMoveOutcome, hmv] at hb
      cases hb
    | some u =>
      simp only [baseMoveOutcome, hmv] at hb
      injection hb with hb'
      rw [← hb']
      exact Inv_move t ps pd u hInv hdls hdld hne hkd hpz hmv
  have hbase2 : ∀ u, baseMoveOutcome t ps pd ≠ OpOutcome.unsupported u := by
    intro u hb
    cases hmv : t.move ps pd with
    | none =>
      simp only [baseMoveOutcome, hmv] at hb
      cases hb
    | some w =>
      simp only [baseMoveOutcome, hmv] at hb
      cases hb
  rcases hout with hout | hout
  · cases hks : s.kind with
    | chessMove =>
      simp only [moveOp, hs, hd, hks] at hout
      cases hout
    | file =>
      simp only [moveOp, hs, hd, hks] at hout
      rw [if_neg (hkd d hd)] at hout
      exact hbase hout
    | directory =>
      simp only [moveOp, hs, hd, hks] at hout
      rw [if_neg (hkd d hd)] at hout
      exact hbase hout
    | generic =>
      simp only [moveOp, hs, hd, hks] at hout
      exact hbase hout
  · cases hks : s.kind with
    | chessMove =>
      simp only [moveOp, hs, hd, hks, OpOutcome.unsupported.injEq] at hout
      rw [← hout]
      exact hInv
    | file =>
      simp only [moveOp, hs, hd, hks] at hout
      rw [if_neg (hkd d hd)] at hout
      exact absurd hout (hbase2 t')
    | directory =>
      simp only [moveOp, hs, hd, hks] at hout
      rw [if_neg (hkd d hd)] at hout
      exact absurd hout (hbase2 t')
    | generic =>
      simp only [moveOp, hs, hd, hks] at hout
      exact absurd hout (hbase2 t')

/-- The dispatched `change_size` — returning normally or raising without
mutating — preserves the invariant. -/
theorem Inv_changeSizeOp (t : TMTree) (p : List Nat) (factor : ℚ)
    (t' : TMTree) (hInv : t.Inv = true)
    (hdl : t.is_displayed_tree_leaf p = true)
    (hout : changeSizeOp t p factor = OpOutcome.ok t' ∨
      changeSizeOp t p factor = OpOutcome.unsupported t') :
    t'.Inv = true := by
  obtain ⟨node, hnode, _⟩ := displayed_leaf_node t p hdl
  rcases hout with hout | hout
  · cases hkn : node.kind with
    | directory =>
      simp only [changeSizeOp, hnode, hkn] at hout
      cases hout
    | chessMove =>
      simp only [changeSizeOp, hnode, hkn] at hout
      cases hout
    | generic =>
      simp only [changeSizeOp, hnode, hkn] at hout
      cases hmv : t.change_size p factor with
      | none =>
        simp only [hmv] at hout
        cases hout
      | some u =>
        simp only [hmv] at hout
        injection hout with hout'
        rw [← hout']
        exact Inv_change_size t p factor node u hInv hnode
          (by rw [hkn]; intro hc; cases hc) hmv
    | file =>
      simp only [changeSizeOp, hnode, hkn] at hout
      cases hmv : t.change_size p factor with
      | none =>
        simp only [hmv] at hout
        cases hout
      | some u =>
        simp only [hmv] at hout
        injection hout with hout'
        rw [← hout']
        exact Inv_change_size t p factor node u hInv hnode
          (by rw [hkn]; intro hc; cases hc) hmv
  · cases hkn : node.kind with
    | directory =>
      simp only [changeSizeOp, hnode, hkn, OpOutcome.unsupported.injEq] at hout
      rw [← hout]
      exact hInv
    | chessMove =>
      simp only [changeSizeOp, hnode, hkn, OpOutcome.unsupported.injEq] at hout
      rw [← hout]
      exact hInv
    | generic =>
      simp only [changeSizeOp, hnode, hkn] at hout
      cases hmv : t.change_size p factor with
      | none =>
        simp only [hmv] at hout
        cases hout
      | some u =>
        simp only [hmv] at hout
        cases hout
    | file =>
      simp only [changeSizeOp, hnode, hkn] at hout
      cases hmv : t.change_size p factor with
      | none =>
        simp only [hmv] at hout
        cases hout
      | some u =>
        simp only [hmv] at hout
        cases hout

/-- A mixed, laid-out tree produced by public constructors: a plain
`TMTree` root holding a `FileTree` leaf and a plain leaf. -/
def c1BugTree : TMTree :=
  (TMTree.init "x"
    [FileTree.init "f" 1 (0, 0, 0),
     TMTree.init "y" [] 5 (0, 0, 0) Kind.generic]
    1 (0, 0, 0) Kind.generic).update_rectangles ⟨0, 0, 100, 100⟩

/-- C1, counterexample to the literal claim: in `c1BugTree` all of `move`'s
stated preconditions hold for moving the plain leaf `y` into the `FileTree`
leaf `f` — the tree satisfies every invariant, both paths are displayed
leaves, they are distinct, the root was laid out, and the old parent keeps
a positive size — yet the call returns normally and the resulting tree
violates the invariants (the File-kind node now has a subtree). -/
theorem C1_counterexample_move_into_file :
    c1BugTree.Inv = true ∧
    c1BugTree.is_displayed_tree_leaf [1] = true ∧
    c1BugTree.is_displayed_tree_leaf [0] = true ∧
    ([1] : List Nat) ≠ [0] ∧
    c1BugTree.rect = some ⟨0, 0, 100, 100⟩ ∧
    (∀ s par, getNode c1BugTree [1] = some s →
      getNode c1BugTree ([1] : List Nat).dropLast = some par →
      par.data_size - s.data_size ≠ 0) ∧
    (∃ t', moveOp c1BugTree [1] [0] = OpOutcome.ok t' ∧ t'.Inv = false) := by
  refine ⟨by decide, by decide, by decide, by decide, by decide, ?_, ?_⟩
  · intro s par hs hp
    rw [show getNode c1BugTree [1] =
      some (TMTree.mk "y" 5 (0, 0, 0) false (some ⟨0, 16, 100, 84⟩)
        Kind.generic []) from rfl] at hs
    cases hs
    rw [show getNode c1BugTree ([1] : List Nat).dropLast =
      some c1BugTree from rfl] at hp
    cases hp
    decide
  · exact ⟨_, rfl, by decide⟩

/-- The tree returned by the dispatched `move` on the doctest tree. -/
def c1MoveResult : TMTree :=
  match moveOp doctestT3 [0] [1] with
  | OpOutcome.ok u => u
  | _ => doctestT3

/-- The tree returned by the dispatched `change_size` on the doctest
tree. -/
def c1ChangeSizeResult : TMTree :=
  match changeSizeOp doctestT3 [1] 1 with
  | OpOutcome.ok u => u
  | _ => doctestT3

/-- C1: invariant preservation, corrected.  Every public operation, run
with its stated preconditions on a tree satisfying the representation
invariants, leaves every invariant holding (`TMTree.Inv` bundles: size
positive, name non-empty, size at least the subtree total, colour
components at most 255, an unexpanded node has only unexpanded
descendants — hence expanded implies the parent expanded — a childless
node is unexpanded, Directory size is `1 +` subtree total, File nodes are
childless; the parent/child pointer invariants hold by construction of the
path embedding).  The one correction — forced by the counterexample
`C1_counterexample_move_into_file` — is the extra guard on `move` that the
destination is not File-kind: the base `TMTree.move` never checks the
destination's class, so under the literal preconditions a plain node can
be moved into a `FileTree` leaf, leaving a File node with subtrees.  The
raising dispatches (`unsupported` outcomes) are included: they mutate
nothing. -/
theorem C1_invariant_preservation :
    (∀ (nm : String) (ts : List TMTree) (d : Int) (c : Nat × Nat × Nat),
      nm ≠ "" → 0 ≤ d → (ts = [] → 0 < d) → InvL ts = true →
      colourOk c = true →
      (TMTree.init nm ts d c Kind.generic).Inv = true) ∧
    (∀ (nm : String) (d : Int) (c : Nat × Nat × Nat),
      nm ≠ "" → 0 < d → colourOk c = true →
      (FileTree.init nm d c).Inv = true) ∧
    (∀ (nm : String) (ts : List TMTree) (c : Nat × Nat × Nat),
      nm ≠ "" → InvL ts = true → colourOk c = true →
      (DirectoryTree.init nm ts c).Inv = true) ∧
    (∀ (c : Nat × Nat × Nat) (d : NDict) (lm : String) (white : Bool)
      (cnt : Nat), colourOk c = true → lm ≠ "" →
      (d.entries = [] → 0 < cnt) → NDict.validB d = true →
      (ChessTree.fromDict c d lm white cnt).Inv = true) ∧
    (∀ (t : TMTree) (r : Rect), t.Inv = true →
      (t.update_rectangles r).Inv = true) ∧
    (∀ (t : TMTree) (p : List Nat), t.Inv = true →
      ancestorsExpanded t p = true → (expandAt t p).Inv = true) ∧
    (∀ (t : TMTree) (p : List Nat), t.Inv = true →
      ancestorsExpanded t p = true → (expandAllAt t p).Inv = true) ∧
    (∀ (t : TMTree) (p : List Nat), t.Inv = true →
      (t.collapse p).Inv = true) ∧
    (∀ (t : TMTree) (p : List Nat), t.Inv = true →
      (t.collapse_all p).Inv = true) ∧
    (∀ (t : TMTree) (ps pd : List Nat) (t' : TMTree), t.Inv = true →
      t.is_displayed_tree_leaf ps = true →
      t.is_displayed_tree_leaf pd = true → ps ≠ pd →
      (∀ d, getNode t pd = some d → d.kind ≠ Kind.file) →
      (∀ s par, getNode t ps = some s →
        getNode t ps.dropLast = some par →
        par.data_size - s.data_size ≠ 0) →
      (moveOp t ps pd = OpOutcome.ok t' ∨
        moveOp t ps pd = OpOutcome.unsupported t') →
      t'.Inv = true) ∧
    (∀ (t : TMTree) (p : List Nat) (factor : ℚ) (t' : TMTree),
      t.Inv = true → t.is_displayed_tree_leaf p = true → factor ≠ 0 →
      (changeSizeOp t p factor = OpOutcome.ok t' ∨
        changeSizeOp t p factor = OpOutcome.unsupported t') →
      t'.Inv = true) := by
  refine ⟨?_, ?_, ?_, ?_, ?_, ?_, ?_, ?_, ?_, ?_, ?_⟩
  · intro nm ts d c hn hd hd2 hts hc
    exact Inv_init nm ts d c Kind.generic hn hd hd2 hts hc rfl
  · intro nm d c hn hd hc
    exact Inv_FileTree_init nm d c hn hd hc
  · intro nm ts c hn hts hc
    exact Inv_DirectoryTree_init nm ts c hn hts hc
  · intro c d lm white cnt hc hlm hleaf hv
    exact Inv_fromDict c d lm white cnt hc hlm hleaf hv
  · intro t r hInv
    rw [Inv_update_rectangles]
    exact hInv
  · intro t p hInv hanc
    exact Inv_expandAt t p hInv hanc
  · intro t p hInv hanc
    exact Inv_expandAllAt t p hInv hanc
  · intro t p hInv
    exact Inv_collapse t p hInv
  · intro t p hInv
    exact Inv_collapse_all t p hInv
  · intro t ps pd t' hInv hdls hdld hne hkd hpz hout
    exact Inv_moveOp t ps pd t' hInv hdls hdld hne hkd hpz hout
  · intro t p factor t' hInv hdl _ hout
    exact Inv_changeSizeOp t p factor t' hInv hdl hout

/-- Witness for C1: every conjunct instantiated at a concrete input — the
doctest constructors, layout, expand/collapse at path `[0]` of the laid-out
doctest tree, the move `C1 -> C2`, and `change_size(1)` on `C2`. -/
theorem C1_invariant_preservation_witness :
    (TMTree.init "B" [] 5 (0, 0, 0) Kind.generic).Inv = true ∧
    (FileTree.init "f" 1 (0, 0, 0)).Inv = true ∧
    (DirectoryTree.init "d" [] (0, 0, 0)).Inv = true ∧
    (ChessTree.fromDict (0, 0, 0)
      (NDict.mk [(("e2e4", 0), NDict.mk [(("e7e5", 1), NDict.mk [])])])
      "-" true 0).Inv = true ∧
    ((FileTree.init "f" 1 (0, 0, 0)).update_rectangles
      ⟨0, 0, 10, 10⟩).Inv = true ∧
    (expandAt doctestT3 [0]).Inv = true ∧
    (expandAllAt doctestT3 [0]).Inv = true ∧
    (doctestT3.collapse [0]).Inv = true ∧
    (doctestT3.collapse_all [0]).Inv = true ∧
    c1MoveResult.Inv = true ∧
    c1ChangeSizeResult.Inv = true := by
  obtain ⟨h1, h2, h3, h4, h5, h6, h7, h8, h9, h10, h11⟩ :=
    C1_invariant_preservation
  refine ⟨?_, ?_, ?_, ?_, ?_, ?_, ?_, ?_, ?_, ?_, ?_⟩
  · exact h1 "B" [] 5 (0, 0, 0) (by decide) (by decide)
      (fun _ => by decide) rfl (by decide)
  · exact h2 "f" 1 (0, 0, 0) (by decide) (by decide) (by decide)
  · exact h3 "d" [] (0, 0, 0) (by decide) rfl (by decide)
  · exact h4 (0, 0, 0) _ "-" true 0 (by decide) (by decide)
      (fun h => by cases h) (by decide)
  · exact h5 (FileTree.init "f" 1 (0, 0, 0)) ⟨0, 0, 10, 10⟩ (by decide)
  · exact h6 doctestT3 [0] (by decide) (by decide)
  · exact h7 doctestT3 [0] (by decide) (by decide)
  · exact h8 doctestT3 [0] (by decide)
  · exact h9 doctestT3 [0] (by decide)
  · refine h10 doctestT3 [0] [1] c1MoveResult (by decide) (by decide)
      (by decide) (by decide) ?_ ?_ (Or.inl rfl)
    · intro d hd
      rw [show getNode doctestT3 [1] =
        some (TMTree.mk "C2" 15 (0, 0, 0) false (some ⟨0, 50, 100, 150⟩)
          Kind.generic []) from rfl] at hd
      cases hd
      decide
    · intro s par hs hp
      rw [show getNode doctestT3 [0] =
        some (TMTree.mk "C1" 5 (0, 0, 0) false (some ⟨0, 0, 100, 50⟩)
          Kind.generic []) from rfl] at hs
      cases hs
      rw [show getNode doctestT3 ([0] : List Nat).dropLast =
        some doctestT3 from rfl] at hp
      cases hp
      decide
  · exact h11 doctestT3 [1] 1 c1ChangeSizeResult (by decide) (by decide)
      one_ne_zero (Or.inl rfl)
